import Mathlib

/-!
# Verification of the `ringbuffer` Go package

Shallow embedding of the four ring-buffer variants of the `ringbuffer`
package (byte `Ring`, fixed-capacity `RingP`, growing bounded `RingT`,
weight-bounded `WeightedRingT`) together with proofs of the specified
properties.

Go `uint` values are embedded as `Nat` with explicit wraparound modulo
`2^64` in the two places where wraparound is semantically relevant
(`head - tail` subtraction and the `uint(len)-1` mask of an empty
buffer); all other unsigned quantities in reachable states are small
indices for which Go arithmetic agrees with `Nat` arithmetic.
Go slices are embedded as `List`; an indexed read `a[i]` is embedded as
`List.getD` (reachable states keep every index in range, so the default
is never produced).  Go `int` is embedded as `Int`.
-/

set_option maxRecDepth 8000

namespace Ringbuffer

/-- The modulus of Go `uint` arithmetic (64-bit). -/
def U : Nat := 2 ^ 64

/-- Go unsigned addition `a + b` of two `uint` values. -/
def add64 (a b : Nat) : Nat := (a + b) % U

/-- Go unsigned subtraction `a - b` of two `uint` values; wraps modulo `2^64`. -/
def sub64 (a b : Nat) : Nat := (a % U + U - b % U) % U

/-- Go conversion `uint(i)` of an `int` value. -/
def intToUint (i : Int) : Nat := (i % (2 ^ 64 : Int)).toNat

theorem U_pos : 0 < U := by decide

theorem pow_dvd_U {k : Nat} (hk : k ≤ 64) : 2 ^ k ∣ U :=
  pow_dvd_pow 2 hk

/-- Masking with `2^k - 1` is reduction modulo `2^k`. -/
theorem land_mask (x k : Nat) : x &&& (2 ^ k - 1) = x % 2 ^ k :=
  Nat.and_pow_two_sub_one_eq_mod x k

/-- A value reduced modulo `2^64` and then masked to `k ≤ 64` low bits is
the same as the value masked directly. -/
theorem mod_U_land_mask {k : Nat} (x : Nat) (hk : k ≤ 64) :
    x % U &&& (2 ^ k - 1) = x % 2 ^ k := by
  rw [land_mask, Nat.mod_mod_of_dvd x (pow_dvd_U hk)]

/-- Normalization of the Go expression `(h - t) & (s-1)` for a power-of-two
size `s` and in-range `h`, `t`: it is the cyclic distance `(h + s - t) % s`. -/
theorem sub64_land {k s h t : Nat} (hs : s = 2 ^ k) (hk : k ≤ 64)
    (hh : h < s) (ht : t < s) :
    sub64 h t &&& (s - 1) = (h + s - t) % s := by
  have hsU : s ≤ U := by
    rw [hs]
    exact Nat.pow_le_pow_right (by norm_num) hk
  have hhU : h % U = h := Nat.mod_eq_of_lt (lt_of_lt_of_le hh hsU)
  have htU : t % U = t := Nat.mod_eq_of_lt (lt_of_lt_of_le ht hsU)
  have hsplit : h + U - t = (h + s - t) + (U - s) := by omega
  rw [sub64, hhU, htU, hs, mod_U_land_mask _ hk, ← hs, hsplit]
  obtain ⟨c, hc⟩ : s ∣ U - s := by
    refine Nat.dvd_sub' ?_ dvd_rfl
    rw [hs]; exact pow_dvd_U hk
  rw [hc, Nat.add_mul_mod_self_left]

/-- Normalization of the Go expression `(a + b) & (s-1)` for a power-of-two
size `s`: it is `(a + b) % s`. -/
theorem add64_land {k s : Nat} (a b : Nat) (hs : s = 2 ^ k) (hk : k ≤ 64) :
    add64 a b &&& (s - 1) = (a + b) % s := by
  rw [add64, hs, mod_U_land_mask _ hk]

/-- Reduce `x % s` to an `if` when `x < 2*s`; this turns cyclic-index
arithmetic into linear arithmetic. -/
theorem mod_two_cases {x s : Nat} (hx : x < 2 * s) (hs : 0 < s) :
    x % s = if x < s then x else x - s := by
  by_cases h : x < s
  · simp [h, Nat.mod_eq_of_lt]
  · rw [if_neg h, Nat.mod_eq_sub_mod (by omega), Nat.mod_eq_of_lt (by omega)]

theorem mod_lt_of_pos (x : Nat) {s : Nat} (hs : 0 < s) : x % s < s :=
  Nat.mod_lt x hs

theorem intToUint_ofNat (i : Nat) : intToUint (Int.ofNat i) = i % 2 ^ 64 := by
  unfold intToUint
  norm_cast

theorem intToUint_ofNat_small {i : Nat} (h : i < 2 ^ 64) :
    intToUint (Int.ofNat i) = i := by
  rw [intToUint_ofNat, Nat.mod_eq_of_lt h]

/-- A negative Go `int` converted to `uint` lands in the upper half of the
`uint` range. -/
theorem intToUint_neg {i : Int} (h0 : i < 0) (h1 : -(2 ^ 63) ≤ i) :
    2 ^ 63 ≤ intToUint i := by
  unfold intToUint
  omega

/-- `List.getD` after `List.set` at the same (in-range) position. -/
theorem getD_set_eq {γ : Type _} {l : List γ} {j : Nat} (hj : j < l.length)
    (x d : γ) : (l.set j x).getD j d = x := by
  simp [List.getD_eq_getElem?_getD, List.getElem?_set_self, hj]

/-- `List.getD` after `List.set` at a different position. -/
theorem getD_set_ne {γ : Type _} {l : List γ} {i j : Nat} (h : j ≠ i)
    (x d : γ) : (l.set j x).getD i d = l.getD i d := by
  simp [List.getD_eq_getElem?_getD, List.getElem?_set_ne h]

/-- A suffix of a list is its last `length` elements. -/
theorem suffix_eq_drop {γ : Type _} {l1 l2 : List γ} (h : l1 <:+ l2) :
    l1 = l2.drop (l2.length - l1.length) := by
  obtain ⟨t, rfl⟩ := h
  simp

/-- Reading every position of a list with `getD` reassembles the list. -/
theorem map_range_getD {γ : Type _} (l : List γ) (d : γ) :
    (List.range l.length).map (fun i => l.getD i d) = l := by
  refine List.ext_getElem (by simp) ?_
  intro i h1 h2
  simp [List.getD_eq_getElem?_getD, List.getElem?_eq_getElem h2]

/-! ## RingP: the fixed-capacity value ring (BoundedRing)

Embeds the Go type `RingP[T]`: a ring of plain values whose backing buffer
is allocated at creation and never changes. -/

structure RingP (α : Type _) where
  items : List α -- len(items) is a power of 2
  mask : Nat     -- mask = len(items) - 1
  tail : Nat     -- read from tail
  head : Nat     -- write into head

/-- `NewRingP` with `sizePlus1` a power of two (Go panics otherwise, so the
constructor is only applied under that hypothesis); the Go `make` zero-fills
the buffer. -/
def NewRingP (α : Type _) [Inhabited α] (sizePlus1 : Nat) : RingP α :=
  { items := List.replicate sizePlus1 default
    mask := sizePlus1 - 1
    tail := 0
    head := 0 }

namespace RingP

variable {α : Type _} [Inhabited α]

/-- Capacity of the ring buffer, which is 2^N - 1. -/
def Capacity (r : RingP α) : Nat := r.mask

/-- Number of elements in the buffer: `int((r.head - r.tail) & r.mask)`. -/
def Len (r : RingP α) : Nat := sub64 r.head r.tail &&& r.mask

/-- `IsFull` returns true if adding another item would pop the oldest one. -/
def IsFull (r : RingP α) : Bool := r.Len == r.mask

/-- `Next` pops the oldest item, or returns the zero value if empty. -/
def Next (r : RingP α) : α × RingP α :=
  if r.Len = 0 then (default, r)
  else
    (r.items.getD r.tail default,
      { r with tail := add64 r.tail 1 &&& r.mask })

/-- `Peek` returns the `Tail+i` element without changing state. -/
def Peek (r : RingP α) (i : Int) : α :=
  let length := sub64 r.head r.tail &&& r.mask
  let ui := intToUint i
  if ui ≥ length then default
  else r.items.getD (add64 r.tail ui &&& r.mask) default

/-- `Add` inserts an item, first erasing the oldest item if full. -/
def Add (r : RingP α) (item : α) : RingP α :=
  let r1 := if r.IsFull then (r.Next).2 else r
  { r1 with items := r1.items.set r1.head item
            head := add64 r1.head 1 &&& r1.mask }

/-- The logical content of the ring, oldest first, read through `Peek`. -/
def content (r : RingP α) : List α :=
  (List.range r.Len).map (fun i => r.Peek (Int.ofNat i))

/-- Well-formedness of every ring reachable from `NewRingP`. -/
def Inv (r : RingP α) : Prop :=
  ∃ k, 1 ≤ k ∧ k ≤ 62 ∧ r.items.length = 2 ^ k ∧ r.mask = 2 ^ k - 1 ∧
    r.head < 2 ^ k ∧ r.tail < 2 ^ k

end RingP

/-! ### Cyclic-index arithmetic facts shared by all variants -/

/-- Advancing the tail decrements the cyclic length. -/
theorem cyc_tail_succ {s h t : Nat} (hh : h < s) (ht : t < s)
    (hne : (h + s - t) % s ≠ 0) :
    (h + s - (t + 1) % s) % s = (h + s - t) % s - 1 := by
  have hs : 0 < s := by omega
  have e1 := mod_two_cases (x := h + s - t) (by omega) hs
  by_cases hts : t + 1 < s
  · have e2 := mod_two_cases (x := h + s - (t + 1)) (by omega) hs
    rw [Nat.mod_eq_of_lt hts, e2, e1]
    rw [e1] at hne
    split_ifs at * <;> omega
  · have hteq : t + 1 = s := by omega
    rw [hteq, Nat.mod_self, Nat.sub_zero, Nat.add_mod_right,
      Nat.mod_eq_of_lt hh, e1]
    rw [e1] at hne
    split_ifs at * <;> omega

/-- Advancing the head increments the cyclic length (when not yet full). -/
theorem cyc_head_succ {s h t : Nat} (hh : h < s) (ht : t < s)
    (hlt : (h + s - t) % s < s - 1) :
    ((h + 1) % s + s - t) % s = (h + s - t) % s + 1 := by
  have hs : 0 < s := by omega
  have e1 := mod_two_cases (x := h + s - t) (by omega) hs
  by_cases hhs : h + 1 < s
  · have e2 := mod_two_cases (x := h + 1 + s - t) (by omega) hs
    rw [Nat.mod_eq_of_lt hhs, e2, e1]
    rw [e1] at hlt
    split_ifs at * <;> omega
  · have hheq : h + 1 = s := by omega
    have e2 := mod_two_cases (x := 0 + s - t) (by omega) hs
    rw [hheq, Nat.mod_self, e2, e1]
    rw [e1] at hlt
    split_ifs at * <;> omega

/-- A live logical offset never lands on the head slot. -/
theorem cyc_ne_head {s h t i : Nat} (hh : h < s) (ht : t < s)
    (hi : i < (h + s - t) % s) : (t + i) % s ≠ h := by
  have hs : 0 < s := by omega
  have e1 := mod_two_cases (x := h + s - t) (by omega) hs
  have hi2 : i < s := by
    have := mod_lt_of_pos (h + s - t) hs
    omega
  have e2 := mod_two_cases (x := t + i) (by omega) hs
  rw [e1] at hi
  rw [e2]
  split_ifs at * <;> omega

/-- The logical offset equal to the length lands exactly on the head slot. -/
theorem cyc_at_head {s h t : Nat} (hh : h < s) (ht : t < s) :
    (t + (h + s - t) % s) % s = h := by
  have hs : 0 < s := by omega
  have e1 := mod_two_cases (x := h + s - t) (by omega) hs
  have hlt := mod_lt_of_pos (h + s - t) hs
  have e2 := mod_two_cases (x := t + (h + s - t) % s) (by omega) hs
  rw [e2, e1]
  rw [e1] at hlt
  split_ifs at * <;> omega

/-- Reading offset `i` after advancing the tail reads old offset `i+1`. -/
theorem cyc_tail_succ_idx {s t i : Nat} (hs : 0 < s) :
    ((t + 1) % s + i) % s = (t + (i + 1)) % s := by
  rw [Nat.mod_add_mod]
  ring_nf

namespace RingP

variable {α : Type _} [Inhabited α]

theorem Len_eq {r : RingP α} (h : r.Inv) :
    r.Len = (r.head + r.items.length - r.tail) % r.items.length := by
  obtain ⟨k, hk1, hk, hlen, hmask, hh, ht⟩ := h
  rw [Len, hmask, hlen]
  exact sub64_land rfl (by omega) hh ht

theorem Len_lt {r : RingP α} (h : r.Inv) : r.Len < r.items.length := by
  obtain ⟨k, hk1, hk, hlen, hmask, hh, ht⟩ := h.imp fun k hk => hk
  rw [Len_eq ⟨k, hk1, hk, hlen, hmask, hh, ht⟩, hlen]
  exact mod_lt_of_pos _ (by positivity)

theorem Peek_in {r : RingP α} (h : r.Inv) {i : Nat} (hi : i < r.Len) :
    r.Peek (Int.ofNat i) = r.items.getD ((r.tail + i) % r.items.length) default := by
  obtain ⟨k, hk1, hk, hlen, hmask, hh, ht⟩ := h
  have hiU : i < 2 ^ 64 := by
    have := Len_lt ⟨k, hk1, hk, hlen, hmask, hh, ht⟩
    have h2 : (2 : Nat) ^ k ≤ 2 ^ 64 := Nat.pow_le_pow_right (by norm_num) (by omega)
    omega
  unfold Peek
  rw [intToUint_ofNat_small hiU]
  rw [if_neg (by exact not_le.mpr hi)]
  rw [hmask, hlen, add64_land _ _ rfl (by omega)]

theorem Peek_out {r : RingP α} {i : Int} (hi : r.Len ≤ intToUint i) :
    r.Peek i = default := by
  show (if intToUint i ≥ r.Len then default
      else r.items.getD (add64 r.tail (intToUint i) &&& r.mask) default) = default
  exact if_pos hi

theorem content_length (r : RingP α) : r.content.length = r.Len := by
  simp [content]

theorem Next_empty {r : RingP α} (h : r.Len = 0) : (r.Next).2 = r := by
  simp [Next, h]

theorem Next_sim {r : RingP α} (h : r.Inv) (hne : r.Len ≠ 0) :
    (r.Next).2.Inv ∧ (r.Next).2.Len = r.Len - 1 ∧
      (r.Next).2.content = r.content.drop 1 := by
  obtain ⟨k, hk1, hk, hlen, hmask, hh, ht⟩ := h
  have hInv : r.Inv := ⟨k, hk1, hk, hlen, hmask, hh, ht⟩
  have hs0 : (0 : Nat) < 2 ^ k := by positivity
  have ht' : add64 r.tail 1 &&& r.mask = (r.tail + 1) % 2 ^ k := by
    rw [hmask]; exact add64_land _ _ rfl (by omega)
  have hstate : (r.Next).2 = { r with tail := (r.tail + 1) % 2 ^ k } := by
    simp [Next, hne, ht']
  rw [hstate]
  have hInv' : Inv { r with tail := (r.tail + 1) % 2 ^ k } :=
    ⟨k, hk1, hk, hlen, hmask, hh, mod_lt_of_pos _ hs0⟩
  have hLenr : r.Len = (r.head + 2 ^ k - r.tail) % 2 ^ k := by
    rw [Len_eq hInv, hlen]
  have hLen' : Len { r with tail := (r.tail + 1) % 2 ^ k } = r.Len - 1 := by
    rw [Len_eq hInv']
    dsimp only
    rw [hlen, hLenr]
    exact cyc_tail_succ hh ht (by rw [← hLenr]; exact hne)
  refine ⟨hInv', hLen', ?_⟩
  obtain ⟨m, hm⟩ : ∃ m, r.Len = m + 1 := ⟨r.Len - 1, by omega⟩
  unfold content
  rw [hLen', hm, Nat.add_sub_cancel, List.range_succ_eq_map]
  simp only [List.map_cons, List.map_map, List.drop_succ_cons, List.drop_zero]
  refine List.map_congr_left ?_
  intro i hi
  have him : i < m := List.mem_range.mp hi
  simp only [Function.comp_apply, Nat.succ_eq_add_one]
  rw [Peek_in hInv' (by rw [hLen', hm]; omega),
    Peek_in hInv (by omega)]
  dsimp only
  rw [hlen]
  congr 1
  exact cyc_tail_succ_idx hs0

/-- Raw insertion at the head (the last two lines of `Add`), when the ring
is not physically full. -/
theorem insert_sim {r : RingP α} (h : r.Inv)
    (hnf : r.Len < r.items.length - 1) (x : α) :
    Inv { r with items := r.items.set r.head x,
                 head := add64 r.head 1 &&& r.mask } ∧
      Len { r with items := r.items.set r.head x,
                   head := add64 r.head 1 &&& r.mask } = r.Len + 1 ∧
      content { r with items := r.items.set r.head x,
                       head := add64 r.head 1 &&& r.mask } =
        r.content ++ [x] := by
  obtain ⟨k, hk1, hk, hlen, hmask, hh, ht⟩ := h
  have hInv : r.Inv := ⟨k, hk1, hk, hlen, hmask, hh, ht⟩
  have hs0 : (0 : Nat) < 2 ^ k := by positivity
  have hh' : add64 r.head 1 &&& r.mask = (r.head + 1) % 2 ^ k := by
    rw [hmask]; exact add64_land _ _ rfl (by omega)
  rw [hh']
  have hInv' : Inv { r with items := r.items.set r.head x,
                            head := (r.head + 1) % 2 ^ k } :=
    ⟨k, hk1, hk, by simpa using hlen, hmask, mod_lt_of_pos _ hs0, ht⟩
  have hLenr : r.Len = (r.head + 2 ^ k - r.tail) % 2 ^ k := by
    rw [Len_eq hInv, hlen]
  have hnf2 : r.Len < 2 ^ k - 1 := by rw [← hlen]; exact hnf
  have hLen' : Len { r with items := r.items.set r.head x,
                            head := (r.head + 1) % 2 ^ k } = r.Len + 1 := by
    rw [Len_eq hInv']
    dsimp only
    rw [List.length_set, hlen, hLenr]
    exact cyc_head_succ hh ht (by rw [← hLenr]; omega)
  refine ⟨hInv', hLen', ?_⟩
  unfold content
  rw [hLen', List.range_succ]
  simp only [List.map_append, List.map_cons, List.map_nil]
  congr 1
  · refine List.map_congr_left ?_
    intro i hi
    have him : i < r.Len := List.mem_range.mp hi
    rw [Peek_in hInv' (by omega), Peek_in hInv him]
    dsimp only
    rw [List.length_set, hlen]
    refine getD_set_ne ?_ _ _
    exact (cyc_ne_head hh ht (by rw [← hLenr]; exact him)).symm
  · rw [Peek_in hInv' (by omega)]
    dsimp only
    rw [List.length_set, hlen, hLenr, cyc_at_head hh ht,
      getD_set_eq (by rw [hlen]; exact hh) x default]

/-- Model insertion for the bounded ring, following the spec: when the ring
holds `C` elements the oldest is evicted first, then the value is appended. -/
def mAddP (C : Nat) (val : List α) (x : α) : List α :=
  (if val.length = C then val.drop 1 else val) ++ [x]

theorem Add_sim {r : RingP α} (h : r.Inv) (x : α) :
    (r.Add x).Inv ∧ (r.Add x).content = mAddP r.mask r.content x := by
  obtain ⟨k, hk1, hk, hlen, hmask, hh, ht⟩ := h
  have hInv : r.Inv := ⟨k, hk1, hk, hlen, hmask, hh, ht⟩
  have hs0 : (0 : Nat) < 2 ^ k := by positivity
  have hlt := Len_lt hInv
  by_cases hfull : r.Len = r.mask
  · have hne : r.Len ≠ 0 := by
      rw [hfull, hmask]
      have : (2:Nat) ≤ 2 ^ k := by
        calc (2:Nat) = 2 ^ 1 := by norm_num
        _ ≤ 2 ^ k := Nat.pow_le_pow_right (by norm_num) hk1
      omega
    obtain ⟨hInv1, hLen1, hcont1⟩ := Next_sim hInv hne
    have hfull' : r.IsFull = true := by
      simp [IsFull, hfull]
    have hAdd : r.Add x = { (r.Next).2 with items := (r.Next).2.items.set (r.Next).2.head x, head := add64 (r.Next).2.head 1 &&& (r.Next).2.mask } := by
      simp [Add, hfull']
    have hnf1 : (r.Next).2.Len < (r.Next).2.items.length - 1 := by
      have hlen1 : (r.Next).2.items.length = 2 ^ k := by
        obtain ⟨k2, _, _, hl2, hm2, _, _⟩ := hInv1
        have hmaskeq : (r.Next).2.mask = r.mask := by
          simp [Next, hne]
        rw [hl2]
        rw [hmaskeq, hmask] at hm2
        have hk2 : (2:Nat) ^ k2 = 2 ^ k := by
          have h1 : (1:Nat) ≤ 2 ^ k2 := Nat.one_le_two_pow
          have h2 : (1:Nat) ≤ 2 ^ k := Nat.one_le_two_pow
          omega
        exact hk2
      rw [hlen1, hLen1, hfull, hmask]
      omega
    obtain ⟨hInv2, hLen2, hcont2⟩ := insert_sim hInv1 hnf1 x
    rw [hAdd]
    refine ⟨hInv2, ?_⟩
    rw [hcont2, hcont1, mAddP, if_pos (by rw [content_length, hfull])]
  · have hfull' : r.IsFull = false := by
      simp [IsFull, hfull]
    have hAdd : r.Add x = { r with items := r.items.set r.head x, head := add64 r.head 1 &&& r.mask } := by
      simp [Add, hfull']
    have hnf : r.Len < r.items.length - 1 := by
      rw [hlen]
      rw [hlen] at hlt
      rw [hmask] at hfull
      omega
    obtain ⟨hInv2, hLen2, hcont2⟩ := insert_sim hInv hnf x
    rw [hAdd]
    refine ⟨hInv2, ?_⟩
    rw [hcont2, mAddP, if_neg (by rw [content_length]; rw [hmask] at hfull ⊢; exact hfull)]

theorem Next_mask (r : RingP α) : (r.Next).2.mask = r.mask := by
  unfold Next; split <;> rfl

theorem Next_length (r : RingP α) : (r.Next).2.items.length = r.items.length := by
  unfold Next; split <;> rfl

theorem Add_mask (r : RingP α) (x : α) : (r.Add x).mask = r.mask := by
  unfold Add
  by_cases hf : r.IsFull <;> simp [hf, Next_mask]

theorem Add_length (r : RingP α) (x : α) :
    (r.Add x).items.length = r.items.length := by
  unfold Add
  by_cases hf : r.IsFull <;> simp [hf, Next_length, Next_mask, List.length_set]

end RingP

/-- Operation alphabet of the bounded value ring. -/
inductive OpP (α : Type _) where
  | add (x : α)
  | next

/-- Run a sequence of operations against a `RingP`. -/
def runP {α : Type _} [Inhabited α] : List (OpP α) → RingP α → RingP α
  | [], r => r
  | OpP.add x :: ops, r => runP ops (r.Add x)
  | OpP.next :: ops, r => runP ops (r.Next).2

/-- Model of the bounded ring's content under a sequence of operations,
following the spec: capacity `C`, insert evicts the oldest when full,
remove drops the oldest. -/
def mrunP {α : Type _} [Inhabited α] (C : Nat) :
    List (OpP α) → List α → List α
  | [], val => val
  | OpP.add x :: ops, val => mrunP C ops (RingP.mAddP C val x)
  | OpP.next :: ops, val => mrunP C ops (val.drop 1)

/-- All values the operation sequence inserts, in insertion order. -/
def insertedP {α : Type _} : List (OpP α) → List α
  | [] => []
  | OpP.add x :: ops => x :: insertedP ops
  | OpP.next :: ops => insertedP ops

namespace RingP

variable {α : Type _} [Inhabited α]

theorem NewRingP_inv (k : Nat) (hk1 : 1 ≤ k) (hk : k ≤ 62) :
    (NewRingP α (2 ^ k)).Inv :=
  ⟨k, hk1, hk, by simp [NewRingP], rfl, by positivity, by positivity⟩

theorem NewRingP_len (s : Nat) : (NewRingP α s).Len = 0 := by
  simp [Len, NewRingP, sub64, U]

theorem NewRingP_content (s : Nat) : (NewRingP α s).content = [] := by
  simp [content, NewRingP_len]

theorem runP_sim {r : RingP α} (h : r.Inv) (ops : List (OpP α)) :
    (runP ops r).Inv ∧ (runP ops r).content = mrunP r.mask ops r.content ∧
      (runP ops r).mask = r.mask ∧
      (runP ops r).items.length = r.items.length := by
  induction ops generalizing r with
  | nil => exact ⟨h, rfl, rfl, rfl⟩
  | cons op ops ih =>
    cases op with
    | add x =>
      obtain ⟨hi, hc⟩ := Add_sim h x
      obtain ⟨ih1, ih2, ih3, ih4⟩ := ih hi
      refine ⟨ih1, ?_, by rw [show runP (OpP.add x :: ops) r = runP ops (r.Add x) from rfl, ih3, Add_mask], by rw [show runP (OpP.add x :: ops) r = runP ops (r.Add x) from rfl, ih4, Add_length]⟩
      show (runP ops (r.Add x)).content = mrunP r.mask ops (mAddP r.mask r.content x)
      rw [ih2, hc, Add_mask]
    | next =>
      by_cases hz : r.Len = 0
      · have hempty : r.content = [] := by
          have := content_length r
          rw [hz] at this
          exact List.length_eq_zero.mp this
        obtain ⟨ih1, ih2, ih3, ih4⟩ := ih (r := (r.Next).2) (by rw [Next_empty hz]; exact h)
        refine ⟨ih1, ?_, by rw [show runP (OpP.next :: ops) r = runP ops (r.Next).2 from rfl, ih3, Next_mask], by rw [show runP (OpP.next :: ops) r = runP ops (r.Next).2 from rfl, ih4, Next_length]⟩
        show (runP ops (r.Next).2).content = mrunP r.mask ops (r.content.drop 1)
        rw [ih2, Next_mask, Next_empty hz, hempty]
        simp
      · obtain ⟨hi, hl, hc⟩ := Next_sim h hz
        obtain ⟨ih1, ih2, ih3, ih4⟩ := ih hi
        refine ⟨ih1, ?_, by rw [show runP (OpP.next :: ops) r = runP ops (r.Next).2 from rfl, ih3, Next_mask], by rw [show runP (OpP.next :: ops) r = runP ops (r.Next).2 from rfl, ih4, Next_length]⟩
        show (runP ops (r.Next).2).content = mrunP r.mask ops (r.content.drop 1)
        rw [ih2, hc, Next_mask]

end RingP

theorem append_suffix_mono {γ : Type _} {l1 l2 t : List γ} (h : l1 <:+ l2) :
    l1 ++ t <:+ l2 ++ t := by
  obtain ⟨u, hu⟩ := h
  exact ⟨u, by rw [← hu]; simp⟩

/-- The model content is always a suffix of the inserted values (prefixed by
whatever was already in the ring). -/
theorem mrunP_suffix {α : Type _} [Inhabited α] (C : Nat) (ops : List (OpP α))
    (val : List α) : mrunP C ops val <:+ val ++ insertedP ops := by
  induction ops generalizing val with
  | nil => simp [mrunP, insertedP]
  | cons op ops ih =>
    cases op with
    | add x =>
      refine (ih (RingP.mAddP C val x)).trans ?_
      have h1 : RingP.mAddP C val x <:+ val ++ [x] := by
        unfold RingP.mAddP
        refine append_suffix_mono ?_
        split
        · exact List.drop_suffix 1 val
        · exact List.suffix_refl val
      have h2 := append_suffix_mono (t := insertedP ops) h1
      rw [List.append_assoc] at h2
      exact h2
    | next =>
      refine (ih (val.drop 1)).trans ?_
      exact append_suffix_mono (List.drop_suffix 1 val)

theorem mrunP_len_le {α : Type _} [Inhabited α] {C : Nat} (hC : 1 ≤ C)
    (ops : List (OpP α)) {val : List α} (h : val.length ≤ C) :
    (mrunP C ops val).length ≤ C := by
  induction ops generalizing val with
  | nil => exact h
  | cons op ops ih =>
    cases op with
    | add x =>
      refine ih ?_
      unfold RingP.mAddP
      split
      · simp
        omega
      · simp
        omega
    | next =>
      refine ih ?_
      simp
      omega

/-- **C6**: for every sequence of inserts and removes on a BoundedRing of
capacity `C = 2^k - 1`, after any operation `length() ≤ C`, no growth ever
occurs (the backing array keeps its construction size), the logical content
follows the evict-oldest-on-full model, and the content equals the most
recent `length()` inserted values in insertion order. -/
theorem C6_bounded_ring (α : Type) [Inhabited α] (ops : List (OpP α))
    (k : Nat) (hk1 : 1 ≤ k) (hk : k ≤ 62) :
    (runP ops (NewRingP α (2 ^ k))).Len ≤ 2 ^ k - 1 ∧
      (runP ops (NewRingP α (2 ^ k))).items.length = 2 ^ k ∧
      (runP ops (NewRingP α (2 ^ k))).content = mrunP (2 ^ k - 1) ops [] ∧
      (runP ops (NewRingP α (2 ^ k))).content =
        (insertedP ops).drop
          ((insertedP ops).length - (runP ops (NewRingP α (2 ^ k))).Len) := by
  have hinv := RingP.NewRingP_inv (α := α) k hk1 hk
  obtain ⟨h1, h2, h3, h4⟩ := RingP.runP_sim hinv ops
  have hmask0 : (NewRingP α (2 ^ k)).mask = 2 ^ k - 1 := rfl
  have hlen0 : (NewRingP α (2 ^ k)).items.length = 2 ^ k := by
    simp [NewRingP]
  have hcont : (runP ops (NewRingP α (2 ^ k))).content =
      mrunP (2 ^ k - 1) ops [] := by
    rw [h2, hmask0, RingP.NewRingP_content]
  have hC1 : 1 ≤ 2 ^ k - 1 := by
    have h2k : (2 : Nat) ≤ 2 ^ k := by
      calc (2 : Nat) = 2 ^ 1 := by norm_num
      _ ≤ 2 ^ k := Nat.pow_le_pow_right (by norm_num) hk1
    omega
  have hlenle : (runP ops (NewRingP α (2 ^ k))).Len ≤ 2 ^ k - 1 := by
    rw [← RingP.content_length, hcont]
    exact mrunP_len_le hC1 ops (by simp)
  have hsuffix : mrunP (2 ^ k - 1) ops ([] : List α) <:+ insertedP ops := by
    have h5 := mrunP_suffix (2 ^ k - 1) ops ([] : List α)
    simpa using h5
  refine ⟨hlenle, by rw [h4, hlen0], hcont, ?_⟩
  have hlen_eq : (mrunP (2 ^ k - 1) ops ([] : List α)).length =
      (runP ops (NewRingP α (2 ^ k))).Len := by
    rw [← hcont, RingP.content_length]
  rw [hcont, ← hlen_eq]
  exact suffix_eq_drop hsuffix

/-- Witness for C6: capacity 3 (slot count 4), inserting 1..5 leaves
content `[3, 4, 5]`. -/
theorem C6_bounded_ring_witness :
    (1 ≤ 2 ∧ 2 ≤ 62) ∧
      ((runP [OpP.add 1, OpP.add 2, OpP.add 3, OpP.add 4, OpP.add 5]
          (NewRingP Nat (2 ^ 2))).Len ≤ 2 ^ 2 - 1 ∧
        (runP [OpP.add 1, OpP.add 2, OpP.add 3, OpP.add 4, OpP.add 5]
          (NewRingP Nat (2 ^ 2))).items.length = 2 ^ 2 ∧
        (runP [OpP.add 1, OpP.add 2, OpP.add 3, OpP.add 4, OpP.add 5]
          (NewRingP Nat (2 ^ 2))).content =
          mrunP (2 ^ 2 - 1) [OpP.add 1, OpP.add 2, OpP.add 3, OpP.add 4,
            OpP.add 5] [] ∧
        (runP [OpP.add 1, OpP.add 2, OpP.add 3, OpP.add 4, OpP.add 5]
          (NewRingP Nat (2 ^ 2))).content =
          (insertedP [OpP.add 1, OpP.add 2, OpP.add 3, OpP.add 4,
            OpP.add 5]).drop
            ((insertedP [OpP.add 1, OpP.add 2, OpP.add 3, OpP.add 4,
              OpP.add 5]).length -
              (runP [OpP.add 1, OpP.add 2, OpP.add 3, OpP.add 4, OpP.add 5]
                (NewRingP Nat (2 ^ 2))).Len)) :=
  ⟨⟨by norm_num, by norm_num⟩,
    C6_bounded_ring Nat [OpP.add 1, OpP.add 2, OpP.add 3, OpP.add 4,
      OpP.add 5] 2 (by norm_num) (by norm_num)⟩

/-! ## RingT: the growing bounded reference ring (GrowingBoundedRing)

Embeds the Go type `RingT[T]`: a ring of pointers (`Option α`) whose
backing buffer starts empty and grows in powers of two, bounded by
`maxSize` through the evict-oldest policy; popped slots are set to nil. -/

structure RingT (α : Type _) where
  items : List (Option α) -- len(items) is a power of 2 (0 before first growth)
  mask : Nat              -- mask = len(items) - 1
  tail : Nat              -- read from tail
  head : Nat              -- write into head
  maxSize : Nat

/-- `NewRingT` (Go panics when `maxSize < 1`, so theorems assume `1 ≤ maxSize`);
the buffer is grown incrementally, nothing is allocated up front. -/
def NewRingT (α : Type _) (maxSize : Nat) : RingT α :=
  { items := [], mask := 0, tail := 0, head := 0, maxSize := maxSize }

namespace RingT

variable {α : Type _}

/-- Maximum number of elements in the ring buffer. -/
def MaxSize (r : RingT α) : Nat := r.maxSize

/-- Number of elements in the buffer: `int((r.head - r.tail) & r.mask)`. -/
def Len (r : RingT α) : Nat := sub64 r.head r.tail &&& r.mask

/-- `IsFull`: adding another item will pop the oldest item. -/
def IsFull (r : RingT α) : Bool := r.Len == r.maxSize

/-- `Next` pops the oldest item (clearing its slot for the garbage
collector), or returns nil if the ring is empty. -/
def Next (r : RingT α) : Option α × RingT α :=
  if r.Len = 0 then (none, r)
  else
    (r.items.getD r.tail none,
      { r with tail := add64 r.tail 1 &&& r.mask,
               items := r.items.set r.tail none })

/-- `Peek` returns the `Tail+i` element without changing state. -/
def Peek (r : RingT α) (i : Int) : Option α :=
  let length := sub64 r.head r.tail &&& r.mask
  let ui := intToUint i
  if ui ≥ length then none
  else r.items.getD (add64 r.tail ui &&& r.mask) none

/-- The drain loop inside `Add`'s growth branch: pop `n` items with `Next`
and write them into consecutive slots of the new array starting at `i`. -/
def drainInto : Nat → RingT α → List (Option α) → Nat → RingT α × List (Option α)
  | 0, r, acc, _ => (r, acc)
  | n + 1, r, acc, i =>
    let p := r.Next
    drainInto n p.2 (acc.set i p.1) (i + 1)

/-- The growth branch of `Add`: allocate a doubled array (floor 2), drain
the old ring oldest-first into its front, and reset `tail`/`head`. -/
def grow (r : RingT α) : RingT α :=
  let newSize := max (r.items.length * 2) 2
  let n := r.Len
  let d := drainInto n r (List.replicate newSize none) 0
  { items := d.2, mask := newSize - 1, tail := 0, head := n,
    maxSize := r.maxSize }

/-- `Add` inserts an item: evict the oldest when at `maxSize`, grow the
backing array when it is absent or would wrap, then write at `head`. -/
def Add (r : RingT α) (item : Option α) : RingT α :=
  let r1 := if r.Len = r.maxSize then (r.Next).2 else r
  let r2 := if r1.items.length = 0 ∨ r1.Len = r1.items.length - 1
    then r1.grow else r1
  { r2 with items := r2.items.set r2.head item,
            head := add64 r2.head 1 &&& r2.mask }

/-- The logical content of the ring, oldest first, read through `Peek`. -/
def content (r : RingT α) : List (Option α) :=
  (List.range r.Len).map (fun i => r.Peek (Int.ofNat i))

/-- Well-formedness of a ring whose backing array has grown to size `2^k`. -/
def InvP (r : RingT α) (k : Nat) : Prop :=
  1 ≤ k ∧ k ≤ 62 ∧ r.items.length = 2 ^ k ∧ r.mask = 2 ^ k - 1 ∧
    r.head < 2 ^ k ∧ r.tail < 2 ^ k

/-- Well-formedness of every ring reachable from `NewRingT`. -/
def Inv (r : RingT α) : Prop :=
  (r.items = [] ∧ r.mask = 0 ∧ r.head = 0 ∧ r.tail = 0) ∨ ∃ k, r.InvP k

/-- Every backing slot outside the live region `[tail, head)` holds nil. -/
def clean (r : RingT α) : Prop :=
  ∀ j, j < r.items.length → r.Len ≤ (sub64 j r.tail &&& r.mask) →
    r.items.getD j none = none

theorem Len_emptyT {r : RingT α} (hm : r.mask = 0) : r.Len = 0 := by
  simp [Len, hm]

theorem Len_eqT {r : RingT α} {k : Nat} (h : r.InvP k) :
    r.Len = (r.head + 2 ^ k - r.tail) % 2 ^ k := by
  obtain ⟨hk1, hk, hlen, hmask, hh, ht⟩ := h
  rw [Len, hmask]
  exact sub64_land rfl (by omega) hh ht

theorem Len_ltT {r : RingT α} {k : Nat} (h : r.InvP k) : r.Len < 2 ^ k := by
  rw [Len_eqT h]
  exact mod_lt_of_pos _ (by positivity)

/-- The normalized form of the dead-slot test in `clean`. -/
theorem dead_idx_eqT {r : RingT α} {k : Nat} (h : r.InvP k) (j : Nat)
    (hj : j < 2 ^ k) :
    (sub64 j r.tail &&& r.mask) = (j + 2 ^ k - r.tail) % 2 ^ k := by
  obtain ⟨hk1, hk, hlen, hmask, hh, ht⟩ := h
  rw [hmask]
  exact sub64_land rfl (by omega) hj ht

theorem Peek_inT {r : RingT α} {k : Nat} (h : r.InvP k) {i : Nat}
    (hi : i < r.Len) :
    r.Peek (Int.ofNat i) = r.items.getD ((r.tail + i) % 2 ^ k) none := by
  obtain ⟨hk1, hk, hlen, hmask, hh, ht⟩ := h
  have hInv : r.InvP k := ⟨hk1, hk, hlen, hmask, hh, ht⟩
  have hiU : i < 2 ^ 64 := by
    have h1 := Len_ltT hInv
    have h2 : (2 : Nat) ^ k ≤ 2 ^ 64 := Nat.pow_le_pow_right (by norm_num) (by omega)
    omega
  unfold Peek
  rw [intToUint_ofNat_small hiU]
  rw [if_neg (by exact not_le.mpr hi)]
  rw [hmask, add64_land _ _ rfl (by omega)]

theorem Peek_outT {r : RingT α} {i : Int} (hi : r.Len ≤ intToUint i) :
    r.Peek i = none := by
  show (if intToUint i ≥ r.Len then none
      else r.items.getD (add64 r.tail (intToUint i) &&& r.mask) none) = none
  exact if_pos hi

theorem content_lengthT (r : RingT α) : r.content.length = r.Len := by
  simp [content]

theorem content_getDT {r : RingT α} {i : Nat} (hi : i < r.Len) :
    r.content.getD i none = r.Peek (Int.ofNat i) := by
  unfold content
  rw [List.getD_eq_getElem _ _ (by simpa using hi)]
  simp

theorem Next_emptyT {r : RingT α} (h : r.Len = 0) :
    (r.Next).2 = r ∧ (r.Next).1 = none := by
  constructor <;> simp [Next, h]

theorem Next_simT {r : RingT α} {k : Nat} (h : r.InvP k) (hne : r.Len ≠ 0) :
    (r.Next).2.InvP k ∧ (r.Next).2.Len = r.Len - 1 ∧
      (r.Next).2.content = r.content.drop 1 ∧
      (r.Next).1 = r.content.getD 0 none ∧
      (r.Next).2.maxSize = r.maxSize ∧
      (r.clean → (r.Next).2.clean) := by
  obtain ⟨hk1, hk, hlen, hmask, hh, ht⟩ := h
  have hInv : r.InvP k := ⟨hk1, hk, hlen, hmask, hh, ht⟩
  have hs0 : (0 : Nat) < 2 ^ k := by positivity
  have ht' : add64 r.tail 1 &&& r.mask = (r.tail + 1) % 2 ^ k := by
    rw [hmask]; exact add64_land _ _ rfl (by omega)
  have hstate : (r.Next).2 =
      { r with tail := (r.tail + 1) % 2 ^ k,
               items := r.items.set r.tail none } := by
    simp [Next, hne, ht']
  have hval : (r.Next).1 = r.content.getD 0 none := by
    rw [content_getDT (by omega), Peek_inT hInv (by omega)]
    simp [Next, hne, Nat.mod_eq_of_lt ht]
  rw [hstate]
  have hInv' : InvP { r with tail := (r.tail + 1) % 2 ^ k, items := r.items.set r.tail none } k :=
    ⟨hk1, hk, by simpa using hlen, hmask, hh, mod_lt_of_pos _ hs0⟩
  have hLenr : r.Len = (r.head + 2 ^ k - r.tail) % 2 ^ k := Len_eqT hInv
  have hLen' : Len { r with tail := (r.tail + 1) % 2 ^ k, items := r.items.set r.tail none } = r.Len - 1 := by
    rw [Len_eqT hInv']
    dsimp only
    rw [hLenr]
    exact cyc_tail_succ hh ht (by rw [← hLenr]; exact hne)
  refine ⟨hInv', hLen', ?_, hval, rfl, ?_⟩
  · obtain ⟨m, hm⟩ : ∃ m, r.Len = m + 1 := ⟨r.Len - 1, by omega⟩
    unfold content
    rw [hLen', hm, Nat.add_sub_cancel, List.range_succ_eq_map]
    simp only [List.map_cons, List.map_map, List.drop_succ_cons, List.drop_zero]
    refine List.map_congr_left ?_
    intro i hi
    have him : i < m := List.mem_range.mp hi
    simp only [Function.comp_apply, Nat.succ_eq_add_one]
    rw [Peek_inT hInv' (by rw [hLen', hm]; omega), Peek_inT hInv (by omega)]
    dsimp only
    rw [cyc_tail_succ_idx hs0]
    refine getD_set_ne ?_ _ _
    -- the old tail slot is dead for the new ring, hence never read
    have hcyc : (r.tail + (i + 1)) % 2 ^ k ≠ r.tail := by
      have e2 := mod_two_cases (x := r.tail + (i + 1))
        (by
          have := mod_lt_of_pos (r.head + 2 ^ k - r.tail) hs0
          omega) hs0
      rw [e2]
      have e1 := mod_two_cases (x := r.head + 2 ^ k - r.tail) (by omega) hs0
      rw [hLenr, e1] at hm
      split_ifs <;> omega
    exact hcyc.symm
  · intro hcl j hj hdead
    dsimp only at hj hdead ⊢
    rw [List.length_set] at hj
    by_cases hjt : j = r.tail
    · rw [hjt]
      exact getD_set_eq (by rw [hlen]; exact ht) _ _
    · rw [getD_set_ne (fun hx => hjt hx.symm) _ _]
      refine hcl j hj ?_
      rw [dead_idx_eqT hInv j (by rw [← hlen]; exact hj)]
      rw [dead_idx_eqT hInv' j (by rw [← hlen]; exact hj)] at hdead
      dsimp only at hdead
      rw [hLen'] at hdead
      rw [hLenr]
      rw [hLenr] at hdead
      -- dead for the advanced tail and not the old tail slot: dead before
      have e1 := mod_two_cases (x := r.head + 2 ^ k - r.tail) (by omega) hs0
      have e2 := mod_two_cases (x := j + 2 ^ k - r.tail) (by omega) hs0
      have hjk : j < 2 ^ k := by rw [← hlen]; exact hj
      by_cases hts : r.tail + 1 < 2 ^ k
      · have e3 := mod_two_cases (x := j + 2 ^ k - (r.tail + 1)) (by omega) hs0
        rw [Nat.mod_eq_of_lt hts, e3] at hdead
        rw [e1] at hdead ⊢
        rw [e2]
        split_ifs at * <;> omega
      · have hteq : r.tail + 1 = 2 ^ k := by omega
        rw [hteq, Nat.mod_self, Nat.sub_zero, Nat.add_mod_right,
          Nat.mod_eq_of_lt hjk] at hdead
        rw [e1] at hdead ⊢
        rw [e2]
        split_ifs at * <;> omega

/-- Raw insertion at the head (the last two lines of `Add`), when the ring
is not physically full. -/
theorem insert_simT {r : RingT α} {k : Nat} (h : r.InvP k)
    (hnf : r.Len < 2 ^ k - 1) (x : Option α) :
    InvP { r with items := r.items.set r.head x, head := add64 r.head 1 &&& r.mask } k ∧
      Len { r with items := r.items.set r.head x, head := add64 r.head 1 &&& r.mask } = r.Len + 1 ∧
      content { r with items := r.items.set r.head x, head := add64 r.head 1 &&& r.mask } = r.content ++ [x] ∧
      (r.clean → clean { r with items := r.items.set r.head x, head := add64 r.head 1 &&& r.mask }) := by
  obtain ⟨hk1, hk, hlen, hmask, hh, ht⟩ := h
  have hInv : r.InvP k := ⟨hk1, hk, hlen, hmask, hh, ht⟩
  have hs0 : (0 : Nat) < 2 ^ k := by positivity
  have hh' : add64 r.head 1 &&& r.mask = (r.head + 1) % 2 ^ k := by
    rw [hmask]; exact add64_land _ _ rfl (by omega)
  rw [hh']
  have hInv' : InvP { r with items := r.items.set r.head x, head := (r.head + 1) % 2 ^ k } k :=
    ⟨hk1, hk, by simpa using hlen, hmask, mod_lt_of_pos _ hs0, ht⟩
  have hLenr : r.Len = (r.head + 2 ^ k - r.tail) % 2 ^ k := Len_eqT hInv
  have hLen' : Len { r with items := r.items.set r.head x, head := (r.head + 1) % 2 ^ k } = r.Len + 1 := by
    rw [Len_eqT hInv']
    dsimp only
    rw [hLenr]
    exact cyc_head_succ hh ht (by rw [← hLenr]; omega)
  refine ⟨hInv', hLen', ?_, ?_⟩
  · unfold content
    rw [hLen', List.range_succ]
    simp only [List.map_append, List.map_cons, List.map_nil]
    congr 1
    · refine List.map_congr_left ?_
      intro i hi
      have him : i < r.Len := List.mem_range.mp hi
      rw [Peek_inT hInv' (by omega), Peek_inT hInv him]
      dsimp only
      refine getD_set_ne ?_ _ _
      exact (cyc_ne_head hh ht (by rw [← hLenr]; exact him)).symm
    · rw [Peek_inT hInv' (by omega)]
      dsimp only
      rw [hLenr, cyc_at_head hh ht,
        getD_set_eq (by rw [hlen]; exact hh) x none]
  · intro hcl j hj hdead
    dsimp only at hj hdead ⊢
    rw [List.length_set] at hj
    rw [dead_idx_eqT hInv' j (by rw [← hlen]; exact hj), hLen'] at hdead
    dsimp only at hdead
    have hjh : j ≠ r.head := by
      intro hx
      rw [hx, ← hLenr] at hdead
      -- the head slot has cyclic offset exactly Len
      have : (r.head + 2 ^ k - r.tail) % 2 ^ k = r.Len := hLenr.symm
      rw [hLenr] at hdead
      omega
    rw [getD_set_ne (fun hx => hjh hx.symm) _ _]
    refine hcl j hj ?_
    rw [dead_idx_eqT hInv j (by rw [← hlen]; exact hj)]
    omega

/-- Effect of the drain loop: slots `[i0, i0+n)` of the accumulator receive
the first `n` content elements; other slots are untouched. -/
theorem drainInto_specT {k : Nat} :
    ∀ (n : Nat) (r : RingT α), r.InvP k → n ≤ r.Len →
      ∀ (acc : List (Option α)) (i0 : Nat),
      (drainInto n r acc i0).2.length = acc.length ∧
      ∀ j, j < acc.length → (drainInto n r acc i0).2.getD j none =
        if i0 ≤ j ∧ j < i0 + n then r.content.getD (j - i0) none
        else acc.getD j none := by
  intro n
  induction n with
  | zero =>
    intro r _ _ acc i0
    refine ⟨rfl, ?_⟩
    intro j hj
    rw [if_neg (by omega)]
    rfl
  | succ n ih =>
    intro r hInv hn acc i0
    have hne : r.Len ≠ 0 := by omega
    obtain ⟨hInv1, hLen1, hcont1, hval1, _, _⟩ := Next_simT hInv hne
    have hn1 : n ≤ (r.Next).2.Len := by omega
    obtain ⟨ihlen, ihget⟩ := ih (r.Next).2 hInv1 hn1 (acc.set i0 (r.Next).1) (i0 + 1)
    have hstep : drainInto (n + 1) r acc i0 =
        drainInto n (r.Next).2 (acc.set i0 (r.Next).1) (i0 + 1) := rfl
    rw [hstep]
    refine ⟨by rw [ihlen]; simp, ?_⟩
    intro j hj
    rw [ihget j (by simpa using hj)]
    by_cases hj0 : j = i0
    · rw [if_neg (by omega), if_pos (by omega), hj0]
      rw [getD_set_eq (by rw [← hj0]; exact hj) _ _, hval1]
      simp
    · by_cases hjin : i0 + 1 ≤ j ∧ j < i0 + 1 + n
      · rw [if_pos hjin, if_pos (by omega), hcont1]
        have hidx : j - (i0 + 1) + 1 = j - i0 := by omega
        simp [List.getD_eq_getElem?_getD, List.getElem?_drop, hidx]
      · rw [if_neg hjin, if_neg (by omega)]
        exact getD_set_ne (fun hx => hj0 hx.symm) _ _

/-- Growth from the zero-value (never-grown) ring. -/
theorem grow_zeroT {r : RingT α} (hitems : r.items = []) (hm : r.mask = 0) :
    r.grow = { items := [none, none], mask := 1, tail := 0, head := 0, maxSize := r.maxSize } := by
  have hlen : r.Len = 0 := Len_emptyT hm
  unfold grow
  rw [hitems, hlen]
  rfl

theorem grow_itemsT (r : RingT α) : (r.grow).items =
    (drainInto r.Len r (List.replicate (max (r.items.length * 2) 2) none) 0).2 := rfl

theorem grow_mask (r : RingT α) : (r.grow).mask = max (r.items.length * 2) 2 - 1 := rfl

theorem grow_tailT (r : RingT α) : (r.grow).tail = 0 := rfl

theorem grow_headT (r : RingT α) : (r.grow).head = r.Len := rfl

theorem grow_maxSize (r : RingT α) : (r.grow).maxSize = r.maxSize := rfl

theorem grow_simT {r : RingT α} {k : Nat} (h : r.InvP k) (hk61 : k ≤ 61) :
    (r.grow).InvP (k + 1) ∧ (r.grow).items.length = 2 ^ (k + 1) ∧
      (r.grow).tail = 0 ∧ (r.grow).head = r.Len ∧
      (r.grow).maxSize = r.maxSize ∧ (r.grow).Len = r.Len ∧
      (r.grow).content = r.content ∧ (r.grow).clean := by
  obtain ⟨hk1, hk, hlen, hmask, hh, ht⟩ := h
  have hInv : r.InvP k := ⟨hk1, hk, hlen, hmask, hh, ht⟩
  have hkk : (2 : Nat) ^ k ≤ 2 ^ (k + 1) := by rw [pow_succ]; omega
  have hnewSize : max (r.items.length * 2) 2 = 2 ^ (k + 1) := by
    rw [hlen]
    have h2 : (1 : Nat) ≤ 2 ^ k := Nat.one_le_two_pow
    rw [pow_succ]
    omega
  obtain ⟨hdlen, hdget⟩ := drainInto_specT r.Len r hInv le_rfl
    (List.replicate (max (r.items.length * 2) 2) none) 0
  have hLenr := Len_ltT hInv
  have hilen : (r.grow).items.length = 2 ^ (k + 1) := by
    rw [grow_itemsT, hdlen, List.length_replicate, hnewSize]
  have hInv' : (r.grow).InvP (k + 1) := by
    refine ⟨by omega, by omega, hilen, ?_, ?_, ?_⟩
    · rw [grow_mask, hnewSize]
    · rw [grow_headT]; omega
    · rw [grow_tailT]; exact Nat.one_le_two_pow
  have hLen' : (r.grow).Len = r.Len := by
    rw [Len_eqT hInv', grow_headT, grow_tailT, Nat.sub_zero, Nat.add_mod_right]
    exact Nat.mod_eq_of_lt (by omega)
  refine ⟨hInv', hilen, rfl, rfl, rfl, hLen', ?_, ?_⟩
  · unfold content
    rw [hLen']
    have hpeek : ∀ i ∈ List.range r.Len,
        (r.grow).Peek (Int.ofNat i) = r.content.getD i none := by
      intro i hi
      have him : i < r.Len := List.mem_range.mp hi
      rw [Peek_inT hInv' (by rw [hLen']; exact him), grow_tailT, grow_itemsT,
        Nat.zero_add, Nat.mod_eq_of_lt (by omega)]
      rw [hdget i (by rw [List.length_replicate, hnewSize]; omega)]
      rw [if_pos (by omega), Nat.sub_zero]
    rw [List.map_congr_left hpeek]
    conv_lhs => rw [← content_lengthT r]
    exact map_range_getD r.content none
  · intro j hj hdead
    rw [hilen] at hj
    rw [dead_idx_eqT hInv' j hj, hLen', grow_tailT, Nat.sub_zero,
      Nat.add_mod_right, Nat.mod_eq_of_lt hj] at hdead
    rw [grow_itemsT, hdget j (by rw [List.length_replicate, hnewSize]; exact hj)]
    rw [if_neg (by omega)]
    simp

/-- Effect of the conditional growth step inside `Add`. -/
theorem grow_step_simT {r1 : RingT α} (h1 : r1.Inv) (hc1 : r1.clean)
    (hbound : r1.Len < r1.maxSize) (hmax2 : r1.maxSize ≤ 2 ^ 60) :
    ∃ k2, InvP (if r1.items.length = 0 ∨ r1.Len = r1.items.length - 1 then r1.grow else r1) k2 ∧
      clean (if r1.items.length = 0 ∨ r1.Len = r1.items.length - 1 then r1.grow else r1) ∧
      (if r1.items.length = 0 ∨ r1.Len = r1.items.length - 1 then r1.grow else r1).maxSize = r1.maxSize ∧
      (if r1.items.length = 0 ∨ r1.Len = r1.items.length - 1 then r1.grow else r1).Len = r1.Len ∧
      (if r1.items.length = 0 ∨ r1.Len = r1.items.length - 1 then r1.grow else r1).content = r1.content ∧
      (if r1.items.length = 0 ∨ r1.Len = r1.items.length - 1 then r1.grow else r1).Len < 2 ^ k2 - 1 := by
  rcases h1 with ⟨hemp, hm, hh, ht⟩ | ⟨k, hInvPk⟩
  · have hcond : r1.items.length = 0 ∨ r1.Len = r1.items.length - 1 :=
      Or.inl (by rw [hemp]; rfl)
    rw [if_pos hcond]
    have hz := grow_zeroT hemp hm
    have hL0 : r1.Len = 0 := Len_emptyT hm
    have hIZ : InvP ({ items := [none, none], mask := 1, tail := 0, head := 0, maxSize := r1.maxSize } : RingT α) (1 : Nat) := by
      unfold InvP
      norm_num
    have hLZ : Len ({ items := [none, none], mask := 1, tail := 0, head := 0, maxSize := r1.maxSize } : RingT α) = 0 := by
      rw [Len_eqT hIZ]
      norm_num
    refine ⟨1, ?_, ?_, ?_, ?_, ?_, ?_⟩
    · rw [hz]; exact hIZ
    · rw [hz]
      intro j hj hdead
      have hj2 : j < 2 := by simpa using hj
      interval_cases j <;> rfl
    · rw [hz]
    · rw [hz]
      exact hLZ.trans hL0.symm
    · rw [hz]
      unfold content
      rw [hLZ, hL0]
      simp
    · rw [hz, hLZ]
      norm_num
  · by_cases hg : r1.items.length = 0 ∨ r1.Len = r1.items.length - 1
    · rw [if_pos hg]
      obtain ⟨hk1, hk62, hlen, hmask, hh, ht⟩ := hInvPk
      have hInvPk2 : r1.InvP k := ⟨hk1, hk62, hlen, hmask, hh, ht⟩
      have h2k : (1 : Nat) ≤ 2 ^ k := Nat.one_le_two_pow
      have hLen : r1.Len = 2 ^ k - 1 := by
        rcases hg with hg0 | hgr
        · rw [hlen] at hg0; omega
        · rw [hlen] at hgr; exact hgr
      have hk60 : k ≤ 60 := by
        have hle : (2 : Nat) ^ k ≤ 2 ^ 60 := by omega
        exact (Nat.pow_le_pow_iff_right (by norm_num)).mp hle
      obtain ⟨hI, hil, htl, hhd, hms, hLn, hcont, hcl⟩ :=
        grow_simT hInvPk2 (by omega)
      refine ⟨k + 1, hI, hcl, hms, hLn, hcont, ?_⟩
      rw [hLn, hLen, pow_succ]
      omega
    · rw [if_neg hg]
      push_neg at hg
      obtain ⟨hgl, hgr⟩ := hg
      obtain ⟨hk1, hk62, hlen, hmask, hh, ht⟩ := hInvPk
      have hInvPk2 : r1.InvP k := ⟨hk1, hk62, hlen, hmask, hh, ht⟩
      have hlt := Len_ltT hInvPk2
      refine ⟨k, hInvPk2, hc1, rfl, rfl, rfl, ?_⟩
      rw [hlen] at hgr
      omega

/-- Model insertion for the growing bounded ring, following the spec:
evict the oldest when at `maxSize`, then append. -/
def mAddT (M : Nat) (val : List (Option α)) (x : Option α) : List (Option α) :=
  (if val.length = M then val.drop 1 else val) ++ [x]

theorem Add_simT {r : RingT α} (h : r.Inv) (hc : r.clean)
    (hmax1 : 1 ≤ r.maxSize) (hmax2 : r.maxSize ≤ 2 ^ 60)
    (hlm : r.Len ≤ r.maxSize) (x : Option α) :
    (r.Add x).Inv ∧ (r.Add x).clean ∧ (r.Add x).maxSize = r.maxSize ∧
      (r.Add x).Len ≤ r.maxSize ∧
      (r.Add x).content = mAddT r.maxSize r.content x := by
  by_cases hfull : r.Len = r.maxSize
  · have hne : r.Len ≠ 0 := by omega
    obtain ⟨k, hInvPk⟩ : ∃ k, r.InvP k := by
      rcases h with hemp | hp
      · exact absurd (Len_emptyT hemp.2.1) hne
      · exact hp
    obtain ⟨hInv1, hLen1, hcont1, hval1, hms1, hcl1⟩ := Next_simT hInvPk hne
    have hbound1 : (r.Next).2.Len < (r.Next).2.maxSize := by
      rw [hLen1, hms1]; omega
    obtain ⟨k2, hI2, hc2, hm2, hl2, hcont2, hnf2⟩ :=
      grow_step_simT (Or.inr ⟨k, hInv1⟩) (hcl1 hc) hbound1
        (by rw [hms1]; exact hmax2)
    obtain ⟨hI3, hL3, hcont3, hcl3⟩ := insert_simT hI2 hnf2 x
    have hAdd : r.Add x =
        { (if (r.Next).2.items.length = 0 ∨ (r.Next).2.Len = (r.Next).2.items.length - 1 then (r.Next).2.grow else (r.Next).2) with
          items := (if (r.Next).2.items.length = 0 ∨ (r.Next).2.Len = (r.Next).2.items.length - 1 then (r.Next).2.grow else (r.Next).2).items.set (if (r.Next).2.items.length = 0 ∨ (r.Next).2.Len = (r.Next).2.items.length - 1 then (r.Next).2.grow else (r.Next).2).head x,
          head := add64 (if (r.Next).2.items.length = 0 ∨ (r.Next).2.Len = (r.Next).2.items.length - 1 then (r.Next).2.grow else (r.Next).2).head 1 &&& (if (r.Next).2.items.length = 0 ∨ (r.Next).2.Len = (r.Next).2.items.length - 1 then (r.Next).2.grow else (r.Next).2).mask } := by
      rw [Add]
      rw [if_pos hfull]
    rw [hAdd]
    refine ⟨Or.inr ⟨k2, hI3⟩, hcl3 hc2, ?_, ?_, ?_⟩
    · show (if (r.Next).2.items.length = 0 ∨ (r.Next).2.Len = (r.Next).2.items.length - 1 then (r.Next).2.grow else (r.Next).2).maxSize = r.maxSize
      rw [hm2, hms1]
    · rw [hL3, hl2, hLen1]
      omega
    · rw [hcont3, hcont2, hcont1]
      unfold mAddT
      rw [if_pos (by rw [content_lengthT, hfull])]
  · have hbound : r.Len < r.maxSize := by omega
    obtain ⟨k2, hI2, hc2, hm2, hl2, hcont2, hnf2⟩ :=
      grow_step_simT h hc hbound hmax2
    obtain ⟨hI3, hL3, hcont3, hcl3⟩ := insert_simT hI2 hnf2 x
    have hAdd : r.Add x =
        { (if r.items.length = 0 ∨ r.Len = r.items.length - 1 then r.grow else r) with
          items := (if r.items.length = 0 ∨ r.Len = r.items.length - 1 then r.grow else r).items.set (if r.items.length = 0 ∨ r.Len = r.items.length - 1 then r.grow else r).head x,
          head := add64 (if r.items.length = 0 ∨ r.Len = r.items.length - 1 then r.grow else r).head 1 &&& (if r.items.length = 0 ∨ r.Len = r.items.length - 1 then r.grow else r).mask } := by
      rw [Add]
      rw [if_neg hfull]
    rw [hAdd]
    refine ⟨Or.inr ⟨k2, hI3⟩, hcl3 hc2, ?_, ?_, ?_⟩
    · show (if r.items.length = 0 ∨ r.Len = r.items.length - 1 then r.grow else r).maxSize = r.maxSize
      rw [hm2]
    · rw [hL3, hl2]
      omega
    · rw [hcont3, hcont2]
      unfold mAddT
      rw [if_neg (by rw [content_lengthT]; exact hfull)]

theorem NewRingT_inv : (NewRingT α M).Inv := Or.inl ⟨rfl, rfl, rfl, rfl⟩

theorem NewRingT_clean : (NewRingT α M).clean := by
  intro j hj hdead
  simp [NewRingT] at hj

theorem NewRingT_len : (NewRingT α M).Len = 0 := Len_emptyT rfl

theorem NewRingT_content : (NewRingT α M).content = [] := by
  simp [content, NewRingT_len]

end RingT

/-- Operation alphabet of the growing bounded ring. -/
inductive OpT (α : Type _) where
  | add (x : Option α)
  | next

/-- Run a sequence of operations against a `RingT`. -/
def runT {α : Type _} : List (OpT α) → RingT α → RingT α
  | [], r => r
  | OpT.add x :: ops, r => runT ops (r.Add x)
  | OpT.next :: ops, r => runT ops (r.Next).2

/-- Model of the growing bounded ring's content under a sequence of
operations, following the spec: soft ceiling `M`, insert evicts the oldest
when `M` elements are live, remove drops the oldest. -/
def mrunT {α : Type _} (M : Nat) :
    List (OpT α) → List (Option α) → List (Option α)
  | [], val => val
  | OpT.add x :: ops, val => mrunT M ops (RingT.mAddT M val x)
  | OpT.next :: ops, val => mrunT M ops (val.drop 1)

theorem runT_sim {α : Type _} {r : RingT α} (h : r.Inv) (hc : r.clean)
    (hm1 : 1 ≤ r.maxSize) (hm2 : r.maxSize ≤ 2 ^ 60)
    (hlm : r.Len ≤ r.maxSize) (ops : List (OpT α)) :
    (runT ops r).Inv ∧ (runT ops r).clean ∧
      (runT ops r).maxSize = r.maxSize ∧ (runT ops r).Len ≤ r.maxSize ∧
      (runT ops r).content = mrunT r.maxSize ops r.content := by
  induction ops generalizing r with
  | nil => exact ⟨h, hc, rfl, hlm, rfl⟩
  | cons op ops ih =>
    cases op with
    | add x =>
      obtain ⟨h1, h2, h3, h4, h5⟩ := RingT.Add_simT h hc hm1 hm2 hlm x
      obtain ⟨ih1, ih2, ih3, ih4, ih5⟩ := ih h1 h2 (by rw [h3]; exact hm1)
        (by rw [h3]; exact hm2) (by rw [h3]; exact h4)
      refine ⟨ih1, ih2, by rw [show runT (OpT.add x :: ops) r = runT ops (r.Add x) from rfl, ih3, h3], by rw [show runT (OpT.add x :: ops) r = runT ops (r.Add x) from rfl]; rw [h3] at ih4; exact ih4, ?_⟩
      show (runT ops (r.Add x)).content = mrunT r.maxSize ops (RingT.mAddT r.maxSize r.content x)
      rw [ih5, h5, h3]
    | next =>
      by_cases hz : r.Len = 0
      · have hempty : r.content = [] := by
          have hcl := RingT.content_lengthT r
          rw [hz] at hcl
          exact List.length_eq_zero.mp hcl
        obtain ⟨hst, _⟩ := RingT.Next_emptyT hz
        obtain ⟨ih1, ih2, ih3, ih4, ih5⟩ := ih (r := (r.Next).2)
          (by rw [hst]; exact h) (by rw [hst]; exact hc) (by rw [hst]; exact hm1)
          (by rw [hst]; exact hm2) (by rw [hst]; exact hlm)
        refine ⟨ih1, ih2, by rw [show runT (OpT.next :: ops) r = runT ops (r.Next).2 from rfl, ih3, hst], by rw [show runT (OpT.next :: ops) r = runT ops (r.Next).2 from rfl]; rw [hst] at ih4 ⊢; exact ih4, ?_⟩
        show (runT ops (r.Next).2).content = mrunT r.maxSize ops (r.content.drop 1)
        rw [ih5, hst, hempty]
        simp
      · obtain ⟨k, hInvPk⟩ : ∃ k, r.InvP k := by
          rcases h with hemp | hp
          · exact absurd (RingT.Len_emptyT hemp.2.1) hz
          · exact hp
        obtain ⟨h1, h2, h3, _, h5, h6⟩ := RingT.Next_simT hInvPk hz
        obtain ⟨ih1, ih2, ih3, ih4, ih5⟩ := ih (r := (r.Next).2)
          (Or.inr ⟨k, h1⟩) (h6 hc) (by rw [h5]; exact hm1)
          (by rw [h5]; exact hm2) (by rw [h2]; omega)
        refine ⟨ih1, ih2, by rw [show runT (OpT.next :: ops) r = runT ops (r.Next).2 from rfl, ih3, h5], by rw [show runT (OpT.next :: ops) r = runT ops (r.Next).2 from rfl]; rw [h5] at ih4; exact ih4, ?_⟩
        show (runT ops (r.Next).2).content = mrunT r.maxSize ops (r.content.drop 1)
        rw [ih5, h3, h5]

/-- **C8**: for every sequence of Add and Next operations on a
GrowingBoundedRing with `maxSize = M`, `length() ≤ M` holds after every
operation, and `Peek i` for `0 ≤ i < length()` returns the i-th oldest
surviving element (the i-th element of the evict-oldest model list). -/
theorem C8_growing_bounded_ring (α : Type) (ops : List (OpT α)) (M : Nat)
    (h1 : 1 ≤ M) (h2 : M ≤ 2 ^ 60) :
    (runT ops (NewRingT α M)).Len ≤ M ∧
      (runT ops (NewRingT α M)).Len = (mrunT M ops []).length ∧
      ∀ i : Nat, i < (runT ops (NewRingT α M)).Len →
        (runT ops (NewRingT α M)).Peek (Int.ofNat i) =
          (mrunT M ops []).getD i none := by
  obtain ⟨hI, hc, hm, hlen, hcont⟩ := runT_sim (RingT.NewRingT_inv)
    (RingT.NewRingT_clean) h1 h2
    (by rw [RingT.NewRingT_len]; exact Nat.zero_le _) ops
  rw [RingT.NewRingT_content] at hcont
  have hms : (NewRingT α M).maxSize = M := rfl
  rw [hms] at hlen hcont
  refine ⟨hlen, ?_, ?_⟩
  · rw [← hcont, RingT.content_lengthT]
  · intro i hi
    rw [← hcont, RingT.content_getDT hi]

/-- Witness for C8: maxSize 3, insert 1..4 then pop; two survivors. -/
theorem C8_growing_bounded_ring_witness :
    (1 ≤ 3 ∧ 3 ≤ 2 ^ 60) ∧
      ((runT [OpT.add (some 1), OpT.add (some 2), OpT.add (some 3),
          OpT.add (some 4), OpT.next] (NewRingT Nat 3)).Len ≤ 3 ∧
        (runT [OpT.add (some 1), OpT.add (some 2), OpT.add (some 3),
          OpT.add (some 4), OpT.next] (NewRingT Nat 3)).Len =
          (mrunT 3 [OpT.add (some 1), OpT.add (some 2), OpT.add (some 3),
            OpT.add (some 4), OpT.next] []).length ∧
        ∀ i : Nat, i < (runT [OpT.add (some 1), OpT.add (some 2),
            OpT.add (some 3), OpT.add (some 4), OpT.next]
            (NewRingT Nat 3)).Len →
          (runT [OpT.add (some 1), OpT.add (some 2), OpT.add (some 3),
            OpT.add (some 4), OpT.next] (NewRingT Nat 3)).Peek
              (Int.ofNat i) =
            (mrunT 3 [OpT.add (some 1), OpT.add (some 2), OpT.add (some 3),
              OpT.add (some 4), OpT.next] []).getD i none) :=
  ⟨⟨by norm_num, by norm_num⟩,
    C8_growing_bounded_ring Nat [OpT.add (some 1), OpT.add (some 2),
      OpT.add (some 3), OpT.add (some 4), OpT.next] 3 (by norm_num)
      (by norm_num)⟩

/-! ## WeightedRingT: the weight-bounded reference ring (WeightedRing)

Embeds the Go type `WeightedRingT[T]`: a ring of pointers with a per-slot
weight, a cached running weight total, and eviction until the total fits
under `MaxWeight`.  The backing arrays grow in powers of two (floor 4). -/

structure WeightedRingT (α : Type _) where
  MaxWeight : Int         -- we guarantee that weight <= MaxWeight
  weight : Int            -- current weight
  items : List (Option α) -- len(items) == len(weights), a power of 2
  weights : List Int      -- weights
  tail : Nat              -- read from tail
  head : Nat              -- write into head

/-- `NewWeightedRingT` allocates nothing up front. -/
def NewWeightedRingT (α : Type _) (maxWeight : Int) : WeightedRingT α :=
  { MaxWeight := maxWeight, weight := 0, items := [], weights := [],
    tail := 0, head := 0 }

namespace WeightedRingT

variable {α : Type _}

/-- `mask()` is `uint(len(r.items)) - 1`; on the never-grown ring this
wraps to `2^64 - 1`. -/
def mask (r : WeightedRingT α) : Nat := sub64 r.items.length 1

/-- Number of elements in the buffer: `int((r.head - r.tail) & r.mask())`. -/
def Len (r : WeightedRingT α) : Nat := sub64 r.head r.tail &&& r.mask

/-- Total weight of all items in the ring buffer (the cached counter). -/
def Weight (r : WeightedRingT α) : Int := r.weight

/-- `Next` pops the oldest item together with its weight, decrementing the
running total and clearing the vacated slot; `(false, nil, 0)` if empty. -/
def Next (r : WeightedRingT α) : (Bool × Option α × Int) × WeightedRingT α :=
  if r.Len = 0 then ((false, none, 0), r)
  else
    ((true, r.items.getD r.tail none, r.weights.getD r.tail 0),
      { r with tail := add64 r.tail 1 &&& r.mask,
               weight := r.weight - r.weights.getD r.tail 0,
               items := r.items.set r.tail none })

/-- The drain loop inside `Add`'s growth branch: pop `n` items and write
them (and their weights) into the fronts of the new arrays. -/
def drainInto : Nat → WeightedRingT α → List (Option α) → List Int → Nat →
    WeightedRingT α × List (Option α) × List Int
  | 0, r, accI, accW, _ => (r, accI, accW)
  | n + 1, r, accI, accW, i =>
    let p := r.Next
    drainInto n p.2 (accI.set i p.1.2.1) (accW.set i p.1.2.2) (i + 1)

/-- The growth branch of `Add`: doubled arrays (floor 4), drained
oldest-first; the running weight is restored to its pre-drain value
(`orgWeight` in the source). -/
def grow (r : WeightedRingT α) : WeightedRingT α :=
  let newSize := max (r.items.length * 2) 4
  let n := r.Len
  let d := drainInto n r (List.replicate newSize none)
    (List.replicate newSize 0) 0
  { r with items := d.2.1, weights := d.2.2, tail := 0, head := n, weight := r.weight }

/-- The eviction loop of `Add`: pop the oldest while the new weight would
not fit and the ring is nonempty.  The fuel is the current element count:
each iteration pops one element, so `r.Len` iterations always suffice. -/
def evictLoop (w : Int) : Nat → WeightedRingT α → WeightedRingT α
  | 0, r => r
  | n + 1, r =>
    if r.weight + w > r.MaxWeight ∧ r.Len ≠ 0
    then evictLoop w n (r.Next).2 else r

/-- `Add` an item: grow if the arrays are absent or would wrap, erase old
items until no longer overweight, then write the item and its weight. -/
def Add (r : WeightedRingT α) (weight : Int) (item : Option α) :
    WeightedRingT α :=
  let r1 := if r.items.length = 0 ∨ r.Len = r.items.length - 1
    then r.grow else r
  let r2 := evictLoop weight r1.Len r1
  { r2 with items := r2.items.set r2.head item, weights := r2.weights.set r2.head weight, weight := r2.weight + weight, head := add64 r2.head 1 &&& r2.mask }

/-- `peek` (unexported, no bounds check): the `Tail+i` element and weight. -/
def peek (r : WeightedRingT α) (i : Nat) : Option α × Int :=
  let j := add64 r.tail i &&& r.mask
  (r.items.getD j none, r.weights.getD j 0)

/-- Modelled from the spec: the public bounds-checked `Peek` of the
weighted ring (the method its tests call) is absent from the provided
sources; per the spec, `peek(i)` returns `(exists, reference, weight)`,
and `exists=false` yields a nil reference and zero weight, mutating
nothing. -/
def Peek (r : WeightedRingT α) (i : Int) : Bool × Option α × Int :=
  if 0 ≤ i ∧ i < (r.Len : Int)
  then (true, (r.peek i.toNat).1, (r.peek i.toNat).2)
  else (false, none, 0)

/-- The logical content of the ring (item and weight pairs, oldest first),
read through `peek`. -/
def content (r : WeightedRingT α) : List (Option α × Int) :=
  (List.range r.Len).map (fun i => r.peek i)

/-- Well-formedness of a ring whose arrays have grown to size `2^k`. -/
def InvP (r : WeightedRingT α) (k : Nat) : Prop :=
  2 ≤ k ∧ k ≤ 62 ∧ r.items.length = 2 ^ k ∧ r.weights.length = 2 ^ k ∧
    r.head < 2 ^ k ∧ r.tail < 2 ^ k

/-- Well-formedness of every ring reachable from `NewWeightedRingT`. -/
def Inv (r : WeightedRingT α) : Prop :=
  (r.items = [] ∧ r.weights = [] ∧ r.head = 0 ∧ r.tail = 0) ∨ ∃ k, r.InvP k

/-- Every backing slot outside the live region `[tail, head)` holds nil. -/
def clean (r : WeightedRingT α) : Prop :=
  ∀ j, j < r.items.length → r.Len ≤ (sub64 j r.tail &&& r.mask) →
    r.items.getD j none = none

/-- Sum of the weights of a model content list. -/
def sumW (val : List (Option α × Int)) : Int :=
  (val.map fun p => p.2).sum

theorem sub64_self (a : Nat) : sub64 a a = 0 := by
  unfold sub64
  have h : a % U + U - a % U = U := by omega
  rw [h, Nat.mod_self]

theorem U_big : (2 : Nat) ^ 62 < U := by
  unfold U
  norm_num

theorem mask_eq {r : WeightedRingT α} {k : Nat} (h : r.InvP k) :
    r.mask = 2 ^ k - 1 := by
  obtain ⟨hk2, hk62, hlen, hwlen, hh, ht⟩ := h
  have hle : (2 : Nat) ^ k ≤ 2 ^ 62 := Nat.pow_le_pow_right (by norm_num) hk62
  have hltU : (2 : Nat) ^ k < U := lt_of_le_of_lt hle U_big
  have h1 : (1 : Nat) ≤ 2 ^ k := Nat.one_le_two_pow
  unfold mask sub64
  rw [hlen, Nat.mod_eq_of_lt hltU, Nat.mod_eq_of_lt (show 1 < U by unfold U; norm_num)]
  calc (2 ^ k + U - 1) % U = ((2 ^ k - 1) + U) % U := by congr 1; omega
  _ = (2 ^ k - 1) % U := Nat.add_mod_right _ _
  _ = 2 ^ k - 1 := Nat.mod_eq_of_lt (by omega)

theorem Len_emptyW {r : WeightedRingT α} (hht : r.head = r.tail) :
    r.Len = 0 := by
  unfold Len
  rw [hht, sub64_self]
  simp

theorem Len_eqW {r : WeightedRingT α} {k : Nat} (h : r.InvP k) :
    r.Len = (r.head + 2 ^ k - r.tail) % 2 ^ k := by
  obtain ⟨hk2, hk62, hlen, hwlen, hh, ht⟩ := h
  rw [Len, mask_eq ⟨hk2, hk62, hlen, hwlen, hh, ht⟩]
  exact sub64_land rfl (by omega) hh ht

theorem Len_ltW {r : WeightedRingT α} {k : Nat} (h : r.InvP k) :
    r.Len < 2 ^ k := by
  rw [Len_eqW h]
  exact mod_lt_of_pos _ (by positivity)

theorem dead_idx_eqW {r : WeightedRingT α} {k : Nat} (h : r.InvP k) (j : Nat)
    (hj : j < 2 ^ k) :
    (sub64 j r.tail &&& r.mask) = (j + 2 ^ k - r.tail) % 2 ^ k := by
  obtain ⟨hk2, hk62, hlen, hwlen, hh, ht⟩ := h
  rw [mask_eq ⟨hk2, hk62, hlen, hwlen, hh, ht⟩]
  exact sub64_land rfl (by omega) hj ht

theorem peek_eq {r : WeightedRingT α} {k : Nat} (h : r.InvP k) (i : Nat) :
    r.peek i = (r.items.getD ((r.tail + i) % 2 ^ k) none,
      r.weights.getD ((r.tail + i) % 2 ^ k) 0) := by
  obtain ⟨hk2, hk62, hlen, hwlen, hh, ht⟩ := h
  unfold peek
  rw [mask_eq ⟨hk2, hk62, hlen, hwlen, hh, ht⟩,
    add64_land _ _ rfl (by omega)]

theorem content_lengthW (r : WeightedRingT α) : r.content.length = r.Len := by
  simp [content]

theorem content_getDW {r : WeightedRingT α} {i : Nat} (hi : i < r.Len) :
    r.content.getD i (none, 0) = r.peek i := by
  unfold content
  rw [List.getD_eq_getElem _ _ (by simpa using hi)]
  simp

theorem Next_emptyW {r : WeightedRingT α} (h : r.Len = 0) :
    (r.Next).2 = r ∧ (r.Next).1 = (false, none, 0) := by
  constructor <;> simp [Next, h]

theorem Next_simW {r : WeightedRingT α} {k : Nat} (h : r.InvP k)
    (hne : r.Len ≠ 0) :
    (r.Next).2.InvP k ∧ (r.Next).2.Len = r.Len - 1 ∧
      (r.Next).2.content = r.content.drop 1 ∧
      (r.Next).1 = (true, (r.content.getD 0 (none, 0)).1,
        (r.content.getD 0 (none, 0)).2) ∧
      (r.Next).2.weight = r.weight - (r.content.getD 0 (none, 0)).2 ∧
      (r.Next).2.MaxWeight = r.MaxWeight ∧
      (r.Next).2.weights = r.weights ∧
      (r.clean → (r.Next).2.clean) := by
  obtain ⟨hk2, hk62, hlen, hwlen, hh, ht⟩ := h
  have hInv : r.InvP k := ⟨hk2, hk62, hlen, hwlen, hh, ht⟩
  have hs0 : (0 : Nat) < 2 ^ k := by positivity
  have hmk := mask_eq hInv
  have ht' : add64 r.tail 1 &&& r.mask = (r.tail + 1) % 2 ^ k := by
    rw [hmk]; exact add64_land _ _ rfl (by omega)
  have hpk0 : r.content.getD 0 (none, 0) = r.peek 0 := content_getDW (by omega)
  have hpeek0 : r.peek 0 =
      (r.items.getD r.tail none, r.weights.getD r.tail 0) := by
    rw [peek_eq hInv 0, Nat.add_zero, Nat.mod_eq_of_lt ht]
  have hstate : (r.Next).2 = { r with tail := (r.tail + 1) % 2 ^ k, weight := r.weight - r.weights.getD r.tail 0, items := r.items.set r.tail none } := by
    simp [Next, hne, ht']
  have hval : (r.Next).1 = (true, r.items.getD r.tail none,
      r.weights.getD r.tail 0) := by
    simp [Next, hne]
  rw [hstate]
  have hInv' : InvP { r with tail := (r.tail + 1) % 2 ^ k, weight := r.weight - r.weights.getD r.tail 0, items := r.items.set r.tail none } k :=
    ⟨hk2, hk62, by simpa using hlen, hwlen, hh, mod_lt_of_pos _ hs0⟩
  have hLenr : r.Len = (r.head + 2 ^ k - r.tail) % 2 ^ k := Len_eqW hInv
  have hLen' : Len { r with tail := (r.tail + 1) % 2 ^ k, weight := r.weight - r.weights.getD r.tail 0, items := r.items.set r.tail none } = r.Len - 1 := by
    rw [Len_eqW hInv']
    dsimp only
    rw [hLenr]
    exact cyc_tail_succ hh ht (by rw [← hLenr]; exact hne)
  refine ⟨hInv', hLen', ?_, ?_, ?_, rfl, rfl, ?_⟩
  · obtain ⟨m, hm⟩ : ∃ m, r.Len = m + 1 := ⟨r.Len - 1, by omega⟩
    unfold content
    rw [hLen', hm, Nat.add_sub_cancel, List.range_succ_eq_map]
    simp only [List.map_cons, List.map_map, List.drop_succ_cons, List.drop_zero]
    refine List.map_congr_left ?_
    intro i hi
    have him : i < m := List.mem_range.mp hi
    simp only [Function.comp_apply, Nat.succ_eq_add_one]
    rw [peek_eq hInv' i, peek_eq hInv (i + 1)]
    dsimp only
    rw [cyc_tail_succ_idx hs0]
    have hcyc : (r.tail + (i + 1)) % 2 ^ k ≠ r.tail := by
      have e2 := mod_two_cases (x := r.tail + (i + 1))
        (by
          have hml := mod_lt_of_pos (r.head + 2 ^ k - r.tail) hs0
          omega) hs0
      rw [e2]
      have e1 := mod_two_cases (x := r.head + 2 ^ k - r.tail) (by omega) hs0
      rw [hLenr, e1] at hm
      split_ifs <;> omega
    rw [getD_set_ne hcyc.symm _ _]
  · rw [hval, hpk0, hpeek0]
  · rw [hpk0, hpeek0]
  · intro hcl j hj hdead
    dsimp only at hj hdead ⊢
    rw [List.length_set] at hj
    by_cases hjt : j = r.tail
    · rw [hjt]
      exact getD_set_eq (by rw [hlen]; exact ht) _ _
    · rw [getD_set_ne (fun hx => hjt hx.symm) _ _]
      refine hcl j hj ?_
      rw [dead_idx_eqW hInv j (by rw [← hlen]; exact hj)]
      rw [dead_idx_eqW hInv' j (by rw [← hlen]; exact hj)] at hdead
      dsimp only at hdead
      rw [hLen'] at hdead
      rw [hLenr]
      rw [hLenr] at hdead
      have e1 := mod_two_cases (x := r.head + 2 ^ k - r.tail) (by omega) hs0
      have e2 := mod_two_cases (x := j + 2 ^ k - r.tail) (by omega) hs0
      have hjk : j < 2 ^ k := by rw [← hlen]; exact hj
      by_cases hts : r.tail + 1 < 2 ^ k
      · have e3 := mod_two_cases (x := j + 2 ^ k - (r.tail + 1)) (by omega) hs0
        rw [Nat.mod_eq_of_lt hts, e3] at hdead
        rw [e1] at hdead ⊢
        rw [e2]
        split_ifs at * <;> omega
      · have hteq : r.tail + 1 = 2 ^ k := by omega
        rw [hteq, Nat.mod_self, Nat.sub_zero, Nat.add_mod_right,
          Nat.mod_eq_of_lt hjk] at hdead
        rw [e1] at hdead ⊢
        rw [e2]
        split_ifs at * <;> omega

/-- The raw write at the head: the last four lines of `Add`. -/
def rawAdd (r : WeightedRingT α) (w : Int) (x : Option α) : WeightedRingT α :=
  { r with items := r.items.set r.head x, weights := r.weights.set r.head w, weight := r.weight + w, head := add64 r.head 1 &&& r.mask }

/-- Raw insertion at the head, when the ring is not physically full. -/
theorem insert_simW {r : WeightedRingT α} {k : Nat} (h : r.InvP k)
    (hnf : r.Len < 2 ^ k - 1) (w : Int) (x : Option α) :
    InvP (rawAdd r w x) k ∧
      Len (rawAdd r w x) = r.Len + 1 ∧
      content (rawAdd r w x) = r.content ++ [(x, w)] ∧
      (r.clean → clean (rawAdd r w x)) := by
  unfold rawAdd
  obtain ⟨hk2, hk62, hlen, hwlen, hh, ht⟩ := h
  have hInv : r.InvP k := ⟨hk2, hk62, hlen, hwlen, hh, ht⟩
  have hs0 : (0 : Nat) < 2 ^ k := by positivity
  have hmk := mask_eq hInv
  have hh' : add64 r.head 1 &&& r.mask = (r.head + 1) % 2 ^ k := by
    rw [hmk]; exact add64_land _ _ rfl (by omega)
  rw [hh']
  have hInv' : InvP { r with items := r.items.set r.head x, weights := r.weights.set r.head w, weight := r.weight + w, head := (r.head + 1) % 2 ^ k } k :=
    ⟨hk2, hk62, by simpa using hlen, by simpa using hwlen,
      mod_lt_of_pos _ hs0, ht⟩
  have hLenr : r.Len = (r.head + 2 ^ k - r.tail) % 2 ^ k := Len_eqW hInv
  have hLen' : Len { r with items := r.items.set r.head x, weights := r.weights.set r.head w, weight := r.weight + w, head := (r.head + 1) % 2 ^ k } = r.Len + 1 := by
    rw [Len_eqW hInv']
    dsimp only
    rw [hLenr]
    exact cyc_head_succ hh ht (by rw [← hLenr]; omega)
  refine ⟨hInv', hLen', ?_, ?_⟩
  · unfold content
    rw [hLen', List.range_succ]
    simp only [List.map_append, List.map_cons, List.map_nil]
    have hmap : (List.range r.Len).map
        (fun i => peek { r with items := r.items.set r.head x, weights := r.weights.set r.head w, weight := r.weight + w, head := (r.head + 1) % 2 ^ k } i) =
        (List.range r.Len).map (fun i => r.peek i) := by
      refine List.map_congr_left ?_
      intro i hi
      have him : i < r.Len := List.mem_range.mp hi
      rw [peek_eq hInv' i, peek_eq hInv i]
      dsimp only
      have hne := (cyc_ne_head hh ht (by rw [← hLenr]; exact him)).symm
      rw [getD_set_ne hne _ _, getD_set_ne hne _ _]
    have hlast : peek { r with items := r.items.set r.head x, weights := r.weights.set r.head w, weight := r.weight + w, head := (r.head + 1) % 2 ^ k } r.Len = (x, w) := by
      rw [peek_eq hInv' r.Len]
      dsimp only
      rw [hLenr, cyc_at_head hh ht,
        getD_set_eq (by rw [hlen]; exact hh) x none,
        getD_set_eq (by rw [hwlen]; exact hh) w 0]
    rw [hmap, hlast]
  · intro hcl j hj hdead
    dsimp only at hj hdead ⊢
    rw [List.length_set] at hj
    rw [dead_idx_eqW hInv' j (by rw [← hlen]; exact hj), hLen'] at hdead
    dsimp only at hdead
    have hjh : j ≠ r.head := by
      intro hx
      rw [hx, ← hLenr] at hdead
      omega
    rw [getD_set_ne (fun hx => hjh hx.symm) _ _]
    refine hcl j hj ?_
    rw [dead_idx_eqW hInv j (by rw [← hlen]; exact hj)]
    omega

/-- Effect of the drain loop on the two parallel accumulators. -/
theorem drainInto_specW {k : Nat} :
    ∀ (n : Nat) (r : WeightedRingT α), r.InvP k → n ≤ r.Len →
      ∀ (accI : List (Option α)) (accW : List Int) (i0 : Nat),
      (drainInto n r accI accW i0).2.1.length = accI.length ∧
      (drainInto n r accI accW i0).2.2.length = accW.length ∧
      (∀ j, j < accI.length → (drainInto n r accI accW i0).2.1.getD j none =
        if i0 ≤ j ∧ j < i0 + n then (r.content.getD (j - i0) (none, 0)).1
        else accI.getD j none) ∧
      (∀ j, j < accW.length → (drainInto n r accI accW i0).2.2.getD j 0 =
        if i0 ≤ j ∧ j < i0 + n then (r.content.getD (j - i0) (none, 0)).2
        else accW.getD j 0) := by
  intro n
  induction n with
  | zero =>
    intro r _ _ accI accW i0
    refine ⟨rfl, rfl, ?_, ?_⟩ <;>
      (intro j hj; rw [if_neg (by omega)]; rfl)
  | succ n ih =>
    intro r hInv hn accI accW i0
    have hne : r.Len ≠ 0 := by omega
    obtain ⟨hInv1, hLen1, hcont1, hval1, _, _, _, _⟩ := Next_simW hInv hne
    have hn1 : n ≤ (r.Next).2.Len := by omega
    obtain ⟨ihl1, ihl2, ihg1, ihg2⟩ := ih (r.Next).2 hInv1 hn1
      (accI.set i0 (r.Next).1.2.1) (accW.set i0 (r.Next).1.2.2) (i0 + 1)
    have hstep : drainInto (n + 1) r accI accW i0 =
        drainInto n (r.Next).2 (accI.set i0 (r.Next).1.2.1)
          (accW.set i0 (r.Next).1.2.2) (i0 + 1) := rfl
    rw [hstep]
    refine ⟨by rw [ihl1]; simp, by rw [ihl2]; simp, ?_, ?_⟩
    · intro j hj
      rw [ihg1 j (by simpa using hj)]
      by_cases hj0 : j = i0
      · rw [if_neg (by omega), if_pos (by omega), hj0]
        rw [getD_set_eq (by rw [← hj0]; exact hj) _ _, hval1]
        simp
      · by_cases hjin : i0 + 1 ≤ j ∧ j < i0 + 1 + n
        · rw [if_pos hjin, if_pos (by omega), hcont1]
          have hidx : j - (i0 + 1) + 1 = j - i0 := by omega
          simp [List.getD_eq_getElem?_getD, List.getElem?_drop, hidx]
        · rw [if_neg hjin, if_neg (by omega)]
          exact getD_set_ne (fun hx => hj0 hx.symm) _ _
    · intro j hj
      rw [ihg2 j (by simpa using hj)]
      by_cases hj0 : j = i0
      · rw [if_neg (by omega), if_pos (by omega), hj0]
        rw [getD_set_eq (by rw [← hj0]; exact hj) _ _, hval1]
        simp
      · by_cases hjin : i0 + 1 ≤ j ∧ j < i0 + 1 + n
        · rw [if_pos hjin, if_pos (by omega), hcont1]
          have hidx : j - (i0 + 1) + 1 = j - i0 := by omega
          simp [List.getD_eq_getElem?_getD, List.getElem?_drop, hidx]
        · rw [if_neg hjin, if_neg (by omega)]
          exact getD_set_ne (fun hx => hj0 hx.symm) _ _

theorem grow_itemsW (r : WeightedRingT α) : (r.grow).items =
    (drainInto r.Len r (List.replicate (max (r.items.length * 2) 4) none)
      (List.replicate (max (r.items.length * 2) 4) 0) 0).2.1 := rfl

theorem grow_weights (r : WeightedRingT α) : (r.grow).weights =
    (drainInto r.Len r (List.replicate (max (r.items.length * 2) 4) none)
      (List.replicate (max (r.items.length * 2) 4) 0) 0).2.2 := rfl

theorem grow_tailW (r : WeightedRingT α) : (r.grow).tail = 0 := rfl

theorem grow_headW (r : WeightedRingT α) : (r.grow).head = r.Len := rfl

theorem grow_weight (r : WeightedRingT α) : (r.grow).weight = r.weight := rfl

theorem grow_MaxWeight (r : WeightedRingT α) :
    (r.grow).MaxWeight = r.MaxWeight := rfl

theorem grow_simW {r : WeightedRingT α} {k : Nat} (h : r.InvP k)
    (hk61 : k ≤ 61) :
    (r.grow).InvP (k + 1) ∧ (r.grow).items.length = 2 ^ (k + 1) ∧
      (r.grow).tail = 0 ∧ (r.grow).head = r.Len ∧
      (r.grow).weight = r.weight ∧ (r.grow).MaxWeight = r.MaxWeight ∧
      (r.grow).Len = r.Len ∧ (r.grow).content = r.content ∧
      (r.grow).clean := by
  obtain ⟨hk2, hk62, hlen, hwlen, hh, ht⟩ := h
  have hInv : r.InvP k := ⟨hk2, hk62, hlen, hwlen, hh, ht⟩
  have hkk : (2 : Nat) ^ k ≤ 2 ^ (k + 1) := by rw [pow_succ]; omega
  have h1k : (1 : Nat) ≤ 2 ^ k := Nat.one_le_two_pow
  have hnewSize : max (r.items.length * 2) 4 = 2 ^ (k + 1) := by
    rw [hlen]
    have h42 : (2 : Nat) ^ 2 ≤ 2 ^ k := Nat.pow_le_pow_right (by norm_num) hk2
    rw [pow_succ]
    omega
  obtain ⟨hdl1, hdl2, hdg1, hdg2⟩ := drainInto_specW r.Len r hInv le_rfl
    (List.replicate (max (r.items.length * 2) 4) none)
    (List.replicate (max (r.items.length * 2) 4) 0) 0
  have hLenr := Len_ltW hInv
  have hilen : (r.grow).items.length = 2 ^ (k + 1) := by
    rw [grow_itemsW, hdl1, List.length_replicate, hnewSize]
  have hwlen' : (r.grow).weights.length = 2 ^ (k + 1) := by
    rw [grow_weights, hdl2, List.length_replicate, hnewSize]
  have hInv' : (r.grow).InvP (k + 1) := by
    refine ⟨by omega, by omega, hilen, hwlen', ?_, ?_⟩
    · rw [grow_headW]; omega
    · rw [grow_tailW]; exact Nat.one_le_two_pow
  have hLen' : (r.grow).Len = r.Len := by
    rw [Len_eqW hInv', grow_headW, grow_tailW, Nat.sub_zero, Nat.add_mod_right]
    exact Nat.mod_eq_of_lt (by omega)
  refine ⟨hInv', hilen, rfl, rfl, rfl, rfl, hLen', ?_, ?_⟩
  · unfold content
    rw [hLen']
    have hpeek : ∀ i ∈ List.range r.Len,
        (r.grow).peek i = r.content.getD i (none, 0) := by
      intro i hi
      have him : i < r.Len := List.mem_range.mp hi
      rw [peek_eq hInv' i, grow_tailW, grow_itemsW, grow_weights,
        Nat.zero_add, Nat.mod_eq_of_lt (by omega)]
      rw [hdg1 i (by rw [List.length_replicate, hnewSize]; omega),
        hdg2 i (by rw [List.length_replicate, hnewSize]; omega)]
      rw [if_pos (by omega), if_pos (by omega), Nat.sub_zero]
    rw [List.map_congr_left hpeek]
    conv_lhs => rw [← content_lengthW r]
    exact map_range_getD r.content (none, 0)
  · intro j hj hdead
    rw [hilen] at hj
    rw [dead_idx_eqW hInv' j hj, hLen', grow_tailW, Nat.sub_zero,
      Nat.add_mod_right, Nat.mod_eq_of_lt hj] at hdead
    rw [grow_itemsW, hdg1 j (by rw [List.length_replicate, hnewSize]; exact hj)]
    rw [if_neg (by omega)]
    simp

/-- Growth from the zero-value (never-grown) ring. -/
theorem grow_zeroW {r : WeightedRingT α} (hitems : r.items = [])
    (hht : r.head = r.tail) :
    r.grow = { r with items := List.replicate 4 none, weights := List.replicate 4 0, tail := 0, head := 0 } := by
  have hL := Len_emptyW hht
  unfold grow
  rw [hitems, hL]
  rfl

/-- Effect of the conditional growth step inside `Add`. -/
theorem grow_step_simW {r : WeightedRingT α} (h : r.Inv) (hc : r.clean)
    (hlen60 : r.Len ≤ 2 ^ 60) :
    ∃ k2, InvP (if r.items.length = 0 ∨ r.Len = r.items.length - 1 then r.grow else r) k2 ∧
      clean (if r.items.length = 0 ∨ r.Len = r.items.length - 1 then r.grow else r) ∧
      (if r.items.length = 0 ∨ r.Len = r.items.length - 1 then r.grow else r).MaxWeight = r.MaxWeight ∧
      (if r.items.length = 0 ∨ r.Len = r.items.length - 1 then r.grow else r).weight = r.weight ∧
      (if r.items.length = 0 ∨ r.Len = r.items.length - 1 then r.grow else r).Len = r.Len ∧
      (if r.items.length = 0 ∨ r.Len = r.items.length - 1 then r.grow else r).content = r.content ∧
      (if r.items.length = 0 ∨ r.Len = r.items.length - 1 then r.grow else r).Len < 2 ^ k2 - 1 := by
  rcases h with ⟨hemp, hwemp, hh, ht⟩ | ⟨k, hInvPk⟩
  · have hcond : r.items.length = 0 ∨ r.Len = r.items.length - 1 :=
      Or.inl (by rw [hemp]; rfl)
    rw [if_pos hcond]
    have hz := grow_zeroW hemp (by rw [hh, ht])
    have hL0 : r.Len = 0 := Len_emptyW (by rw [hh, ht])
    have hIZ : InvP ({ r with items := List.replicate 4 none, weights := List.replicate 4 0, tail := 0, head := 0 } : WeightedRingT α) 2 := by
      refine ⟨le_rfl, by norm_num, by simp, by simp, ?_, ?_⟩ <;> norm_num
    have hLZ : Len ({ r with items := List.replicate 4 none, weights := List.replicate 4 0, tail := 0, head := 0 } : WeightedRingT α) = 0 := by
      rw [Len_eqW hIZ]
      norm_num
    refine ⟨2, ?_, ?_, ?_, ?_, ?_, ?_, ?_⟩
    · rw [hz]; exact hIZ
    · rw [hz]
      intro j hj hdead
      have hj4 : j < 4 := by simpa using hj
      interval_cases j <;> rfl
    · rw [hz]
    · rw [hz]
    · rw [hz]
      exact hLZ.trans hL0.symm
    · rw [hz]
      unfold content
      rw [hLZ, hL0]
      simp
    · rw [hz, hLZ]
      norm_num
  · by_cases hg : r.items.length = 0 ∨ r.Len = r.items.length - 1
    · rw [if_pos hg]
      obtain ⟨hk2, hk62, hlen, hwlen, hh, ht⟩ := hInvPk
      have hInvPk2 : r.InvP k := ⟨hk2, hk62, hlen, hwlen, hh, ht⟩
      have h1k : (1 : Nat) ≤ 2 ^ k := Nat.one_le_two_pow
      have hLen : r.Len = 2 ^ k - 1 := by
        rcases hg with hg0 | hgr
        · rw [hlen] at hg0; omega
        · rw [hlen] at hgr; exact hgr
      have hk60 : k ≤ 60 := by
        by_contra hgt
        have h61 : (2 : Nat) ^ 61 ≤ 2 ^ k :=
          Nat.pow_le_pow_right (by norm_num) (by omega)
        have : (2 : Nat) ^ 61 ≤ 2 ^ 60 + 1 := by omega
        norm_num at this
      obtain ⟨hI, hil, htl, hhd, hwt, hMW, hLn, hcont, hcl⟩ :=
        grow_simW hInvPk2 (by omega)
      refine ⟨k + 1, hI, hcl, hMW, hwt, hLn, hcont, ?_⟩
      rw [hLn, hLen, pow_succ]
      omega
    · rw [if_neg hg]
      push_neg at hg
      obtain ⟨hgl, hgr⟩ := hg
      obtain ⟨hk2, hk62, hlen, hwlen, hh, ht⟩ := hInvPk
      have hInvPk2 : r.InvP k := ⟨hk2, hk62, hlen, hwlen, hh, ht⟩
      have hlt := Len_ltW hInvPk2
      refine ⟨k, hInvPk2, hc, rfl, rfl, rfl, rfl, ?_⟩
      rw [hlen] at hgr
      omega

/-- Model eviction, following the spec: drop the oldest elements while the
new weight would not fit and the list is nonempty. -/
def mEvictW (maxW w : Int) : List (Option α × Int) → List (Option α × Int)
  | [] => []
  | y :: rest => if sumW (y :: rest) + w > maxW then mEvictW maxW w rest
    else y :: rest

theorem sumW_cons (y : Option α × Int) (rest : List (Option α × Int)) :
    sumW (y :: rest) = y.2 + sumW rest := by
  simp [sumW]

theorem sumW_append_single (l : List (Option α × Int)) (x : Option α)
    (w : Int) : sumW (l ++ [(x, w)]) = sumW l + w := by
  simp [sumW]

theorem evictLoop_sim {k : Nat} (w : Int) :
    ∀ (fuel : Nat) (r : WeightedRingT α) (val : List (Option α × Int)),
      r.InvP k → r.clean → r.content = val → r.weight = sumW val →
      val.length ≤ fuel →
      (evictLoop w fuel r).InvP k ∧ (evictLoop w fuel r).clean ∧
        (evictLoop w fuel r).content = mEvictW r.MaxWeight w val ∧
        (evictLoop w fuel r).weight = sumW (mEvictW r.MaxWeight w val) ∧
        (evictLoop w fuel r).MaxWeight = r.MaxWeight ∧
        (evictLoop w fuel r).Len ≤ r.Len ∧
        ((evictLoop w fuel r).weight + w ≤ r.MaxWeight ∨
          (evictLoop w fuel r).Len = 0) := by
  intro fuel
  induction fuel with
  | zero =>
    intro r val hI hc hcont hw hfl
    have hval : val = [] := List.length_eq_zero.mp (by omega)
    subst hval
    have hL0 : r.Len = 0 := by
      rw [← content_lengthW, hcont]
      rfl
    refine ⟨hI, hc, ?_, ?_, rfl, le_rfl, Or.inr hL0⟩
    · show r.content = mEvictW r.MaxWeight w []
      rw [hcont]
      rfl
    · show r.weight = sumW (mEvictW r.MaxWeight w [])
      rw [hw]
      rfl
  | succ fuel ih =>
    intro r val hI hc hcont hw hfl
    by_cases hcond : r.weight + w > r.MaxWeight ∧ r.Len ≠ 0
    · have hunf : evictLoop w (fuel + 1) r =
          if r.weight + w > r.MaxWeight ∧ r.Len ≠ 0
          then evictLoop w fuel (r.Next).2 else r := rfl
      have hstep : evictLoop w (fuel + 1) r = evictLoop w fuel (r.Next).2 := by
        rw [hunf, if_pos hcond]
      obtain ⟨hA, hB⟩ := hcond
      obtain ⟨y, rest, hvy⟩ : ∃ y rest, val = y :: rest := by
        cases val with
        | nil =>
          exfalso
          exact hB (by rw [← content_lengthW, hcont]; rfl)
        | cons y rest => exact ⟨y, rest, rfl⟩
      subst hvy
      obtain ⟨hI1, hL1, hcont1, hval1, hw1, hM1, hws1, hc1⟩ := Next_simW hI hB
      have hcont1' : (r.Next).2.content = rest := by
        rw [hcont1, hcont]
        rfl
      have hw1' : (r.Next).2.weight = sumW rest := by
        rw [hw1, hcont, hw, sumW_cons]
        simp
      obtain ⟨ih1, ih2, ih3, ih4, ih5, ih6, ih7⟩ := ih (r.Next).2 rest hI1
        (hc1 hc) hcont1' hw1' (by simpa using hfl)
      rw [hstep]
      have hA2 : sumW (y :: rest) + w > r.MaxWeight := by
        rw [← hw]
        exact hA
      have hmev : mEvictW r.MaxWeight w (y :: rest) =
          mEvictW r.MaxWeight w rest := by
        show (if sumW (y :: rest) + w > r.MaxWeight
          then mEvictW r.MaxWeight w rest else y :: rest) =
          mEvictW r.MaxWeight w rest
        rw [if_pos hA2]
      rw [hmev]
      rw [hM1] at ih3 ih4 ih5 ih7
      refine ⟨ih1, ih2, ih3, ih4, ih5, ?_, ih7⟩
      omega
    · have hunf : evictLoop w (fuel + 1) r =
          if r.weight + w > r.MaxWeight ∧ r.Len ≠ 0
          then evictLoop w fuel (r.Next).2 else r := rfl
      have hstep : evictLoop w (fuel + 1) r = r := by
        rw [hunf, if_neg hcond]
      rw [hstep]
      have hexit : ¬(r.weight + w > r.MaxWeight) ∨ r.Len = 0 := by
        by_cases hA : r.weight + w > r.MaxWeight
        · right
          by_contra hB
          exact hcond ⟨hA, hB⟩
        · left; exact hA
      have hmev : mEvictW r.MaxWeight w val = val := by
        cases val with
        | nil => rfl
        | cons y rest =>
          have hLne : r.Len ≠ 0 := by
            rw [← content_lengthW, hcont]
            simp
          have hA : ¬(r.weight + w > r.MaxWeight) := by
            rcases hexit with hx | hx
            · exact hx
            · exact absurd hx hLne
          have hA2 : ¬(sumW (y :: rest) + w > r.MaxWeight) := by
            rw [← hw]
            exact hA
          show (if sumW (y :: rest) + w > r.MaxWeight
            then mEvictW r.MaxWeight w rest else y :: rest) = y :: rest
          rw [if_neg hA2]
      rw [hmev, ← hcont]
      refine ⟨hI, hc, rfl, hw.symm ▸ (by rw [hcont]), rfl, le_rfl, ?_⟩
      rcases hexit with hx | hx
      · left; omega
      · right; exact hx

/-- Combined effect of the eviction loop followed by the raw insert, for
an arbitrary post-growth state `G`. -/
theorem evict_insert_sim {G : WeightedRingT α} {k2 : Nat} (hI2 : G.InvP k2)
    (hc2 : G.clean) (hnf2 : G.Len < 2 ^ k2 - 1)
    (hWsum : G.weight = sumW G.content) (w : Int) (x : Option α) :
    (rawAdd (evictLoop w G.Len G) w x).Inv ∧
      (rawAdd (evictLoop w G.Len G) w x).clean ∧
      (rawAdd (evictLoop w G.Len G) w x).MaxWeight = G.MaxWeight ∧
      (rawAdd (evictLoop w G.Len G) w x).weight =
        sumW ((rawAdd (evictLoop w G.Len G) w x).content) ∧
      (rawAdd (evictLoop w G.Len G) w x).content =
        mEvictW G.MaxWeight w G.content ++ [(x, w)] ∧
      (rawAdd (evictLoop w G.Len G) w x).Len ≤ G.Len + 1 ∧
      ((rawAdd (evictLoop w G.Len G) w x).weight ≤ G.MaxWeight ∨
        ((rawAdd (evictLoop w G.Len G) w x).Len = 1 ∧ w > G.MaxWeight)) := by
  obtain ⟨hE1, hE2, hE3, hE4, hE5, hE6, hE7⟩ := evictLoop_sim w G.Len G
    G.content hI2 hc2 rfl hWsum (by rw [content_lengthW])
  obtain ⟨hI3, hL3, hcont3, hcl3⟩ :=
    insert_simW hE1 (lt_of_le_of_lt hE6 hnf2) w x
  have hMW : (rawAdd (evictLoop w G.Len G) w x).MaxWeight =
      (evictLoop w G.Len G).MaxWeight := rfl
  have hWT : (rawAdd (evictLoop w G.Len G) w x).weight =
      (evictLoop w G.Len G).weight + w := rfl
  refine ⟨Or.inr ⟨k2, hI3⟩, hcl3 hE2, hMW.trans hE5, ?_, ?_, ?_, ?_⟩
  · rw [hWT, hcont3, hE3, sumW_append_single, hE4]
  · rw [hcont3, hE3]
  · rw [hL3]
    omega
  · rw [hWT, hL3]
    rcases hE7 with hx | hx
    · left
      exact hx
    · by_cases hwle : w ≤ G.MaxWeight
      · left
        have hcE : (evictLoop w G.Len G).content = [] := by
          apply List.length_eq_zero.mp
          rw [content_lengthW, hx]
        have hme : mEvictW G.MaxWeight w G.content = [] := by
          rw [← hE3]
          exact hcE
        have hzero : (evictLoop w G.Len G).weight = 0 := by
          rw [hE4, hme]
          rfl
        rw [hzero]
        omega
      · right
        constructor
        · rw [hx]
        · omega

theorem Add_simW {r : WeightedRingT α} (h : r.Inv) (hcl : r.clean)
    (hw : r.weight = sumW r.content) (hlen60 : r.Len ≤ 2 ^ 60)
    (w : Int) (x : Option α) :
    (r.Add w x).Inv ∧ (r.Add w x).clean ∧
      (r.Add w x).MaxWeight = r.MaxWeight ∧
      (r.Add w x).weight = sumW ((r.Add w x).content) ∧
      (r.Add w x).content = mEvictW r.MaxWeight w r.content ++ [(x, w)] ∧
      (r.Add w x).Len ≤ r.Len + 1 ∧
      ((r.Add w x).weight ≤ r.MaxWeight ∨
        ((r.Add w x).Len = 1 ∧ w > r.MaxWeight)) := by
  obtain ⟨k2, hI2, hc2, hM2, hW2, hL2, hcont2, hnf2⟩ := grow_step_simW h hcl hlen60
  obtain ⟨f1, f2, f3, f4, f5, f6, f7⟩ := evict_insert_sim hI2 hc2 hnf2
    (by rw [hW2, hcont2]; exact hw) w x
  rw [hM2] at f3 f5 f7
  rw [hcont2] at f5
  have hAdd : r.Add w x = rawAdd
      (evictLoop w (if r.items.length = 0 ∨ r.Len = r.items.length - 1 then r.grow else r).Len
        (if r.items.length = 0 ∨ r.Len = r.items.length - 1 then r.grow else r)) w x := rfl
  rw [hAdd]
  exact ⟨f1, f2, f3, f4, f5, f6.trans (by omega), f7⟩

theorem NewWeightedRingT_inv {W : Int} : (NewWeightedRingT α W).Inv :=
  Or.inl ⟨rfl, rfl, rfl, rfl⟩

theorem NewWeightedRingT_clean {W : Int} : (NewWeightedRingT α W).clean := by
  intro j hj hdead
  simp [NewWeightedRingT] at hj

theorem NewWeightedRingT_len {W : Int} : (NewWeightedRingT α W).Len = 0 :=
  Len_emptyW rfl

theorem NewWeightedRingT_content {W : Int} :
    (NewWeightedRingT α W).content = [] := by
  simp [content, NewWeightedRingT_len]

end WeightedRingT

/-- Operation alphabet of the weighted ring. -/
inductive OpW (α : Type _) where
  | add (w : Int) (x : Option α)
  | next

/-- Run a sequence of operations against a `WeightedRingT`. -/
def runW {α : Type _} : List (OpW α) → WeightedRingT α → WeightedRingT α
  | [], r => r
  | OpW.add w x :: ops, r => runW ops (r.Add w x)
  | OpW.next :: ops, r => runW ops (r.Next).2

/-- Number of inserts in an operation sequence. -/
def countAddsW {α : Type _} : List (OpW α) → Nat
  | [] => 0
  | OpW.add _ _ :: ops => countAddsW ops + 1
  | OpW.next :: ops => countAddsW ops

/-- Model of the weighted ring's content under a sequence of operations,
following the spec: insert evicts oldest-first until the new weight fits
(or the list is empty), then appends. -/
def mrunW {α : Type _} (maxW : Int) :
    List (OpW α) → List (Option α × Int) → List (Option α × Int)
  | [], val => val
  | OpW.add w x :: ops, val =>
    mrunW maxW ops (WeightedRingT.mEvictW maxW w val ++ [(x, w)])
  | OpW.next :: ops, val => mrunW maxW ops (val.drop 1)

theorem runW_sim {α : Type _} {r : WeightedRingT α} (h : r.Inv)
    (hc : r.clean) (hw : r.weight = WeightedRingT.sumW r.content)
    (ops : List (OpW α)) (hbud : r.Len + countAddsW ops ≤ 2 ^ 60) :
    (runW ops r).Inv ∧ (runW ops r).clean ∧
      (runW ops r).MaxWeight = r.MaxWeight ∧
      (runW ops r).weight = WeightedRingT.sumW ((runW ops r).content) ∧
      (runW ops r).content = mrunW r.MaxWeight ops r.content ∧
      (runW ops r).Len ≤ r.Len + countAddsW ops := by
  induction ops generalizing r with
  | nil => exact ⟨h, hc, rfl, hw, rfl, Nat.le_add_right r.Len (countAddsW [])⟩
  | cons op ops ih =>
    cases op with
    | add w x =>
      obtain ⟨h1, h2, h3, h4, h5, h6, _⟩ := WeightedRingT.Add_simW h hc hw
        (by simp only [countAddsW] at hbud; omega) w x
      obtain ⟨ih1, ih2, ih3, ih4, ih5, ih6⟩ := ih h1 h2 h4
        (by simp only [countAddsW] at hbud; omega)
      refine ⟨ih1, ih2, ?_, ih4, ?_, ?_⟩
      · show (runW ops (r.Add w x)).MaxWeight = r.MaxWeight
        rw [ih3, h3]
      · show (runW ops (r.Add w x)).content =
          mrunW r.MaxWeight ops (WeightedRingT.mEvictW r.MaxWeight w r.content ++ [(x, w)])
        rw [ih5, h5, h3]
      · show (runW ops (r.Add w x)).Len ≤ r.Len + countAddsW (OpW.add w x :: ops)
        simp only [countAddsW]
        omega
    | next =>
      by_cases hz : r.Len = 0
      · have hempty : r.content = [] := by
          have hcl := WeightedRingT.content_lengthW r
          rw [hz] at hcl
          exact List.length_eq_zero.mp hcl
        obtain ⟨hst, _⟩ := WeightedRingT.Next_emptyW hz
        obtain ⟨ih1, ih2, ih3, ih4, ih5, ih6⟩ := ih (r := (r.Next).2)
          (by rw [hst]; exact h) (by rw [hst]; exact hc)
          (by rw [hst]; exact hw)
          (by rw [hst]; simp only [countAddsW] at hbud ⊢; omega)
        refine ⟨ih1, ih2, ?_, ih4, ?_, ?_⟩
        · show (runW ops (r.Next).2).MaxWeight = r.MaxWeight
          rw [ih3, hst]
        · show (runW ops (r.Next).2).content =
            mrunW r.MaxWeight ops (r.content.drop 1)
          rw [ih5, hst, hempty]
          simp
        · show (runW ops (r.Next).2).Len ≤ r.Len + countAddsW (OpW.next :: ops)
          have hlen_eq : (r.Next).2.Len = r.Len := by rw [hst]
          simp only [countAddsW]
          omega
      · obtain ⟨k, hInvPk⟩ : ∃ k, r.InvP k := by
          rcases h with hemp | hp
          · exact absurd (WeightedRingT.Len_emptyW (by rw [hemp.2.2.1, hemp.2.2.2])) hz
          · exact hp
        obtain ⟨h1, h2, h3, h4, h5, h6, h7, h8⟩ :=
          WeightedRingT.Next_simW hInvPk hz
        have hw1 : (r.Next).2.weight =
            WeightedRingT.sumW ((r.Next).2.content) := by
          obtain ⟨y, rest, hvy⟩ : ∃ y rest, r.content = y :: rest := by
            cases hcv : r.content with
            | nil =>
              exfalso
              apply hz
              rw [← WeightedRingT.content_lengthW, hcv]
              rfl
            | cons y rest => exact ⟨y, rest, rfl⟩
          rw [h5, h3, hvy, hw, hvy, WeightedRingT.sumW_cons]
          simp
        obtain ⟨ih1, ih2, ih3, ih4, ih5, ih6⟩ := ih (r := (r.Next).2)
          (Or.inr ⟨k, h1⟩) (h8 hc) hw1
          (by simp only [countAddsW] at hbud ⊢; omega)
        refine ⟨ih1, ih2, ?_, ih4, ?_, ?_⟩
        · show (runW ops (r.Next).2).MaxWeight = r.MaxWeight
          rw [ih3, h6]
        · show (runW ops (r.Next).2).content =
            mrunW r.MaxWeight ops (r.content.drop 1)
          rw [ih5, h3, h6]
        · show (runW ops (r.Next).2).Len ≤ r.Len + countAddsW (OpW.next :: ops)
          simp only [countAddsW]
          omega

/-- **C5**: for every sequence of Add and Next operations on a WeightedRing
with maxWeight `W`, `Weight()` equals the sum of the weights of the live
elements (also across growth copies), and after any further Add either
`Weight() ≤ W` or the ring holds exactly one element whose own weight
exceeds `W`. -/
theorem C5_weighted_ring (α : Type) (W : Int) (ops : List (OpW α))
    (hops : countAddsW ops ≤ 2 ^ 60) :
    (runW ops (NewWeightedRingT α W)).Weight =
      WeightedRingT.sumW ((runW ops (NewWeightedRingT α W)).content) ∧
      ∀ (w : Int) (x : Option α),
        ((runW ops (NewWeightedRingT α W)).Add w x).Weight ≤ W ∨
          (((runW ops (NewWeightedRingT α W)).Add w x).Len = 1 ∧
            (((runW ops (NewWeightedRingT α W)).Add w x).peek 0).2 > W) := by
  obtain ⟨hI, hc, hM, hw, hcont, hlen⟩ := runW_sim
    (r := NewWeightedRingT α W) (WeightedRingT.NewWeightedRingT_inv)
    (WeightedRingT.NewWeightedRingT_clean)
    (by rw [WeightedRingT.NewWeightedRingT_content]; rfl) ops
    (by rw [WeightedRingT.NewWeightedRingT_len]; omega)
  have hMW : (NewWeightedRingT α W).MaxWeight = W := rfl
  rw [hMW] at hM
  rw [WeightedRingT.NewWeightedRingT_len] at hlen
  have hlen2 : (runW ops (NewWeightedRingT α W)).Len ≤ 2 ^ 60 := by omega
  refine ⟨hw, ?_⟩
  intro w x
  obtain ⟨a1, a2, a3, a4, a5, a6, a7⟩ := WeightedRingT.Add_simW hI hc hw
    hlen2 w x
  rw [hM] at a5 a7
  rcases a7 with hle | ⟨h1len, hgt⟩
  · left
    exact hle
  · right
    refine ⟨h1len, ?_⟩
    have h0 : (0 : Nat) < ((runW ops (NewWeightedRingT α W)).Add w x).Len := by
      omega
    have hgd := WeightedRingT.content_getDW h0
    have hmE : WeightedRingT.mEvictW W w
        ((runW ops (NewWeightedRingT α W)).content) = [] := by
      have hlc := WeightedRingT.content_lengthW
        ((runW ops (NewWeightedRingT α W)).Add w x)
      rw [a5, h1len] at hlc
      simp at hlc
      exact hlc
    rw [a5, hmE] at hgd
    simp at hgd
    rw [← hgd]
    exact hgt

/-- Witness for C5: maxWeight 10, inserting weights 2, 3, 4, 3 (the spec's
scenario: the weight-2 element is evicted). -/
theorem C5_weighted_ring_witness :
    countAddsW [OpW.add 2 (some 100), OpW.add 3 (some 101),
        OpW.add 4 (some 102), OpW.add 3 (some 103)] ≤ 2 ^ 60 ∧
      ((runW [OpW.add 2 (some 100), OpW.add 3 (some 101),
          OpW.add 4 (some 102), OpW.add 3 (some 103)]
          (NewWeightedRingT Nat 10)).Weight =
        WeightedRingT.sumW ((runW [OpW.add 2 (some 100), OpW.add 3 (some 101),
          OpW.add 4 (some 102), OpW.add 3 (some 103)]
          (NewWeightedRingT Nat 10)).content) ∧
        ∀ (w : Int) (x : Option Nat),
          ((runW [OpW.add 2 (some 100), OpW.add 3 (some 101),
              OpW.add 4 (some 102), OpW.add 3 (some 103)]
              (NewWeightedRingT Nat 10)).Add w x).Weight ≤ 10 ∨
            (((runW [OpW.add 2 (some 100), OpW.add 3 (some 101),
                OpW.add 4 (some 102), OpW.add 3 (some 103)]
                (NewWeightedRingT Nat 10)).Add w x).Len = 1 ∧
              (((runW [OpW.add 2 (some 100), OpW.add 3 (some 101),
                OpW.add 4 (some 102), OpW.add 3 (some 103)]
                (NewWeightedRingT Nat 10)).Add w x).peek 0).2 > 10)) :=
  ⟨by norm_num [countAddsW],
    C5_weighted_ring Nat 10 [OpW.add 2 (some 100), OpW.add 3 (some 101),
      OpW.add 4 (some 102), OpW.add 3 (some 103)]
      (by norm_num [countAddsW])⟩

/-- **C7**: for every ring variant, `Peek` at any out-of-range index
(negative or at least the current length) returns the absent result — the
zero value for `RingP`, nil for `RingT`, and `(false, nil, 0)` for
`WeightedRingT` — and, the embedded `Peek`s being functions of the state
that return only a value, they mutate nothing.  The index hypotheses
`-2^63 ≤ i < 2^63` delimit the values a Go `int` can take. -/
theorem C7_peek_out_of_range (α : Type) [Inhabited α] :
    (∀ (r : RingP α) (i : Int), r.Inv → -(2 ^ 63) ≤ i → i < 2 ^ 63 →
      (i < 0 ∨ (r.Len : Int) ≤ i) → r.Peek i = default) ∧
      (∀ (r : RingT α) (i : Int), r.Inv → -(2 ^ 63) ≤ i → i < 2 ^ 63 →
        (i < 0 ∨ (r.Len : Int) ≤ i) → r.Peek i = none) ∧
      (∀ (r : WeightedRingT α) (i : Int),
        (i < 0 ∨ (r.Len : Int) ≤ i) → r.Peek i = (false, none, 0)) := by
  refine ⟨?_, ?_, ?_⟩
  · intro r i hInv hlo hhi hout
    obtain ⟨k, hk1, hk, hlen, hmask, hh, ht⟩ := hInv
    have hLlt : r.Len < 2 ^ 62 := by
      have h1 := RingP.Len_lt ⟨k, hk1, hk, hlen, hmask, hh, ht⟩
      have h2 : (2 : Nat) ^ k ≤ 2 ^ 62 := Nat.pow_le_pow_right (by norm_num) hk
      rw [hlen] at h1
      omega
    refine RingP.Peek_out ?_
    rcases hout with hneg | hge
    · have h3 := intToUint_neg hneg hlo
      have h4 : (2 : Nat) ^ 62 ≤ 2 ^ 63 := by norm_num
      omega
    · have h5 : intToUint i = i.toNat := by
        unfold intToUint
        omega
      rw [h5]
      omega
  · intro r i hInv hlo hhi hout
    have hLlt : r.Len < 2 ^ 62 := by
      rcases hInv with hemp | ⟨k, hk1, hk, hlen, hmask, hh, ht⟩
      · rw [RingT.Len_emptyT hemp.2.1]
        positivity
      · have h1 := RingT.Len_ltT ⟨hk1, hk, hlen, hmask, hh, ht⟩
        have h2 : (2 : Nat) ^ k ≤ 2 ^ 62 := Nat.pow_le_pow_right (by norm_num) hk
        omega
    refine RingT.Peek_outT ?_
    rcases hout with hneg | hge
    · have h3 := intToUint_neg hneg hlo
      have h4 : (2 : Nat) ^ 62 ≤ 2 ^ 63 := by norm_num
      omega
    · have h5 : intToUint i = i.toNat := by
        unfold intToUint
        omega
      rw [h5]
      omega
  · intro r i hout
    unfold WeightedRingT.Peek
    rw [if_neg]
    intro hin
    rcases hout with hneg | hge
    · omega
    · omega

/-- Witness for C7: index -1 against freshly built rings of each variant. -/
theorem C7_peek_out_of_range_witness :
    ((NewRingP Nat (2 ^ 2)).Inv ∧ (-(2 ^ 63) : Int) ≤ -1 ∧
        (-1 : Int) < 2 ^ 63 ∧
        ((-1 : Int) < 0 ∨ (((NewRingP Nat (2 ^ 2)).Len : Int) ≤ -1)) ∧
        (NewRingP Nat (2 ^ 2)).Peek (-1) = default) ∧
      ((NewRingT Nat 3).Inv ∧ (NewRingT Nat 3).Peek (-1) = none) ∧
      (NewWeightedRingT Nat 10).Peek (-1) = (false, none, 0) :=
  ⟨⟨RingP.NewRingP_inv 2 (by norm_num) (by norm_num), by norm_num,
      by norm_num, Or.inl (by norm_num),
      (C7_peek_out_of_range Nat).1 (NewRingP Nat (2 ^ 2)) (-1)
        (RingP.NewRingP_inv 2 (by norm_num) (by norm_num)) (by norm_num)
        (by norm_num) (Or.inl (by norm_num))⟩,
    ⟨RingT.NewRingT_inv,
      (C7_peek_out_of_range Nat).2.1 (NewRingT Nat 3) (-1)
        RingT.NewRingT_inv (by norm_num) (by norm_num)
        (Or.inl (by norm_num))⟩,
    (C7_peek_out_of_range Nat).2.2 (NewWeightedRingT Nat 10) (-1)
      (Or.inl (by norm_num))⟩

/-- **C10**: for the reference-holding variants, after every operation
sequence every backing slot outside the live region `[tail, head)` (the
slots whose cyclic offset from the tail is at least the length) holds nil:
removal clears the vacated slot and growth produces a fresh array holding
only the live references. -/
theorem C10_no_leaked_references (α : Type) :
    (∀ (ops : List (OpT α)) (M : Nat), 1 ≤ M → M ≤ 2 ^ 60 →
      ∀ j, j < (runT ops (NewRingT α M)).items.length →
        (runT ops (NewRingT α M)).Len ≤
          (sub64 j (runT ops (NewRingT α M)).tail &&&
            (runT ops (NewRingT α M)).mask) →
        (runT ops (NewRingT α M)).items.getD j none = none) ∧
      (∀ (ops : List (OpW α)) (W : Int), countAddsW ops ≤ 2 ^ 60 →
        ∀ j, j < (runW ops (NewWeightedRingT α W)).items.length →
          (runW ops (NewWeightedRingT α W)).Len ≤
            (sub64 j (runW ops (NewWeightedRingT α W)).tail &&&
              (runW ops (NewWeightedRingT α W)).mask) →
          (runW ops (NewWeightedRingT α W)).items.getD j none = none) := by
  constructor
  · intro ops M h1 h2
    obtain ⟨hI, hc, hm, hlen, hcont⟩ := runT_sim (RingT.NewRingT_inv)
      (RingT.NewRingT_clean) h1 h2
      (by rw [RingT.NewRingT_len]; exact Nat.zero_le _) ops
    exact hc
  · intro ops W hops
    obtain ⟨hI, hc, hM, hw, hcont, hlen⟩ := runW_sim
      (r := NewWeightedRingT α W) (WeightedRingT.NewWeightedRingT_inv)
      (WeightedRingT.NewWeightedRingT_clean)
      (by rw [WeightedRingT.NewWeightedRingT_content]; rfl) ops
      (by rw [WeightedRingT.NewWeightedRingT_len]; omega)
    exact hc

/-- Witness for C10: an evicting insert leaves the vacated slot nil in both
variants. -/
theorem C10_no_leaked_references_witness :
    (1 ≤ 1 ∧ 1 ≤ 2 ^ 60 ∧
        0 < (runT [OpT.add (some 5), OpT.add (some 6)]
          (NewRingT Nat 1)).items.length ∧
        (runT [OpT.add (some 5), OpT.add (some 6)] (NewRingT Nat 1)).Len ≤
          (sub64 0 (runT [OpT.add (some 5), OpT.add (some 6)]
            (NewRingT Nat 1)).tail &&&
            (runT [OpT.add (some 5), OpT.add (some 6)]
              (NewRingT Nat 1)).mask) ∧
        (runT [OpT.add (some 5), OpT.add (some 6)]
          (NewRingT Nat 1)).items.getD 0 none = none) ∧
      (countAddsW [OpW.add 2 (some 100), OpW.add 9 (some 101)] ≤ 2 ^ 60 ∧
        0 < (runW [OpW.add 2 (some 100), OpW.add 9 (some 101)]
          (NewWeightedRingT Nat 10)).items.length ∧
        (runW [OpW.add 2 (some 100), OpW.add 9 (some 101)]
          (NewWeightedRingT Nat 10)).Len ≤
          (sub64 0 (runW [OpW.add 2 (some 100), OpW.add 9 (some 101)]
            (NewWeightedRingT Nat 10)).tail &&&
            (runW [OpW.add 2 (some 100), OpW.add 9 (some 101)]
              (NewWeightedRingT Nat 10)).mask) ∧
        (runW [OpW.add 2 (some 100), OpW.add 9 (some 101)]
          (NewWeightedRingT Nat 10)).items.getD 0 none = none) :=
  ⟨⟨by norm_num, by norm_num, by decide, by decide,
      (C10_no_leaked_references Nat).1 [OpT.add (some 5), OpT.add (some 6)]
        1 (by norm_num) (by norm_num) 0 (by decide) (by decide)⟩,
    ⟨by norm_num [countAddsW], by decide, by decide,
      (C10_no_leaked_references Nat).2 [OpW.add 2 (some 100),
        OpW.add 9 (some 101)] 10 (by norm_num [countAddsW]) 0 (by decide)
        (by decide)⟩⟩

/-! ## Ring: the byte ring buffer

Embeds the Go type `Ring`: a circular byte buffer with stream read/write,
zero-copy direct access, and power-of-two growth.  Bytes are embedded as
`Nat`. -/

/-- Start buffer at 64 bytes. -/
def DefaultSize : Nat := 64

/-- The zero value for `Ring` is an empty buffer ready to use. -/
structure Ring where
  head : Nat
  tail : Nat
  data : List Nat

/-- The `io.EOF` sentinel returned by `Read`. -/
inductive GoError where
  | eof
deriving DecidableEq

namespace Ring

/-- `end()`: the length of the backing buffer (`end` is a Lean keyword,
hence the name). -/
def endPos (r : Ring) : Nat := r.data.length

/-- `mask()`: `uint(len(r.data)) - 1`; wraps to `2^64 - 1` on the zero ring. -/
def mask (r : Ring) : Nat := sub64 r.data.length 1

/-- Number of unread bytes: `int((r.head - r.tail) & r.mask())`. -/
def Len (r : Ring) : Nat := sub64 r.head r.tail &&& r.mask

/-- The doubling loop of `ensureCapacity` (`for cap < needCap { cap *= 2 }`),
with explicit fuel to make termination structural.  A fuel of `needCap`
is always sufficient: at the call site `cap ≥ DefaultSize ≥ 1`, and a
positive capacity at least doubles each iteration, so after `i` iterations
`cap ≥ cap₀ + i`; hence the guard fails before the fuel runs out and the
fuelled loop computes exactly the Go loop's result. -/
def growCapLoop : Nat → Nat → Nat → Nat
  | 0, cap, _ => cap
  | fuel + 1, cap, needCap =>
    if cap < needCap then growCapLoop fuel (cap * 2) needCap else cap

/-- Go `copy(dst[off:], src)`: overwrite `dst` from position `off` with the
bytes of `src`, clipped to `dst`'s extent; the length of `dst` is kept. -/
def overwriteAt (dst : List Nat) (off : Nat) (src : List Nat) : List Nat :=
  dst.take off ++ src.take (dst.length - off) ++ dst.drop (off + src.length)

/-- `ensureCapacity`: make the capacity large enough for `forBytes` bytes,
growing by powers of two; the `+1` reserves the slot that keeps full and
empty distinguishable.  After appending the zero bytes, a wrapped occupied
region (`head < tail`) is normalized by copying the prefix `[0, head)` to
`[orgCap, orgCap+head)` and advancing `head` by `orgCap`. -/
def ensureCapacity (r : Ring) (forBytes : Nat) : Ring :=
  let needCap := forBytes + r.Len + 1
  if needCap ≤ r.data.length then r
  else
    let orgCap := r.data.length
    let cap := growCapLoop needCap (max orgCap DefaultSize) needCap
    let data := r.data ++ List.replicate (cap - orgCap) 0
    if r.head < r.tail then
      { r with data := overwriteAt data orgCap (data.take r.head), head := r.head + orgCap }
    else
      { r with data := data }

/-- `DirectWrite`: reserve room for `numBytes` more bytes and return the
contiguous in-buffer slice, clipped at the physical end, advancing `head`.
The Go function returns the slice itself; the embedding returns its
(start, length) coordinates, and `Write` performs the `copy` into the
buffer.  In every valid state `head ≤ end`, where the Go `uint`
subtraction `r.end()-r.head` agrees with truncated subtraction. -/
def DirectWrite (r : Ring) (numBytes : Nat) : (Nat × Nat) × Ring :=
  let r1 := r.ensureCapacity (r.Len + numBytes)
  let numBytes := if r1.endPos - r1.head < numBytes then r1.endPos - r1.head
    else numBytes
  ((r1.head, numBytes), { r1 with head := add64 r1.head numBytes &&& r1.mask })

/-- `DirectRead`: the oldest contiguous chunk of at most `numBytes` bytes
(as values, the Go slice being read-only in every use), advancing `tail`. -/
def DirectRead (r : Ring) (numBytes : Nat) : List Nat × Ring :=
  let n1 := if numBytes > r.Len then r.Len else numBytes
  let n2 := if n1 > r.endPos - r.tail then r.endPos - r.tail else n1
  if n2 = 0 then ([], r)
  else ((r.data.drop r.tail).take n2,
    { r with tail := add64 r.tail n2 &&& r.mask })

/-- `Read` (io.Reader): two `DirectRead`s copied into the caller's buffer
of length `bufLen`; returns the bytes written into the buffer, the count,
and `io.EOF` exactly when nothing was copied and the ring is empty. -/
def Read (r : Ring) (bufLen : Nat) :
    (List Nat × Nat × Option GoError) × Ring :=
  let p1 := r.DirectRead bufLen
  let p2 := p1.2.DirectRead (bufLen - p1.1.length)
  let total := p1.1.length + p2.1.length
  if total = 0 ∧ p2.2.Len = 0
  then ((p1.1 ++ p2.1, total, some GoError.eof), p2.2)
  else ((p1.1 ++ p2.1, total, none), p2.2)

/-- `Write` (io.Writer): reserve via `DirectWrite`, copy, and reserve the
remainder if the first slice was short; always reports `(len(b), nil)`. -/
def Write (r : Ring) (b : List Nat) : (Nat × Option GoError) × Ring :=
  let p1 := r.DirectWrite b.length
  let r1 : Ring := { p1.2 with data := overwriteAt p1.2.data p1.1.1 (b.take p1.1.2) }
  if p1.1.2 ≠ b.length then
    let p2 := r1.DirectWrite (b.length - p1.1.2)
    let r2 : Ring := { p2.2 with data := overwriteAt p2.2.data p2.1.1 ((b.drop p1.1.2).take p2.1.2) }
    ((b.length, none), r2)
  else ((b.length, none), r1)

/-- The unread bytes, oldest first (the `ringContent` helper of the
package's own tests). -/
def content (r : Ring) : List Nat :=
  if r.tail ≤ r.head then (r.data.drop r.tail).take (r.head - r.tail)
  else r.data.drop r.tail ++ r.data.take r.head

/-- Well-formedness of every reachable `Ring`. -/
def Valid (r : Ring) : Prop :=
  (r.data = [] ∧ r.head = 0 ∧ r.tail = 0) ∨
    ∃ k, k ≤ 62 ∧ r.data.length = 2 ^ k ∧ r.head < 2 ^ k ∧ r.tail < 2 ^ k

/-! ### Segment algebra

`seg l a n` is Go's slice expression `l[a : a+n]` (clipped at the end of
`l`); the content and copy lemmas below are phrased with it. -/

/-- The contiguous segment of `n` entries of `l` starting at `a`. -/
def seg (l : List Nat) (a n : Nat) : List Nat := (l.drop a).take n

theorem seg_length (l : List Nat) (a n : Nat) :
    (seg l a n).length = min n (l.length - a) := by
  simp [seg]

theorem seg_full (l : List Nat) : seg l 0 l.length = l := by
  simp [seg]

theorem seg_split (l : List Nat) (a m n : Nat) :
    seg l a (m + n) = seg l a m ++ seg l (a + m) n := by
  unfold seg
  rw [List.take_add, List.drop_drop]

theorem seg_append_left {l₁ : List Nat} (l₂ : List Nat) {a n : Nat}
    (h : a + n ≤ l₁.length) : seg (l₁ ++ l₂) a n = seg l₁ a n := by
  unfold seg
  rw [List.drop_append_of_le_length (by omega),
    List.take_append_of_le_length (by rw [List.length_drop]; omega)]

theorem seg_append_right (l₁ l₂ : List Nat) (a n : Nat) :
    seg (l₁ ++ l₂) (l₁.length + a) n = seg l₂ a n := by
  unfold seg
  rw [List.drop_append_eq_append_drop, List.drop_of_length_le (by omega),
    List.nil_append, Nat.add_sub_cancel_left]

/-- Lists agreeing up to `d` have the same segments below `d`. -/
theorem seg_of_take_eq {X Y : List Nat} {d : Nat} (h : X.take d = Y.take d)
    (a n : Nat) (han : a + n ≤ d) : seg X a n = seg Y a n := by
  unfold seg
  rw [List.take_drop, List.take_drop]
  have hX : X.take (a + n) = (X.take d).take (a + n) := by
    rw [List.take_take, Nat.min_eq_left han]
  have hY : Y.take (a + n) = (Y.take d).take (a + n) := by
    rw [List.take_take, Nat.min_eq_left han]
  rw [hX, hY, h]

/-- Lists agreeing from `d` on have the same segments above `d`. -/
theorem seg_of_drop_eq {X Y : List Nat} {d : Nat} (h : X.drop d = Y.drop d)
    (a n : Nat) (ha : d ≤ a) : seg X a n = seg Y a n := by
  unfold seg
  have hX : X.drop a = (X.drop d).drop (a - d) := by
    rw [List.drop_drop]
    congr 1
    omega
  have hY : Y.drop a = (Y.drop d).drop (a - d) := by
    rw [List.drop_drop]
    congr 1
    omega
  rw [hX, hY, h]

theorem seg_middle (A B C : List Nat) :
    seg (A ++ B ++ C) A.length B.length = B := by
  unfold seg
  rw [List.append_assoc, List.drop_left, List.take_left]

theorem seg_take {dst : List Nat} {off a n : Nat} (h : a + n ≤ off) :
    seg (dst.take off) a n = seg dst a n := by
  unfold seg
  rw [List.drop_take, List.take_take]
  congr 1
  omega

theorem overwriteAt_length (dst : List Nat) (off : Nat) (src : List Nat) :
    (overwriteAt dst off src).length = dst.length := by
  unfold overwriteAt
  rw [List.length_append, List.length_append, List.length_take,
    List.length_take, List.length_drop]
  omega

theorem overwriteAt_take {dst : List Nat} {off : Nat} (src : List Nat)
    (h : off ≤ dst.length) :
    (overwriteAt dst off src).take off = dst.take off := by
  unfold overwriteAt
  rw [List.append_assoc, List.take_append_of_le_length
    (by rw [List.length_take]; omega), List.take_take, Nat.min_self]

theorem overwriteAt_drop {dst : List Nat} {off : Nat} {src : List Nat}
    (h : off + src.length ≤ dst.length) :
    (overwriteAt dst off src).drop (off + src.length) =
      dst.drop (off + src.length) := by
  unfold overwriteAt
  rw [List.take_of_length_le (l := src) (by omega)]
  exact List.drop_left' (by rw [List.length_append, List.length_take]; omega)

/-- Reading back an in-bounds copy returns what was written. -/
theorem overwriteAt_seg {dst : List Nat} {off : Nat} {src : List Nat}
    (h : off + src.length ≤ dst.length) :
    seg (overwriteAt dst off src) off src.length = src := by
  unfold overwriteAt
  rw [List.take_of_length_le (l := src) (by omega)]
  have hA : (dst.take off).length = off := by
    rw [List.length_take]
    omega
  have hm := seg_middle (dst.take off) src (dst.drop (off + src.length))
  rw [hA] at hm
  exact hm

theorem overwriteAt_seg_before {dst : List Nat} {off : Nat} (src : List Nat)
    {a n : Nat} (han : a + n ≤ off) (hoff : off ≤ dst.length) :
    seg (overwriteAt dst off src) a n = seg dst a n :=
  seg_of_take_eq (overwriteAt_take src hoff) a n han

theorem overwriteAt_seg_after {dst : List Nat} {off : Nat} {src : List Nat}
    {a n : Nat} (ha : off + src.length ≤ a)
    (h : off + src.length ≤ dst.length) :
    seg (overwriteAt dst off src) a n = seg dst a n :=
  seg_of_drop_eq (overwriteAt_drop h) a n ha

/-! ### The growth loop -/

/-- Everything the doubling loop guarantees, provided the fuel covers the
iteration count (`needCap ≤ cap + fuel` suffices, since a positive `cap`
grows by at least one per iteration): the result is at least `cap` and at
least `needCap`, is `cap` times a power of two, is below `2 * needCap`
whenever the loop iterates at all, and is exactly `cap` otherwise. -/
theorem growCapLoop_spec : ∀ (fuel cap needCap : Nat), 0 < cap →
    needCap ≤ cap + fuel →
    cap ≤ growCapLoop fuel cap needCap ∧
      needCap ≤ growCapLoop fuel cap needCap ∧
      (∃ m, growCapLoop fuel cap needCap = cap * 2 ^ m) ∧
      (cap < needCap → 2 * cap ≤ growCapLoop fuel cap needCap ∧
        growCapLoop fuel cap needCap < 2 * needCap) ∧
      (needCap ≤ cap → growCapLoop fuel cap needCap = cap) := by
  intro fuel
  induction fuel with
  | zero =>
    intro cap needCap hpos hle
    rw [show growCapLoop 0 cap needCap = cap from rfl]
    exact ⟨le_rfl, by omega, ⟨0, by ring⟩, by omega, fun _ => rfl⟩
  | succ fuel ih =>
    intro cap needCap hpos hle
    by_cases hlt : cap < needCap
    · have hunf : growCapLoop (fuel + 1) cap needCap =
          growCapLoop fuel (cap * 2) needCap := by
        rw [show growCapLoop (fuel + 1) cap needCap =
          (if cap < needCap then growCapLoop fuel (cap * 2) needCap else cap)
          from rfl, if_pos hlt]
      obtain ⟨h1, h2, ⟨m, hm⟩, h4, h5⟩ :=
        ih (cap * 2) needCap (by omega) (by omega)
      rw [hunf]
      refine ⟨by omega, h2, ⟨m + 1, by rw [hm]; ring⟩,
        fun _ => ⟨by omega, ?_⟩, fun h => absurd h (by omega)⟩
      by_cases h2' : cap * 2 < needCap
      · exact (h4 h2').2
      · rw [h5 (by omega)]
        omega
    · rw [show growCapLoop (fuel + 1) cap needCap =
        (if cap < needCap then growCapLoop fuel (cap * 2) needCap else cap)
        from rfl, if_neg hlt]
      exact ⟨le_rfl, by omega, ⟨0, by ring⟩, by omega, fun _ => rfl⟩

/-! ### Basic facts about `mask`, `Len` and `content` -/

theorem sub64_one {n : Nat} (h0 : 0 < n) (hU : n ≤ U) : sub64 n 1 = n - 1 := by
  unfold sub64 U at *
  omega

theorem mask_eqR {r : Ring} {k : Nat} (hk : k ≤ 64)
    (hlen : r.data.length = 2 ^ k) : r.mask = 2 ^ k - 1 := by
  unfold mask
  rw [hlen]
  exact sub64_one (Nat.two_pow_pos k)
    (by unfold U; exact Nat.pow_le_pow_right (by norm_num) hk)

theorem Len_eqR {r : Ring} {k : Nat} (hk : k ≤ 62)
    (hlen : r.data.length = 2 ^ k) (hh : r.head < 2 ^ k)
    (ht : r.tail < 2 ^ k) :
    r.Len = (r.head + 2 ^ k - r.tail) % 2 ^ k := by
  unfold Len
  rw [mask_eqR (by omega) hlen]
  exact sub64_land rfl (by omega) hh ht

theorem Len_ltR {r : Ring} {k : Nat} (hk : k ≤ 62)
    (hlen : r.data.length = 2 ^ k) (hh : r.head < 2 ^ k)
    (ht : r.tail < 2 ^ k) : r.Len < 2 ^ k := by
  rw [Len_eqR hk hlen hh ht]
  exact Nat.mod_lt _ (Nat.two_pow_pos k)

theorem Len_zero_ring {r : Ring} (hd : r.data = []) (hh : r.head = 0)
    (ht : r.tail = 0) : r.Len = 0 := by
  unfold Len mask sub64
  rw [hh, ht, hd]
  norm_num [U]

/-- `Len = 0` exactly when `head = tail` (on a sized, valid ring). -/
theorem Len_zero_iffR {r : Ring} {k : Nat} (hk : k ≤ 62)
    (hlen : r.data.length = 2 ^ k) (hh : r.head < 2 ^ k)
    (ht : r.tail < 2 ^ k) : r.Len = 0 ↔ r.head = r.tail := by
  rw [Len_eqR hk hlen hh ht]
  have hs : 0 < 2 ^ k := Nat.two_pow_pos k
  rw [mod_two_cases (by omega) hs]
  split_ifs <;> omega

theorem content_eq_seg (r : Ring) :
    r.content = if r.tail ≤ r.head then seg r.data r.tail (r.head - r.tail)
      else seg r.data r.tail (r.data.length - r.tail) ++
        seg r.data 0 r.head := by
  unfold content seg
  by_cases h : r.tail ≤ r.head
  · rw [if_pos h, if_pos h]
  · rw [if_neg h, if_neg h, List.drop_zero]
    congr 1
    exact (List.take_of_length_le (by rw [List.length_drop])).symm

/-! ### `ensureCapacity` -/

/-- Unfolded form of `ensureCapacity` (definitional). -/
theorem ensureCapacity_def (r : Ring) (forBytes : Nat) :
    r.ensureCapacity forBytes =
      if forBytes + r.Len + 1 ≤ r.data.length then r
      else if r.head < r.tail then { r with data := overwriteAt (r.data ++ List.replicate (growCapLoop (forBytes + r.Len + 1) (max r.data.length DefaultSize) (forBytes + r.Len + 1) - r.data.length) 0) r.data.length ((r.data ++ List.replicate (growCapLoop (forBytes + r.Len + 1) (max r.data.length DefaultSize) (forBytes + r.Len + 1) - r.data.length) 0).take r.head), head := r.head + r.data.length }
      else { r with data := r.data ++ List.replicate (growCapLoop (forBytes + r.Len + 1) (max r.data.length DefaultSize) (forBytes + r.Len + 1) - r.data.length) 0 } := rfl

/-- When the capacity suffices, `ensureCapacity` changes nothing. -/
theorem ensureCapacity_of_le {r : Ring} {forBytes : Nat}
    (h : forBytes + r.Len + 1 ≤ r.data.length) :
    r.ensureCapacity forBytes = r := by
  rw [ensureCapacity_def, if_pos h]

/-- When the buffer has power-of-two size `2^k` and must grow, the grown
capacity is a strictly larger power of two that fits `needCap`, at least
doubling the size. -/
theorem growCap_pow {k : Nat} (needCap : Nat) (hk : k ≤ 62)
    (hgt : 2 ^ k < needCap) (hbound : needCap ≤ 2 ^ 62) :
    ∃ k', k < k' ∧ k' ≤ 62 ∧
      growCapLoop needCap (max (2 ^ k) DefaultSize) needCap = 2 ^ k' ∧
      needCap ≤ 2 ^ k' ∧ 2 ^ (k + 1) ≤ 2 ^ k' := by
  have hj : max (2 ^ k) DefaultSize = 2 ^ max k 6 := by
    unfold DefaultSize
    rcases Nat.le_total k 6 with h | h
    · have h2 : (2 : Nat) ^ k ≤ 64 := by
        calc (2 : Nat) ^ k ≤ 2 ^ 6 := Nat.pow_le_pow_right (by norm_num) h
          _ = 64 := by norm_num
      rw [Nat.max_eq_right h2, Nat.max_eq_right h]
      norm_num
    · have h2 : (64 : Nat) ≤ 2 ^ k := by
        calc (64 : Nat) = 2 ^ 6 := by norm_num
          _ ≤ 2 ^ k := Nat.pow_le_pow_right (by norm_num) h
      rw [Nat.max_eq_left h2, Nat.max_eq_left h]
  rw [hj]
  have hjpos : 0 < 2 ^ max k 6 := Nat.two_pow_pos _
  obtain ⟨hge_cap, hge_need, ⟨m, hm⟩, hiter, hstay⟩ :=
    growCapLoop_spec needCap (2 ^ max k 6) needCap hjpos (by omega)
  by_cases hcase : needCap ≤ 2 ^ max k 6
  · refine ⟨max k 6, ?_, by omega, hstay hcase, hcase, ?_⟩
    · by_contra hcon
      have : (2 : Nat) ^ max k 6 ≤ 2 ^ k :=
        Nat.pow_le_pow_right (by norm_num) (by omega)
      omega
    · refine Nat.pow_le_pow_right (by norm_num) ?_
      by_contra hcon
      have : (2 : Nat) ^ max k 6 ≤ 2 ^ k :=
        Nat.pow_le_pow_right (by norm_num) (by omega)
      omega
  · obtain ⟨hdouble, hlt2⟩ := hiter (by omega)
    have hGpow : growCapLoop needCap (2 ^ max k 6) needCap =
        2 ^ (max k 6 + m) := by
      rw [hm, pow_add]
    have hk1 : (2 : Nat) ^ (k + 1) ≤ 2 ^ (max k 6 + m) := by
      rcases Nat.lt_or_ge k 6 with h6 | h6
      · calc (2 : Nat) ^ (k + 1) ≤ 2 ^ max k 6 :=
            Nat.pow_le_pow_right (by norm_num) (by omega)
          _ ≤ 2 ^ (max k 6 + m) :=
            Nat.pow_le_pow_right (by norm_num) (by omega)
      · have hmaxk : max k 6 = k := Nat.max_eq_left h6
        rw [← hGpow, hmaxk]
        rw [hmaxk] at hdouble
        rw [pow_succ]
        omega
    have hk62 : max k 6 + m ≤ 62 := by
      by_contra hcon
      have h63 : (2 : Nat) ^ 63 ≤ 2 ^ (max k 6 + m) :=
        Nat.pow_le_pow_right (by norm_num) (by omega)
      rw [← hGpow] at h63
      omega
    refine ⟨max k 6 + m, ?_, hk62, hGpow, by omega, hk1⟩
    by_contra hcon
    have : (2 : Nat) ^ (k + 1) ≤ 2 ^ k :=
      calc (2 : Nat) ^ (k + 1) ≤ 2 ^ (max k 6 + m) := hk1
        _ ≤ 2 ^ k := Nat.pow_le_pow_right (by norm_num) (by omega)
    have h2k : (2 : Nat) ^ (k + 1) = 2 ^ k * 2 := pow_succ 2 k
    have hpos : 0 < 2 ^ k := Nat.two_pow_pos k
    omega

theorem seg_take_seg (l : List Nat) (a N m : Nat) :
    (seg l a N).take m = seg l a (min m N) := by
  unfold seg
  rw [List.take_take]

theorem seg_drop_seg (l : List Nat) (a N m : Nat) :
    (seg l a N).drop m = seg l (a + m) (N - m) := by
  unfold seg
  rw [List.drop_take, List.drop_drop]

theorem seg_zero_left (l : List Nat) (n : Nat) : seg l 0 n = l.take n := by
  unfold seg
  rw [List.drop_zero]

/-- Full description of a growth step of `ensureCapacity` on a sized valid
ring: either the capacity already suffices and nothing changes, or the data
grows to a strictly larger power of two that fits the need, `tail` and the
content are preserved, `head` is advanced by the old capacity exactly when
the occupied region wrapped, the result is wrap-free and contiguous at
`[tail, tail+Len)`, and the wrapped prefix `[0, head)` was copied to
`[orgCap, orgCap+head)`. -/
theorem ensureCapacity_spec {r : Ring} {k : Nat} (forBytes : Nat) (hk : k ≤ 62)
    (hlen : r.data.length = 2 ^ k) (hh : r.head < 2 ^ k) (ht : r.tail < 2 ^ k)
    (hbound : 2 ^ k < forBytes + r.Len + 1 → forBytes + r.Len + 1 ≤ 2 ^ 62) :
    (forBytes + r.Len + 1 ≤ 2 ^ k ∧ r.ensureCapacity forBytes = r) ∨
      (2 ^ k < forBytes + r.Len + 1 ∧ ∃ k', k < k' ∧ k' ≤ 62 ∧
        (r.ensureCapacity forBytes).data.length = 2 ^ k' ∧
        forBytes + r.Len + 1 ≤ 2 ^ k' ∧
        (r.ensureCapacity forBytes).tail = r.tail ∧
        (r.ensureCapacity forBytes).head =
          (if r.head < r.tail then r.head + 2 ^ k else r.head) ∧
        (r.ensureCapacity forBytes).tail ≤ (r.ensureCapacity forBytes).head ∧
        (r.ensureCapacity forBytes).head < 2 ^ k' ∧
        (r.ensureCapacity forBytes).Len = r.Len ∧
        (r.ensureCapacity forBytes).content = r.content ∧
        seg (r.ensureCapacity forBytes).data r.tail r.Len = r.content ∧
        (r.head < r.tail →
          seg (r.ensureCapacity forBytes).data (2 ^ k) r.head =
            seg r.data 0 r.head)) := by
  by_cases hg : forBytes + r.Len + 1 ≤ 2 ^ k
  · exact Or.inl ⟨hg, ensureCapacity_of_le (by omega)⟩
  right
  refine ⟨by omega, ?_⟩
  obtain ⟨k', hkk', hk'62, hG, hneed, hdbl⟩ :=
    growCap_pow (forBytes + r.Len + 1) hk (by omega) (hbound (by omega))
  have hGr : growCapLoop (forBytes + r.Len + 1)
      (max r.data.length DefaultSize) (forBytes + r.Len + 1) = 2 ^ k' := by
    rw [hlen]
    exact hG
  have hps : (2 : Nat) ^ (k + 1) = 2 ^ k * 2 := pow_succ 2 k
  have h2k' : (2 : Nat) ^ k ≤ 2 ^ k' :=
    Nat.pow_le_pow_right (by norm_num) (Nat.le_of_lt hkk')
  have hs : 0 < 2 ^ k := Nat.two_pow_pos k
  have hs' : 0 < 2 ^ k' := Nat.two_pow_pos k'
  have hLen0 : r.Len = (r.head + 2 ^ k - r.tail) % 2 ^ k := Len_eqR hk hlen hh ht
  have hDlen : (r.data ++ List.replicate (2 ^ k' - 2 ^ k) 0).length = 2 ^ k' := by
    rw [List.length_append, List.length_replicate, hlen]
    omega
  refine ⟨k', hkk', hk'62, ?_⟩
  by_cases hwrap : r.head < r.tail
  · -- the occupied region wrapped: the prefix [0, head) is copied up
    have hr' : r.ensureCapacity forBytes = { head := r.head + 2 ^ k, tail := r.tail, data := overwriteAt (r.data ++ List.replicate (2 ^ k' - 2 ^ k) 0) (2 ^ k) ((r.data ++ List.replicate (2 ^ k' - 2 ^ k) 0).take r.head) } := by
      rw [ensureCapacity_def, if_neg (by omega), if_pos hwrap, hGr, hlen]
    have hhd : (r.ensureCapacity forBytes).head = r.head + 2 ^ k := by rw [hr']
    have htl : (r.ensureCapacity forBytes).tail = r.tail := by rw [hr']
    have hdata : (r.ensureCapacity forBytes).data =
        overwriteAt (r.data ++ List.replicate (2 ^ k' - 2 ^ k) 0) (2 ^ k)
          ((r.data ++ List.replicate (2 ^ k' - 2 ^ k) 0).take r.head) := by
      rw [hr']
    have htake : (r.data ++ List.replicate (2 ^ k' - 2 ^ k) 0).take r.head =
        r.data.take r.head :=
      List.take_append_of_le_length (by rw [hlen]; omega)
    have htakelen : (r.data.take r.head).length = r.head := by
      rw [List.length_take, hlen]
      exact Nat.min_eq_left (by omega)
    have hdata2 : (r.ensureCapacity forBytes).data =
        overwriteAt (r.data ++ List.replicate (2 ^ k' - 2 ^ k) 0) (2 ^ k)
          (r.data.take r.head) := by
      rw [hdata, htake]
    have hinb : 2 ^ k + (r.data.take r.head).length ≤
        (r.data ++ List.replicate (2 ^ k' - 2 ^ k) 0).length := by
      rw [htakelen, hDlen]
      omega
    have hlen' : (r.ensureCapacity forBytes).data.length = 2 ^ k' := by
      rw [hdata2, overwriteAt_length, hDlen]
    have hLenval : r.Len = r.head + 2 ^ k - r.tail := by
      rw [hLen0, mod_two_cases (by omega) hs]
      split_ifs <;> omega
    have hLen' : (r.ensureCapacity forBytes).Len = r.Len := by
      rw [Len_eqR hk'62 hlen' (by rw [hhd]; omega) (by rw [htl]; omega),
        hhd, htl, mod_two_cases (by omega) hs']
      split_ifs <;> omega
    have hprefix : seg (r.ensureCapacity forBytes).data (2 ^ k) r.head =
        seg r.data 0 r.head := by
      have hse := overwriteAt_seg hinb
      rw [htakelen] at hse
      rw [hdata2, hse, seg_zero_left]
    have hfirst : seg (r.ensureCapacity forBytes).data r.tail (2 ^ k - r.tail) =
        seg r.data r.tail (2 ^ k - r.tail) := by
      rw [hdata2, overwriteAt_seg_before _ (by omega) (by rw [hDlen]; omega)]
      exact seg_append_left _ (by rw [hlen]; omega)
    have hcontig : seg (r.ensureCapacity forBytes).data r.tail r.Len =
        r.content := by
      rw [hLenval, content_eq_seg, if_neg (by omega), hlen]
      have harg : r.head + 2 ^ k - r.tail = (2 ^ k - r.tail) + r.head := by
        omega
      rw [harg, seg_split]
      have harg2 : r.tail + (2 ^ k - r.tail) = 2 ^ k := by omega
      rw [harg2, hfirst, hprefix]
    have hcontent : (r.ensureCapacity forBytes).content = r.content := by
      rw [content_eq_seg, if_pos (by rw [htl, hhd]; omega), htl, hhd]
      have harg : r.head + 2 ^ k - r.tail = r.Len := hLenval.symm
      rw [harg, hcontig]
    exact ⟨hlen', by omega, htl, by rw [hhd, if_pos hwrap],
      by rw [htl, hhd]; omega, by rw [hhd]; omega, hLen', hcontent, hcontig,
      fun _ => hprefix⟩
  · -- no wrap: the data is extended in place
    have hr' : r.ensureCapacity forBytes = { head := r.head, tail := r.tail, data := r.data ++ List.replicate (2 ^ k' - 2 ^ k) 0 } := by
      rw [ensureCapacity_def, if_neg (by omega), if_neg hwrap, hGr, hlen]
    have hhd : (r.ensureCapacity forBytes).head = r.head := by rw [hr']
    have htl : (r.ensureCapacity forBytes).tail = r.tail := by rw [hr']
    have hdata : (r.ensureCapacity forBytes).data =
        r.data ++ List.replicate (2 ^ k' - 2 ^ k) 0 := by
      rw [hr']
    have hlen' : (r.ensureCapacity forBytes).data.length = 2 ^ k' := by
      rw [hdata, hDlen]
    have hth : r.tail ≤ r.head := by omega
    have hLenval : r.Len = r.head - r.tail := by
      rw [hLen0, mod_two_cases (by omega) hs]
      split_ifs <;> omega
    have hLen' : (r.ensureCapacity forBytes).Len = r.Len := by
      rw [Len_eqR hk'62 hlen' (by rw [hhd]; omega) (by rw [htl]; omega),
        hhd, htl, mod_two_cases (by omega) hs']
      split_ifs <;> omega
    have hcontig : seg (r.ensureCapacity forBytes).data r.tail r.Len =
        r.content := by
      rw [hLenval, content_eq_seg, if_pos hth, hdata]
      exact seg_append_left _ (by rw [hlen]; omega)
    have hcontent : (r.ensureCapacity forBytes).content = r.content := by
      rw [content_eq_seg, if_pos (by rw [htl, hhd]; omega), htl, hhd]
      have harg : r.head - r.tail = r.Len := hLenval.symm
      rw [harg, hcontig]
    exact ⟨hlen', by omega, htl, by rw [hhd, if_neg hwrap],
      by rw [htl, hhd]; omega, by rw [hhd]; omega, hLen', hcontent, hcontig,
      fun h => absurd h hwrap⟩

theorem seg_zero (l : List Nat) (a : Nat) : seg l a 0 = [] := rfl

theorem content_eq_nil {r : Ring} (hht : r.head = r.tail) : r.content = [] := by
  rw [content_eq_seg, if_pos (by omega), show r.head - r.tail = 0 by omega]
  rfl

/-- Growth of the zero-value ring: a fresh zeroed buffer of at least the
default size. -/
theorem ensureCapacity_empty {r : Ring} (forBytes : Nat)
    (hd : r.data = []) (hh : r.head = 0) (ht : r.tail = 0)
    (hbound : forBytes + 1 ≤ 2 ^ 62) :
    ∃ k', 6 ≤ k' ∧ k' ≤ 62 ∧
      (r.ensureCapacity forBytes).head = 0 ∧
      (r.ensureCapacity forBytes).tail = 0 ∧
      (r.ensureCapacity forBytes).data = List.replicate (2 ^ k') 0 ∧
      (r.ensureCapacity forBytes).data.length = 2 ^ k' ∧
      forBytes + 1 ≤ 2 ^ k' := by
  have hLen : r.Len = 0 := Len_zero_ring hd hh ht
  have hr' : r.ensureCapacity forBytes = { head := r.head, tail := r.tail, data := r.data ++ List.replicate (growCapLoop (forBytes + r.Len + 1) (max r.data.length DefaultSize) (forBytes + r.Len + 1) - r.data.length) 0 } := by
    rw [ensureCapacity_def, if_neg (by rw [hLen, hd]; simp),
      if_neg (by rw [hh, ht]; simp)]
  have hG64 : max r.data.length DefaultSize = 64 := by
    rw [hd]
    decide
  have hhd : (r.ensureCapacity forBytes).head = 0 := by rw [hr', hh]
  have htl : (r.ensureCapacity forBytes).tail = 0 := by rw [hr', ht]
  have hdata : (r.ensureCapacity forBytes).data =
      List.replicate (growCapLoop (forBytes + 1) 64 (forBytes + 1)) 0 := by
    rw [hr', hLen, hG64, hd]
    simp
  obtain ⟨hge64, hgeneed, ⟨m, hm⟩, hiter, hstay⟩ :=
    growCapLoop_spec (forBytes + 1) 64 (forBytes + 1) (by norm_num)
      (by omega)
  by_cases hcase : forBytes + 1 ≤ 64
  · refine ⟨6, le_rfl, by norm_num, hhd, htl, ?_, ?_, by norm_num; omega⟩
    · rw [hdata, hstay hcase]
      norm_num
    · rw [hdata, List.length_replicate, hstay hcase]
      norm_num
  · have hGpow : growCapLoop (forBytes + 1) 64 (forBytes + 1) =
        2 ^ (6 + m) := by
      rw [hm, pow_add]
      norm_num
    obtain ⟨hdouble, hlt2⟩ := hiter (by omega)
    have hk62 : 6 + m ≤ 62 := by
      by_contra hcon
      have h63 : (2 : Nat) ^ 63 ≤ 2 ^ (6 + m) :=
        Nat.pow_le_pow_right (by norm_num) (by omega)
      rw [← hGpow] at h63
      omega
    refine ⟨6 + m, by omega, hk62, hhd, htl, ?_, ?_, by rw [← hGpow]; omega⟩
    · rw [hdata, hGpow]
    · rw [hdata, List.length_replicate, hGpow]

/-- `ensureCapacity` on any valid empty ring (`Len = 0`): the result is a
sized, wrap-free, still-empty ring whose capacity fits `forBytes` bytes. -/
theorem ensureCapacity_of_empty {r : Ring} (forBytes : Nat) (hV : r.Valid)
    (h0 : r.Len = 0) (hbound : forBytes + 1 ≤ 2 ^ 62) :
    ∃ K, K ≤ 62 ∧
      (r.ensureCapacity forBytes).data.length = 2 ^ K ∧
      (r.ensureCapacity forBytes).head = (r.ensureCapacity forBytes).tail ∧
      (r.ensureCapacity forBytes).head < 2 ^ K ∧
      forBytes + 1 ≤ 2 ^ K ∧
      (r.ensureCapacity forBytes).Len = 0 ∧
      (r.ensureCapacity forBytes).content = [] := by
  rcases hV with ⟨hd, hh, ht⟩ | ⟨k, hk, hlen, hh, ht⟩
  · obtain ⟨k', hk'6, hk'62, hhd, htl, hdata, hlen', hfit⟩ :=
      ensureCapacity_empty forBytes hd hh ht hbound
    refine ⟨k', hk'62, hlen', by rw [hhd, htl], by rw [hhd]; positivity,
      hfit, ?_, content_eq_nil (by rw [hhd, htl])⟩
    exact (Len_zero_iffR hk'62 hlen' (by rw [hhd]; positivity)
      (by rw [htl]; positivity)).mpr (by rw [hhd, htl])
  · have hht : r.head = r.tail := (Len_zero_iffR hk hlen hh ht).mp h0
    rcases ensureCapacity_spec forBytes hk hlen hh ht (fun _ => by omega) with
      ⟨hle, heq⟩ | ⟨hgt, k', hkk', hk'62, hlen', hfit, htl, hhd, hth, hh'k,
        hLen', hcontent, _, _⟩
    · rw [heq]
      exact ⟨k, hk, hlen, hht, hh, by omega, h0, content_eq_nil hht⟩
    · refine ⟨k', hk'62, hlen', ?_, hh'k, by omega, by rw [hLen', h0], ?_⟩
      · rw [htl, hhd, if_neg (by omega)]
        exact hht
      · rw [hcontent]
        exact content_eq_nil hht

theorem content_lengthR {r : Ring} {k : Nat} (hk : k ≤ 62)
    (hlen : r.data.length = 2 ^ k) (hh : r.head < 2 ^ k)
    (ht : r.tail < 2 ^ k) : r.content.length = r.Len := by
  have hs : 0 < 2 ^ k := Nat.two_pow_pos k
  rw [content_eq_seg, Len_eqR hk hlen hh ht]
  by_cases h : r.tail ≤ r.head
  · rw [if_pos h, seg_length, hlen]
    have hmin : min (r.head - r.tail) (2 ^ k - r.tail) = r.head - r.tail :=
      Nat.min_eq_left (by omega)
    rw [hmin, mod_two_cases (by omega) hs, if_neg (by omega)]
    omega
  · rw [if_neg h, List.length_append, seg_length, seg_length, hlen]
    have hm1 : min (2 ^ k - r.tail) (2 ^ k - r.tail) = 2 ^ k - r.tail :=
      Nat.min_self _
    have hm2 : min r.head (2 ^ k - 0) = r.head := Nat.min_eq_left (by omega)
    rw [hm1, hm2, mod_two_cases (by omega) hs, if_pos (by omega)]
    omega

/-! ### `DirectRead` and `Read` -/

/-- `DirectRead` on a sized ring, with the clamped count written as a `min`
and the masked tail advance written as `% 2^k`. -/
theorem DirectRead_eq {r : Ring} {k : Nat} (numBytes : Nat) (hk : k ≤ 62)
    (hlen : r.data.length = 2 ^ k) :
    r.DirectRead numBytes =
      if min (min numBytes r.Len) (2 ^ k - r.tail) = 0 then ([], r)
      else (seg r.data r.tail (min (min numBytes r.Len) (2 ^ k - r.tail)), { r with tail := (r.tail + min (min numBytes r.Len) (2 ^ k - r.tail)) % 2 ^ k }) := by
  have hX : (if (if numBytes > r.Len then r.Len else numBytes) >
      r.endPos - r.tail then r.endPos - r.tail
      else if numBytes > r.Len then r.Len else numBytes) =
      min (min numBytes r.Len) (2 ^ k - r.tail) := by
    unfold endPos
    rw [hlen]
    split_ifs <;> omega
  have hmsk : r.mask = 2 ^ k - 1 := mask_eqR (by omega) hlen
  show (if (if (if numBytes > r.Len then r.Len else numBytes) > r.endPos - r.tail then r.endPos - r.tail else if numBytes > r.Len then r.Len else numBytes) = 0 then ([], r) else ((r.data.drop r.tail).take (if (if numBytes > r.Len then r.Len else numBytes) > r.endPos - r.tail then r.endPos - r.tail else if numBytes > r.Len then r.Len else numBytes), { r with tail := add64 r.tail (if (if numBytes > r.Len then r.Len else numBytes) > r.endPos - r.tail then r.endPos - r.tail else if numBytes > r.Len then r.Len else numBytes) &&& r.mask })) = _
  rw [hX, hmsk, add64_land _ _ rfl (by omega)]
  rfl

/-- Behaviour of `DirectRead` on a sized valid ring: it returns the first
`min numBytes (min Len (cap - tail))` bytes of the content and consumes
them, leaving data and head untouched. -/
theorem DirectRead_spec {r : Ring} {k : Nat} (numBytes : Nat) (hk : k ≤ 62)
    (hlen : r.data.length = 2 ^ k) (hh : r.head < 2 ^ k)
    (ht : r.tail < 2 ^ k) :
    (r.DirectRead numBytes).1 =
        r.content.take (min (min numBytes r.Len) (2 ^ k - r.tail)) ∧
      (r.DirectRead numBytes).1.length =
        min (min numBytes r.Len) (2 ^ k - r.tail) ∧
      (r.DirectRead numBytes).2.data = r.data ∧
      (r.DirectRead numBytes).2.head = r.head ∧
      (r.DirectRead numBytes).2.tail =
        (r.tail + min (min numBytes r.Len) (2 ^ k - r.tail)) % 2 ^ k ∧
      (r.DirectRead numBytes).2.tail < 2 ^ k ∧
      (r.DirectRead numBytes).2.Len =
        r.Len - min (min numBytes r.Len) (2 ^ k - r.tail) ∧
      (r.DirectRead numBytes).2.content =
        r.content.drop (min (min numBytes r.Len) (2 ^ k - r.tail)) := by
  have hs : 0 < 2 ^ k := Nat.two_pow_pos k
  have hLen0 : r.Len = (r.head + 2 ^ k - r.tail) % 2 ^ k :=
    Len_eqR hk hlen hh ht
  have hLenlt : r.Len < 2 ^ k := Len_ltR hk hlen hh ht
  rw [DirectRead_eq numBytes hk hlen]
  set N := min (min numBytes r.Len) (2 ^ k - r.tail) with hNdef
  have hNle : N ≤ 2 ^ k - r.tail := by omega
  have hNLen : N ≤ r.Len := by omega
  by_cases hz : N = 0
  · rw [if_pos hz, hz]
    simp [ht, Nat.mod_eq_of_lt ht]
  · rw [if_neg hz]
    refine ⟨?_, ?_, rfl, rfl, rfl, Nat.mod_lt _ hs, ?_, ?_⟩
    · -- the returned slice is the first N bytes of the content
      show seg r.data r.tail N = r.content.take N
      by_cases hth : r.tail ≤ r.head
      · rw [content_eq_seg, if_pos hth, seg_take_seg]
        have hLenval : r.Len = r.head - r.tail := by
          rw [hLen0, mod_two_cases (by omega) hs]
          split_ifs <;> omega
        congr 1
        omega
      · rw [content_eq_seg, if_neg hth, hlen,
          List.take_append_of_le_length (by rw [seg_length]; omega),
          seg_take_seg]
        congr 1
        omega
    · show (seg r.data r.tail N).length = N
      rw [seg_length, hlen]
      omega
    · -- the new length
      show Ring.Len { head := r.head, tail := (r.tail + N) % 2 ^ k, data := r.data } = r.Len - N
      rw [Len_eqR (r := { head := r.head, tail := (r.tail + N) % 2 ^ k, data := r.data }) hk hlen hh (Nat.mod_lt _ hs)]
      show (r.head + 2 ^ k - (r.tail + N) % 2 ^ k) % 2 ^ k = r.Len - N
      rw [mod_two_cases (x := r.tail + N) (by omega) hs]
      by_cases hth : r.tail ≤ r.head
      · have hLenval : r.Len = r.head - r.tail := by
          rw [hLen0, mod_two_cases (by omega) hs]
          split_ifs <;> omega
        split_ifs with h1
        · rw [mod_two_cases (by omega) hs]
          split_ifs <;> omega
        · rw [mod_two_cases (by omega) hs]
          split_ifs <;> omega
      · have hLenval : r.Len = r.head + 2 ^ k - r.tail := by
          rw [hLen0, mod_two_cases (by omega) hs]
          split_ifs <;> omega
        split_ifs with h1
        · rw [mod_two_cases (by omega) hs]
          split_ifs <;> omega
        · rw [mod_two_cases (by omega) hs]
          split_ifs <;> omega
    · -- the new content
      show Ring.content { head := r.head, tail := (r.tail + N) % 2 ^ k, data := r.data } = r.content.drop N
      rw [content_eq_seg]
      show (if (r.tail + N) % 2 ^ k ≤ r.head then seg r.data ((r.tail + N) % 2 ^ k) (r.head - (r.tail + N) % 2 ^ k) else seg r.data ((r.tail + N) % 2 ^ k) (r.data.length - (r.tail + N) % 2 ^ k) ++ seg r.data 0 r.head) = r.content.drop N
      by_cases hth : r.tail ≤ r.head
      · have hLenval : r.Len = r.head - r.tail := by
          rw [hLen0, mod_two_cases (by omega) hs]
          split_ifs <;> omega
        have hT : (r.tail + N) % 2 ^ k = r.tail + N :=
          Nat.mod_eq_of_lt (by omega)
        rw [hT, if_pos (by omega), content_eq_seg, if_pos hth,
          seg_drop_seg]
        congr 1
        omega
      · have hLenval : r.Len = r.head + 2 ^ k - r.tail := by
          rw [hLen0, mod_two_cases (by omega) hs]
          split_ifs <;> omega
        by_cases hTw : r.tail + N < 2 ^ k
        · have hT : (r.tail + N) % 2 ^ k = r.tail + N :=
            Nat.mod_eq_of_lt hTw
          rw [hT, if_neg (by omega), content_eq_seg, if_neg hth, hlen,
            List.drop_append_of_le_length (by rw [seg_length]; omega),
            seg_drop_seg]
          congr 2
          omega
        · have hT : (r.tail + N) % 2 ^ k = 0 := by
            rw [mod_two_cases (by omega) hs, if_neg (by omega)]
            omega
          rw [hT, if_pos (Nat.zero_le _), content_eq_seg, if_neg hth, hlen,
            List.drop_left' (by rw [seg_length]; omega), seg_zero_left,
            Nat.sub_zero]
          exact (seg_zero_left r.data r.head).symm

set_option maxHeartbeats 1000000 in
/-- Behaviour of `Read` on a sized valid ring: it copies out the oldest
`min bufLen Len` bytes and consumes them, reporting `io.EOF` exactly when
the ring was empty. -/
theorem Read_spec {r : Ring} {k : Nat} (bufLen : Nat) (hk : k ≤ 62)
    (hlen : r.data.length = 2 ^ k) (hh : r.head < 2 ^ k)
    (ht : r.tail < 2 ^ k) :
    (r.Read bufLen).1.1 = r.content.take (min bufLen r.Len) ∧
      (r.Read bufLen).1.2.1 = min bufLen r.Len ∧
      ((r.Read bufLen).1.2.2 =
        if r.Len = 0 then some GoError.eof else none) ∧
      (r.Read bufLen).2.data = r.data ∧
      (r.Read bufLen).2.head = r.head ∧
      (r.Read bufLen).2.tail < 2 ^ k ∧
      (r.Read bufLen).2.Len = r.Len - min bufLen r.Len ∧
      (r.Read bufLen).2.content = r.content.drop (min bufLen r.Len) := by
  have hs : 0 < 2 ^ k := Nat.two_pow_pos k
  have hLenlt : r.Len < 2 ^ k := Len_ltR hk hlen hh ht
  obtain ⟨e11, e12, e13, e14, e15, e16, e17, e18⟩ :=
    DirectRead_spec bufLen hk hlen hh ht
  have hlen1 : (r.DirectRead bufLen).2.data.length = 2 ^ k := by
    rw [e13]
    exact hlen
  have hh1 : (r.DirectRead bufLen).2.head < 2 ^ k := by
    rw [e14]
    exact hh
  obtain ⟨f11, f12, f13, f14, f15, f16, f17, f18⟩ :=
    DirectRead_spec (bufLen - min (min bufLen r.Len) (2 ^ k - r.tail))
      hk hlen1 hh1 e16
  rw [e15, e17] at f11 f12 f17 f18
  rw [e13] at f13
  rw [e14] at f14
  rw [e18] at f11 f18
  have hN2 : min (min (bufLen - min (min bufLen r.Len) (2 ^ k - r.tail))
      (r.Len - min (min bufLen r.Len) (2 ^ k - r.tail)))
      (2 ^ k - (r.tail + min (min bufLen r.Len) (2 ^ k - r.tail)) % 2 ^ k) =
      min bufLen r.Len - min (min bufLen r.Len) (2 ^ k - r.tail) := by
    by_cases hc : min bufLen r.Len ≤ 2 ^ k - r.tail
    · have h0 : min (bufLen - min (min bufLen r.Len) (2 ^ k - r.tail))
          (r.Len - min (min bufLen r.Len) (2 ^ k - r.tail)) = 0 := by
        omega
      rw [h0, Nat.zero_min]
      omega
    · have hmod : (r.tail + min (min bufLen r.Len) (2 ^ k - r.tail)) %
          2 ^ k = 0 := by
        rw [show r.tail + min (min bufLen r.Len) (2 ^ k - r.tail) = 2 ^ k
          by omega, Nat.mod_self]
      rw [hmod]
      omega
  rw [hN2] at f11 f12 f17 f18
  simp only [Read]
  rw [e12, f12, f17]
  by_cases hL : r.Len = 0
  · rw [if_pos ⟨by omega, by omega⟩, if_pos hL]
    refine ⟨?_, ?_, rfl, f13, f14, f16, ?_, ?_⟩
    · show (r.DirectRead bufLen).1 ++
        ((r.DirectRead bufLen).2.DirectRead (bufLen -
          min (min bufLen r.Len) (2 ^ k - r.tail))).1 =
        r.content.take (min bufLen r.Len)
      rw [e11, f11, ← List.take_add]
      congr 1
      omega
    · show min (min bufLen r.Len) (2 ^ k - r.tail) +
        (min bufLen r.Len - min (min bufLen r.Len) (2 ^ k - r.tail)) =
        min bufLen r.Len
      omega
    · show ((r.DirectRead bufLen).2.DirectRead (bufLen -
        min (min bufLen r.Len) (2 ^ k - r.tail))).2.Len =
        r.Len - min bufLen r.Len
      rw [f17]
      omega
    · show ((r.DirectRead bufLen).2.DirectRead (bufLen -
        min (min bufLen r.Len) (2 ^ k - r.tail))).2.content =
        r.content.drop (min bufLen r.Len)
      rw [f18, List.drop_drop]
      congr 1
      omega
  · rw [if_neg (by omega), if_neg hL]
    refine ⟨?_, ?_, rfl, f13, f14, f16, ?_, ?_⟩
    · show (r.DirectRead bufLen).1 ++
        ((r.DirectRead bufLen).2.DirectRead (bufLen -
          min (min bufLen r.Len) (2 ^ k - r.tail))).1 =
        r.content.take (min bufLen r.Len)
      rw [e11, f11, ← List.take_add]
      congr 1
      omega
    · show min (min bufLen r.Len) (2 ^ k - r.tail) +
        (min bufLen r.Len - min (min bufLen r.Len) (2 ^ k - r.tail)) =
        min bufLen r.Len
      omega
    · show ((r.DirectRead bufLen).2.DirectRead (bufLen -
        min (min bufLen r.Len) (2 ^ k - r.tail))).2.Len =
        r.Len - min bufLen r.Len
      rw [f17]
      omega
    · show ((r.DirectRead bufLen).2.DirectRead (bufLen -
        min (min bufLen r.Len) (2 ^ k - r.tail))).2.content =
        r.content.drop (min bufLen r.Len)
      rw [f18, List.drop_drop]
      congr 1
      omega

/-! ### `DirectWrite` and `Write` -/

/-- Unfolded form of `DirectWrite` (definitional). -/
theorem DirectWrite_def (r : Ring) (numBytes : Nat) :
    r.DirectWrite numBytes =
      (((r.ensureCapacity (r.Len + numBytes)).head, if (r.ensureCapacity (r.Len + numBytes)).endPos - (r.ensureCapacity (r.Len + numBytes)).head < numBytes then (r.ensureCapacity (r.Len + numBytes)).endPos - (r.ensureCapacity (r.Len + numBytes)).head else numBytes), { r.ensureCapacity (r.Len + numBytes) with head := add64 (r.ensureCapacity (r.Len + numBytes)).head (if (r.ensureCapacity (r.Len + numBytes)).endPos - (r.ensureCapacity (r.Len + numBytes)).head < numBytes then (r.ensureCapacity (r.Len + numBytes)).endPos - (r.ensureCapacity (r.Len + numBytes)).head else numBytes) &&& (r.ensureCapacity (r.Len + numBytes)).mask }) := rfl

/-- In a growth step the new buffer length is exactly the loop's result. -/
theorem ensureCapacity_length_grow {r : Ring} {forBytes : Nat}
    (hgrow : ¬ (forBytes + r.Len + 1 ≤ r.data.length))
    (hcap : r.data.length ≤ growCapLoop (forBytes + r.Len + 1)
      (max r.data.length DefaultSize) (forBytes + r.Len + 1)) :
    (r.ensureCapacity forBytes).data.length =
      growCapLoop (forBytes + r.Len + 1) (max r.data.length DefaultSize)
        (forBytes + r.Len + 1) := by
  rw [ensureCapacity_def, if_neg hgrow]
  by_cases hw : r.head < r.tail
  · rw [if_pos hw]
    show (overwriteAt _ _ _).length = _
    rw [overwriteAt_length, List.length_append, List.length_replicate]
    omega
  · rw [if_neg hw]
    show (r.data ++ _).length = _
    rw [List.length_append, List.length_replicate]
    omega

set_option maxHeartbeats 2000000 in
/-- `Write` into any valid empty ring stores exactly `b`: it reports
`(len b, nil)` and leaves a valid ring whose content is `b`, regardless of
whether the backing array grew (at the start or mid-write) and of whether
the copy wrapped. -/
theorem Write_empty {r : Ring} (b : List Nat) (hV : r.Valid) (h0 : r.Len = 0)
    (hb : b.length ≤ 2 ^ 60) :
    (r.Write b).1 = (b.length, none) ∧
      ∃ K, K ≤ 62 ∧ (r.Write b).2.data.length = 2 ^ K ∧
        (r.Write b).2.head < 2 ^ K ∧ (r.Write b).2.tail < 2 ^ K ∧
        (r.Write b).2.Len = b.length ∧ (r.Write b).2.content = b := by
  obtain ⟨K, hK62, hElen, hEht, hEh, hEfit0, hELen, hEcont⟩ :=
    ensureCapacity_of_empty (r.Len + b.length) hV h0 (by omega)
  have hfit : b.length + 1 ≤ 2 ^ K := by omega
  have hsK : 0 < 2 ^ K := Nat.two_pow_pos K
  have hKpow : (2 : Nat) ^ K ≤ 2 ^ 62 :=
    Nat.pow_le_pow_right (by norm_num) hK62
  have hEt : (r.ensureCapacity (r.Len + b.length)).tail < 2 ^ K := by
    rw [← hEht]
    exact hEh
  have hmask : (r.ensureCapacity (r.Len + b.length)).mask = 2 ^ K - 1 :=
    mask_eqR (by omega) hElen
  have hm : (if (r.ensureCapacity (r.Len + b.length)).endPos -
      (r.ensureCapacity (r.Len + b.length)).head < b.length then
      (r.ensureCapacity (r.Len + b.length)).endPos -
        (r.ensureCapacity (r.Len + b.length)).head else b.length) =
      min b.length (2 ^ K - (r.ensureCapacity (r.Len + b.length)).head) := by
    unfold endPos
    rw [hElen]
    split_ifs <;> omega
  have hp1 : r.DirectWrite b.length = (((r.ensureCapacity (r.Len + b.length)).head, min b.length (2 ^ K - (r.ensureCapacity (r.Len + b.length)).head)), { r.ensureCapacity (r.Len + b.length) with head := ((r.ensureCapacity (r.Len + b.length)).head + min b.length (2 ^ K - (r.ensureCapacity (r.Len + b.length)).head)) % 2 ^ K }) := by
    rw [DirectWrite_def, hm, hmask, add64_land _ _ rfl (by omega)]
  by_cases hcaseA : 2 ^ K - (r.ensureCapacity (r.Len + b.length)).head <
      b.length
  · -- the write wraps: a second DirectWrite finishes the copy
    have hmB : min b.length (2 ^ K -
        (r.ensureCapacity (r.Len + b.length)).head) =
        2 ^ K - (r.ensureCapacity (r.Len + b.length)).head := by omega
    rw [hmB] at hp1
    have hhead1 : ((r.ensureCapacity (r.Len + b.length)).head +
        (2 ^ K - (r.ensureCapacity (r.Len + b.length)).head)) % 2 ^ K = 0 := by
      rw [show (r.ensureCapacity (r.Len + b.length)).head +
        (2 ^ K - (r.ensureCapacity (r.Len + b.length)).head) = 2 ^ K by omega,
        Nat.mod_self]
    rw [hhead1] at hp1
    have hEh1 : 1 ≤ (r.ensureCapacity (r.Len + b.length)).head := by omega
    have htklen : (b.take (2 ^ K -
        (r.ensureCapacity (r.Len + b.length)).head)).length =
        2 ^ K - (r.ensureCapacity (r.Len + b.length)).head := by
      rw [List.length_take]
      omega
    have hD1len : (overwriteAt (r.ensureCapacity (r.Len + b.length)).data (r.ensureCapacity (r.Len + b.length)).head (b.take (2 ^ K - (r.ensureCapacity (r.Len + b.length)).head))).length = 2 ^ K := by
      rw [overwriteAt_length, hElen]
    have hseg1 : seg (overwriteAt (r.ensureCapacity (r.Len + b.length)).data (r.ensureCapacity (r.Len + b.length)).head (b.take (2 ^ K - (r.ensureCapacity (r.Len + b.length)).head))) (r.ensureCapacity (r.Len + b.length)).head (2 ^ K - (r.ensureCapacity (r.Len + b.length)).head) = b.take (2 ^ K - (r.ensureCapacity (r.Len + b.length)).head) := by
      have hosub := overwriteAt_seg (show
        (r.ensureCapacity (r.Len + b.length)).head +
          (b.take (2 ^ K -
            (r.ensureCapacity (r.Len + b.length)).head)).length ≤
          (r.ensureCapacity (r.Len + b.length)).data.length by
        rw [htklen, hElen]; omega)
      rw [htklen] at hosub
      exact hosub
    have hR1len : Ring.Len { head := 0, tail := (r.ensureCapacity (r.Len + b.length)).tail, data := overwriteAt (r.ensureCapacity (r.Len + b.length)).data (r.ensureCapacity (r.Len + b.length)).head (b.take (2 ^ K - (r.ensureCapacity (r.Len + b.length)).head)) } = 2 ^ K - (r.ensureCapacity (r.Len + b.length)).head := by
      rw [Len_eqR (r := { head := 0, tail := (r.ensureCapacity (r.Len + b.length)).tail, data := overwriteAt (r.ensureCapacity (r.Len + b.length)).data (r.ensureCapacity (r.Len + b.length)).head (b.take (2 ^ K - (r.ensureCapacity (r.Len + b.length)).head)) }) hK62 (by show (overwriteAt _ _ _).length = 2 ^ K; exact hD1len) (by show (0 : Nat) < 2 ^ K; exact hsK) (by show (r.ensureCapacity (r.Len + b.length)).tail < 2 ^ K; exact hEt)]
      show (0 + 2 ^ K - (r.ensureCapacity (r.Len + b.length)).tail) % 2 ^ K =
        2 ^ K - (r.ensureCapacity (r.Len + b.length)).head
      rw [← hEht, mod_two_cases (by omega) hsK, if_pos (by omega)]
      omega
    have hR1cont : Ring.content { head := 0, tail := (r.ensureCapacity (r.Len + b.length)).tail, data := overwriteAt (r.ensureCapacity (r.Len + b.length)).data (r.ensureCapacity (r.Len + b.length)).head (b.take (2 ^ K - (r.ensureCapacity (r.Len + b.length)).head)) } = b.take (2 ^ K - (r.ensureCapacity (r.Len + b.length)).head) := by
      rw [content_eq_seg]
      simp only []
      rw [if_neg (by omega), seg_zero, List.append_nil, hD1len, ← hEht]
      exact hseg1
    have hdl : (b.drop (2 ^ K -
        (r.ensureCapacity (r.Len + b.length)).head)).length =
        b.length - (2 ^ K - (r.ensureCapacity (r.Len + b.length)).head) :=
      List.length_drop _ _
    have hdt : (b.drop (2 ^ K -
        (r.ensureCapacity (r.Len + b.length)).head)).take
        (b.length - (2 ^ K - (r.ensureCapacity (r.Len + b.length)).head)) =
        b.drop (2 ^ K - (r.ensureCapacity (r.Len + b.length)).head) :=
      List.take_of_length_le (le_of_eq (List.length_drop _ _))
    simp only [Write]
    rw [hp1]
    simp only []
    rw [if_pos (show 2 ^ K - (r.ensureCapacity (r.Len + b.length)).head ≠
      b.length by omega)]
    rw [DirectWrite_def, hR1len]
    rcases ensureCapacity_spec (r := { head := 0, tail := (r.ensureCapacity (r.Len + b.length)).tail, data := overwriteAt (r.ensureCapacity (r.Len + b.length)).data (r.ensureCapacity (r.Len + b.length)).head (b.take (2 ^ K - (r.ensureCapacity (r.Len + b.length)).head)) }) (2 ^ K - (r.ensureCapacity (r.Len + b.length)).head + (b.length - (2 ^ K - (r.ensureCapacity (r.Len + b.length)).head))) hK62 (by show (overwriteAt _ _ _).length = 2 ^ K; exact hD1len) (by show (0 : Nat) < 2 ^ K; exact hsK) (by show (r.ensureCapacity (r.Len + b.length)).tail < 2 ^ K; exact hEt) (by intro hgt; rw [hR1len] at hgt ⊢; omega) with
      ⟨hle2, heq2⟩ | ⟨hgt2, k', hKk', hk'62, hE2len, hfit2, hE2tl, hE2hd,
        hE2th, hE2hk, hE2Len, hE2cont, hE2contig, hE2pref⟩
    · -- no mid-write growth
      rw [hR1len] at hle2
      rw [heq2]
      simp only []
      have hend1 : Ring.endPos { head := 0, tail := (r.ensureCapacity (r.Len + b.length)).tail, data := overwriteAt (r.ensureCapacity (r.Len + b.length)).data (r.ensureCapacity (r.Len + b.length)).head (b.take (2 ^ K - (r.ensureCapacity (r.Len + b.length)).head)) } = 2 ^ K := by
        unfold endPos
        exact hD1len
      rw [hend1, if_neg (by omega)]
      have hmask1 : Ring.mask { head := 0, tail := (r.ensureCapacity (r.Len + b.length)).tail, data := overwriteAt (r.ensureCapacity (r.Len + b.length)).data (r.ensureCapacity (r.Len + b.length)).head (b.take (2 ^ K - (r.ensureCapacity (r.Len + b.length)).head)) } = 2 ^ K - 1 :=
        mask_eqR (by omega) hD1len
      rw [hmask1, add64_land _ _ rfl (by omega), Nat.zero_add,
        Nat.mod_eq_of_lt (show b.length - (2 ^ K -
          (r.ensureCapacity (r.Len + b.length)).head) < 2 ^ K by omega),
        hdt]
      refine ⟨trivial, K, hK62, ?_, ?_, ?_, ?_, ?_⟩
      · show (overwriteAt (overwriteAt (r.ensureCapacity (r.Len + b.length)).data (r.ensureCapacity (r.Len + b.length)).head (b.take (2 ^ K - (r.ensureCapacity (r.Len + b.length)).head))) 0 (b.drop (2 ^ K - (r.ensureCapacity (r.Len + b.length)).head))).length = 2 ^ K
        rw [overwriteAt_length]
        exact hD1len
      · show b.length - (2 ^ K -
          (r.ensureCapacity (r.Len + b.length)).head) < 2 ^ K
        omega
      · show (r.ensureCapacity (r.Len + b.length)).tail < 2 ^ K
        exact hEt
      · show Ring.Len { head := b.length - (2 ^ K - (r.ensureCapacity (r.Len + b.length)).head), tail := (r.ensureCapacity (r.Len + b.length)).tail, data := overwriteAt (overwriteAt (r.ensureCapacity (r.Len + b.length)).data (r.ensureCapacity (r.Len + b.length)).head (b.take (2 ^ K - (r.ensureCapacity (r.Len + b.length)).head))) 0 (b.drop (2 ^ K - (r.ensureCapacity (r.Len + b.length)).head)) } = b.length
        rw [Len_eqR (r := { head := b.length - (2 ^ K - (r.ensureCapacity (r.Len + b.length)).head), tail := (r.ensureCapacity (r.Len + b.length)).tail, data := overwriteAt (overwriteAt (r.ensureCapacity (r.Len + b.length)).data (r.ensureCapacity (r.Len + b.length)).head (b.take (2 ^ K - (r.ensureCapacity (r.Len + b.length)).head))) 0 (b.drop (2 ^ K - (r.ensureCapacity (r.Len + b.length)).head)) }) hK62 (by show (overwriteAt _ _ _).length = 2 ^ K; rw [overwriteAt_length]; exact hD1len) (by show b.length - (2 ^ K - (r.ensureCapacity (r.Len + b.length)).head) < 2 ^ K; omega) (by show (r.ensureCapacity (r.Len + b.length)).tail < 2 ^ K; exact hEt)]
        show (b.length - (2 ^ K - (r.ensureCapacity (r.Len + b.length)).head)
          + 2 ^ K - (r.ensureCapacity (r.Len + b.length)).tail) % 2 ^ K =
          b.length
        rw [← hEht, mod_two_cases (by omega) hsK, if_pos (by omega)]
        omega
      · show Ring.content { head := b.length - (2 ^ K - (r.ensureCapacity (r.Len + b.length)).head), tail := (r.ensureCapacity (r.Len + b.length)).tail, data := overwriteAt (overwriteAt (r.ensureCapacity (r.Len + b.length)).data (r.ensureCapacity (r.Len + b.length)).head (b.take (2 ^ K - (r.ensureCapacity (r.Len + b.length)).head))) 0 (b.drop (2 ^ K - (r.ensureCapacity (r.Len + b.length)).head)) } = b
        rw [content_eq_seg]
        simp only []
        rw [if_neg (by omega), overwriteAt_length, hD1len, ← hEht]
        rw [overwriteAt_seg_after (show (0 : Nat) + (b.drop (2 ^ K - (r.ensureCapacity (r.Len + b.length)).head)).length ≤ (r.ensureCapacity (r.Len + b.length)).head by rw [hdl]; omega) (show (0 : Nat) + (b.drop (2 ^ K - (r.ensureCapacity (r.Len + b.length)).head)).length ≤ (overwriteAt (r.ensureCapacity (r.Len + b.length)).data (r.ensureCapacity (r.Len + b.length)).head (b.take (2 ^ K - (r.ensureCapacity (r.Len + b.length)).head))).length by rw [hdl, hD1len]; omega)]
        rw [hseg1]
        have hosub2 := overwriteAt_seg (show (0 : Nat) + (b.drop (2 ^ K - (r.ensureCapacity (r.Len + b.length)).head)).length ≤ (overwriteAt (r.ensureCapacity (r.Len + b.length)).data (r.ensureCapacity (r.Len + b.length)).head (b.take (2 ^ K - (r.ensureCapacity (r.Len + b.length)).head))).length by rw [hdl, hD1len]; omega)
        rw [hdl] at hosub2
        rw [hosub2]
        exact List.take_append_drop _ b
    · -- the second reservation grew the buffer
      have hE2tlv : (({ head := 0, tail := (r.ensureCapacity (r.Len + b.length)).tail, data := overwriteAt (r.ensureCapacity (r.Len + b.length)).data (r.ensureCapacity (r.Len + b.length)).head (b.take (2 ^ K - (r.ensureCapacity (r.Len + b.length)).head)) } : Ring).ensureCapacity (2 ^ K - (r.ensureCapacity (r.Len + b.length)).head + (b.length - (2 ^ K - (r.ensureCapacity (r.Len + b.length)).head)))).tail = (r.ensureCapacity (r.Len + b.length)).tail := by
        rw [hE2tl]
      have hcond0 : ({ head := 0, tail := (r.ensureCapacity (r.Len + b.length)).tail, data := overwriteAt (r.ensureCapacity (r.Len + b.length)).data (r.ensureCapacity (r.Len + b.length)).head (b.take (2 ^ K - (r.ensureCapacity (r.Len + b.length)).head)) } : Ring).head < ({ head := 0, tail := (r.ensureCapacity (r.Len + b.length)).tail, data := overwriteAt (r.ensureCapacity (r.Len + b.length)).data (r.ensureCapacity (r.Len + b.length)).head (b.take (2 ^ K - (r.ensureCapacity (r.Len + b.length)).head)) } : Ring).tail := by
        show (0 : Nat) < (r.ensureCapacity (r.Len + b.length)).tail
        rw [← hEht]
        omega
      have hE2hdv : (({ head := 0, tail := (r.ensureCapacity (r.Len + b.length)).tail, data := overwriteAt (r.ensureCapacity (r.Len + b.length)).data (r.ensureCapacity (r.Len + b.length)).head (b.take (2 ^ K - (r.ensureCapacity (r.Len + b.length)).head)) } : Ring).ensureCapacity (2 ^ K - (r.ensureCapacity (r.Len + b.length)).head + (b.length - (2 ^ K - (r.ensureCapacity (r.Len + b.length)).head)))).head = 2 ^ K := by
        rw [hE2hd, if_pos hcond0]
        show 0 + 2 ^ K = 2 ^ K
        omega
      have h2K1 : (2 : Nat) ^ (K + 1) ≤ 2 ^ k' :=
        Nat.pow_le_pow_right (by norm_num) (by omega)
      have hps : (2 : Nat) ^ (K + 1) = 2 ^ K * 2 := pow_succ 2 K
      have hKK' : (2 : Nat) ^ K ≤ 2 ^ k' := by omega
      have hs' : 0 < 2 ^ k' := Nat.two_pow_pos k'
      have hend2 : (({ head := 0, tail := (r.ensureCapacity (r.Len + b.length)).tail, data := overwriteAt (r.ensureCapacity (r.Len + b.length)).data (r.ensureCapacity (r.Len + b.length)).head (b.take (2 ^ K - (r.ensureCapacity (r.Len + b.length)).head)) } : Ring).ensureCapacity (2 ^ K - (r.ensureCapacity (r.Len + b.length)).head + (b.length - (2 ^ K - (r.ensureCapacity (r.Len + b.length)).head)))).endPos = 2 ^ k' := by
        unfold endPos
        rw [hE2len]
      have hmask2 : (({ head := 0, tail := (r.ensureCapacity (r.Len + b.length)).tail, data := overwriteAt (r.ensureCapacity (r.Len + b.length)).data (r.ensureCapacity (r.Len + b.length)).head (b.take (2 ^ K - (r.ensureCapacity (r.Len + b.length)).head)) } : Ring).ensureCapacity (2 ^ K - (r.ensureCapacity (r.Len + b.length)).head + (b.length - (2 ^ K - (r.ensureCapacity (r.Len + b.length)).head)))).mask = 2 ^ k' - 1 :=
        mask_eqR (by omega) hE2len
      rw [hend2, hE2hdv, if_neg (by omega), hmask2,
        add64_land _ _ rfl (by omega),
        Nat.mod_eq_of_lt (show 2 ^ K + (b.length - (2 ^ K -
          (r.ensureCapacity (r.Len + b.length)).head)) < 2 ^ k' by omega),
        hdt]
      have hcontig' : seg (({ head := 0, tail := (r.ensureCapacity (r.Len + b.length)).tail, data := overwriteAt (r.ensureCapacity (r.Len + b.length)).data (r.ensureCapacity (r.Len + b.length)).head (b.take (2 ^ K - (r.ensureCapacity (r.Len + b.length)).head)) } : Ring).ensureCapacity (2 ^ K - (r.ensureCapacity (r.Len + b.length)).head + (b.length - (2 ^ K - (r.ensureCapacity (r.Len + b.length)).head)))).data (r.ensureCapacity (r.Len + b.length)).tail (2 ^ K - (r.ensureCapacity (r.Len + b.length)).head) = b.take (2 ^ K - (r.ensureCapacity (r.Len + b.length)).head) := by
        have h1 := hE2contig
        rw [hR1len, hR1cont] at h1
        exact h1
      refine ⟨rfl, k', hk'62, ?_, ?_, ?_, ?_, ?_⟩
      · show (overwriteAt (({ head := 0, tail := (r.ensureCapacity (r.Len + b.length)).tail, data := overwriteAt (r.ensureCapacity (r.Len + b.length)).data (r.ensureCapacity (r.Len + b.length)).head (b.take (2 ^ K - (r.ensureCapacity (r.Len + b.length)).head)) } : Ring).ensureCapacity (2 ^ K - (r.ensureCapacity (r.Len + b.length)).head + (b.length - (2 ^ K - (r.ensureCapacity (r.Len + b.length)).head)))).data (2 ^ K) (b.drop (2 ^ K - (r.ensureCapacity (r.Len + b.length)).head))).length = 2 ^ k'
        rw [overwriteAt_length]
        exact hE2len
      · show 2 ^ K + (b.length - (2 ^ K -
          (r.ensureCapacity (r.Len + b.length)).head)) < 2 ^ k'
        omega
      · show (({ head := 0, tail := (r.ensureCapacity (r.Len + b.length)).tail, data := overwriteAt (r.ensureCapacity (r.Len + b.length)).data (r.ensureCapacity (r.Len + b.length)).head (b.take (2 ^ K - (r.ensureCapacity (r.Len + b.length)).head)) } : Ring).ensureCapacity (2 ^ K - (r.ensureCapacity (r.Len + b.length)).head + (b.length - (2 ^ K - (r.ensureCapacity (r.Len + b.length)).head)))).tail < 2 ^ k'
        rw [hE2tlv]
        omega
      · rw [Len_eqR (k := k') hk'62 (by show (overwriteAt _ _ _).length = 2 ^ k'; rw [overwriteAt_length]; exact hE2len) (by show 2 ^ K + (b.length - (2 ^ K - (r.ensureCapacity (r.Len + b.length)).head)) < 2 ^ k'; omega) (by show (({ head := 0, tail := (r.ensureCapacity (r.Len + b.length)).tail, data := overwriteAt (r.ensureCapacity (r.Len + b.length)).data (r.ensureCapacity (r.Len + b.length)).head (b.take (2 ^ K - (r.ensureCapacity (r.Len + b.length)).head)) } : Ring).ensureCapacity (2 ^ K - (r.ensureCapacity (r.Len + b.length)).head + (b.length - (2 ^ K - (r.ensureCapacity (r.Len + b.length)).head)))).tail < 2 ^ k'; rw [hE2tlv]; omega)]
        show (2 ^ K + (b.length - (2 ^ K -
          (r.ensureCapacity (r.Len + b.length)).head)) + 2 ^ k' -
          (({ head := 0, tail := (r.ensureCapacity (r.Len + b.length)).tail, data := overwriteAt (r.ensureCapacity (r.Len + b.length)).data (r.ensureCapacity (r.Len + b.length)).head (b.take (2 ^ K - (r.ensureCapacity (r.Len + b.length)).head)) } : Ring).ensureCapacity (2 ^ K - (r.ensureCapacity (r.Len + b.length)).head + (b.length - (2 ^ K - (r.ensureCapacity (r.Len + b.length)).head)))).tail) % 2 ^ k' = b.length
        rw [hE2tlv, ← hEht, mod_two_cases (by omega) hs', if_neg (by omega)]
        omega
      · rw [content_eq_seg]
        simp only []
        rw [hE2tlv, if_pos (by omega)]
        rw [show 2 ^ K + (b.length - (2 ^ K -
          (r.ensureCapacity (r.Len + b.length)).head)) -
          (r.ensureCapacity (r.Len + b.length)).tail =
          (2 ^ K - (r.ensureCapacity (r.Len + b.length)).tail) +
            (b.length - (2 ^ K -
              (r.ensureCapacity (r.Len + b.length)).head)) by omega,
          seg_split,
          show (r.ensureCapacity (r.Len + b.length)).tail +
            (2 ^ K - (r.ensureCapacity (r.Len + b.length)).tail) = 2 ^ K
            by omega]
        rw [overwriteAt_seg_before (b.drop (2 ^ K - (r.ensureCapacity (r.Len + b.length)).head)) (show (r.ensureCapacity (r.Len + b.length)).tail + (2 ^ K - (r.ensureCapacity (r.Len + b.length)).tail) ≤ 2 ^ K by omega) (show (2 : Nat) ^ K ≤ (({ head := 0, tail := (r.ensureCapacity (r.Len + b.length)).tail, data := overwriteAt (r.ensureCapacity (r.Len + b.length)).data (r.ensureCapacity (r.Len + b.length)).head (b.take (2 ^ K - (r.ensureCapacity (r.Len + b.length)).head)) } : Ring).ensureCapacity (2 ^ K - (r.ensureCapacity (r.Len + b.length)).head + (b.length - (2 ^ K - (r.ensureCapacity (r.Len + b.length)).head)))).data.length by rw [hE2len]; omega)]
        rw [show 2 ^ K - (r.ensureCapacity (r.Len + b.length)).tail =
          2 ^ K - (r.ensureCapacity (r.Len + b.length)).head by omega]
        rw [hcontig']
        have hosub3 := overwriteAt_seg (show (2 : Nat) ^ K + (b.drop (2 ^ K - (r.ensureCapacity (r.Len + b.length)).head)).length ≤ (({ head := 0, tail := (r.ensureCapacity (r.Len + b.length)).tail, data := overwriteAt (r.ensureCapacity (r.Len + b.length)).data (r.ensureCapacity (r.Len + b.length)).head (b.take (2 ^ K - (r.ensureCapacity (r.Len + b.length)).head)) } : Ring).ensureCapacity (2 ^ K - (r.ensureCapacity (r.Len + b.length)).head + (b.length - (2 ^ K - (r.ensureCapacity (r.Len + b.length)).head)))).data.length by rw [hdl, hE2len]; omega)
        rw [hdl] at hosub3
        rw [hosub3]
        exact List.take_append_drop _ b
  · -- the requested range fits before the physical end: a single copy
    have hmA : min b.length (2 ^ K -
        (r.ensureCapacity (r.Len + b.length)).head) = b.length := by omega
    rw [hmA] at hp1
    simp only [Write]
    rw [hp1]
    simp only []
    rw [if_neg (by omega), List.take_length]
    refine ⟨rfl, K, hK62, ?_, ?_, ?_, ?_, ?_⟩
    · show (overwriteAt (r.ensureCapacity (r.Len + b.length)).data
        (r.ensureCapacity (r.Len + b.length)).head b).length = 2 ^ K
      rw [overwriteAt_length]
      exact hElen
    · show ((r.ensureCapacity (r.Len + b.length)).head + b.length) % 2 ^ K <
        2 ^ K
      exact Nat.mod_lt _ hsK
    · show (r.ensureCapacity (r.Len + b.length)).tail < 2 ^ K
      exact hEt
    · show Ring.Len { head := ((r.ensureCapacity (r.Len + b.length)).head + b.length) % 2 ^ K, tail := (r.ensureCapacity (r.Len + b.length)).tail, data := overwriteAt (r.ensureCapacity (r.Len + b.length)).data (r.ensureCapacity (r.Len + b.length)).head b } = b.length
      rw [Len_eqR (r := { head := ((r.ensureCapacity (r.Len + b.length)).head + b.length) % 2 ^ K, tail := (r.ensureCapacity (r.Len + b.length)).tail, data := overwriteAt (r.ensureCapacity (r.Len + b.length)).data (r.ensureCapacity (r.Len + b.length)).head b }) hK62 (by show (overwriteAt _ _ _).length = 2 ^ K; rw [overwriteAt_length]; exact hElen) (by show ((r.ensureCapacity (r.Len + b.length)).head + b.length) % 2 ^ K < 2 ^ K; exact Nat.mod_lt _ hsK) (by show (r.ensureCapacity (r.Len + b.length)).tail < 2 ^ K; exact hEt)]
      show (((r.ensureCapacity (r.Len + b.length)).head + b.length) % 2 ^ K +
        2 ^ K - (r.ensureCapacity (r.Len + b.length)).tail) % 2 ^ K =
        b.length
      rw [← hEht,
        mod_two_cases (x := (r.ensureCapacity (r.Len + b.length)).head +
          b.length) (by omega) hsK]
      split_ifs with h1
      · rw [mod_two_cases (by omega) hsK]
        split_ifs <;> omega
      · rw [mod_two_cases (by omega) hsK]
        split_ifs <;> omega
    · show Ring.content { head := ((r.ensureCapacity (r.Len + b.length)).head + b.length) % 2 ^ K, tail := (r.ensureCapacity (r.Len + b.length)).tail, data := overwriteAt (r.ensureCapacity (r.Len + b.length)).data (r.ensureCapacity (r.Len + b.length)).head b } = b
      rw [content_eq_seg]
      simp only []
      by_cases hAe : (r.ensureCapacity (r.Len + b.length)).head + b.length <
          2 ^ K
      · rw [Nat.mod_eq_of_lt hAe, if_pos (by omega), ← hEht,
          show (r.ensureCapacity (r.Len + b.length)).head + b.length -
            (r.ensureCapacity (r.Len + b.length)).head = b.length by omega]
        exact overwriteAt_seg (show
          (r.ensureCapacity (r.Len + b.length)).head + b.length ≤
            (r.ensureCapacity (r.Len + b.length)).data.length by
          rw [hElen]; omega)
      · have hmod : ((r.ensureCapacity (r.Len + b.length)).head + b.length) %
            2 ^ K = 0 := by
          rw [show (r.ensureCapacity (r.Len + b.length)).head + b.length =
            2 ^ K by omega, Nat.mod_self]
        rw [hmod, if_neg (by omega), seg_zero, List.append_nil,
          overwriteAt_length, hElen, ← hEht,
          show 2 ^ K - (r.ensureCapacity (r.Len + b.length)).head = b.length
            by omega]
        exact overwriteAt_seg (show
          (r.ensureCapacity (r.Len + b.length)).head + b.length ≤
            (r.ensureCapacity (r.Len + b.length)).data.length by
          rw [hElen]; omega)

/-- `Read` on the zero-value (never-written) ring: nothing is copied and
`io.EOF` is returned. -/
theorem Read_nil {r : Ring} (hd : r.data = []) (hh : r.head = 0)
    (ht : r.tail = 0) (bufLen : Nat) :
    r.Read bufLen = (([], 0, some GoError.eof), r) := by
  have hL0 : r.Len = 0 := Len_zero_ring hd hh ht
  have hDR : r.DirectRead bufLen = ([], r) := by
    have hX : (if (if bufLen > r.Len then r.Len else bufLen) >
        r.endPos - r.tail then r.endPos - r.tail
        else if bufLen > r.Len then r.Len else bufLen) = 0 := by
      unfold endPos
      rw [hL0, hd, List.length_nil]
      split_ifs <;> omega
    show (if (if (if bufLen > r.Len then r.Len else bufLen) > r.endPos - r.tail then r.endPos - r.tail else if bufLen > r.Len then r.Len else bufLen) = 0 then ([], r) else ((r.data.drop r.tail).take (if (if bufLen > r.Len then r.Len else bufLen) > r.endPos - r.tail then r.endPos - r.tail else if bufLen > r.Len then r.Len else bufLen), { r with tail := add64 r.tail (if (if bufLen > r.Len then r.Len else bufLen) > r.endPos - r.tail then r.endPos - r.tail else if bufLen > r.Len then r.Len else bufLen) &&& r.mask })) = ([], r)
    rw [if_pos hX]
  have h1 : (r.DirectRead bufLen).1 = [] := by rw [hDR]
  have h2 : (r.DirectRead bufLen).2 = r := by rw [hDR]
  simp only [Read]
  rw [h1, h2, List.length_nil, Nat.sub_zero, h1, h2]
  split_ifs with hc
  · rfl
  · exact absurd ⟨rfl, hL0⟩ hc

end Ring

/-- **C1**: round trip — writing a byte sequence `B` into an empty byte
ring via `Write` and then reading `len B` bytes via `Read` yields exactly
`B` (and `Write` reports `(len B, nil)`), regardless of whether the
backing storage grew during the write. -/
theorem C1_write_read_roundtrip (r : Ring) (b : List Nat) (hV : r.Valid)
    (h0 : r.Len = 0) (hb : b.length ≤ 2 ^ 60) :
    (r.Write b).1 = (b.length, none) ∧
      ((r.Write b).2.Read b.length).1.1 = b ∧
      ((r.Write b).2.Read b.length).1.2.1 = b.length := by
  obtain ⟨hfst, K, hK62, hlen, hh, ht, hLen, hcont⟩ :=
    Ring.Write_empty b hV h0 hb
  obtain ⟨g1, g2, _, _, _, _, _, _⟩ :=
    Ring.Read_spec b.length hK62 hlen hh ht
  refine ⟨hfst, ?_, ?_⟩
  · rw [g1, hLen, Nat.min_self, hcont, List.take_length]
  · rw [g2, hLen, Nat.min_self]

/-- Witness for C1 at a concrete write-then-read. -/
theorem C1_write_read_roundtrip_witness :
    (Ring.mk 0 0 []).Valid ∧ (Ring.mk 0 0 []).Len = 0 ∧
      ([1, 2, 3] : List Nat).length ≤ 2 ^ 60 ∧
      ((Ring.mk 0 0 []).Write [1, 2, 3]).1 =
        (([1, 2, 3] : List Nat).length, none) ∧
      (((Ring.mk 0 0 []).Write [1, 2, 3]).2.Read
        ([1, 2, 3] : List Nat).length).1.1 = [1, 2, 3] ∧
      (((Ring.mk 0 0 []).Write [1, 2, 3]).2.Read
        ([1, 2, 3] : List Nat).length).1.2.1 =
        ([1, 2, 3] : List Nat).length := by
  have h := C1_write_read_roundtrip (Ring.mk 0 0 []) [1, 2, 3]
    (Or.inl ⟨rfl, rfl, rfl⟩) (by decide) (by norm_num)
  exact ⟨Or.inl ⟨rfl, rfl, rfl⟩, by decide, by norm_num, h.1, h.2.1, h.2.2⟩

/-- **C3**: when growth happens with a wrapped occupied region
(`head < tail`), `ensureCapacity` copies the wrapped prefix `[0, head)` to
the newly available space at the old capacity and advances `head` by the
old capacity; afterwards the buffer is a single contiguous region
`[tail, head')` with no wraparound and unchanged content and length. -/
theorem C3_wrap_copy_normalizes (r : Ring) (k forBytes : Nat) (hk : k ≤ 62)
    (hlen : r.data.length = 2 ^ k) (hh : r.head < 2 ^ k)
    (ht : r.tail < 2 ^ k) (hwrap : r.head < r.tail)
    (hgrow : 2 ^ k < forBytes + r.Len + 1)
    (hbound : forBytes + r.Len + 1 ≤ 2 ^ 62) :
    (r.ensureCapacity forBytes).tail = r.tail ∧
      (r.ensureCapacity forBytes).head = r.head + 2 ^ k ∧
      (r.ensureCapacity forBytes).tail ≤ (r.ensureCapacity forBytes).head ∧
      Ring.seg (r.ensureCapacity forBytes).data (2 ^ k) r.head =
        Ring.seg r.data 0 r.head ∧
      (r.ensureCapacity forBytes).content = r.content ∧
      (r.ensureCapacity forBytes).Len = r.Len ∧
      Ring.seg (r.ensureCapacity forBytes).data r.tail r.Len = r.content := by
  rcases Ring.ensureCapacity_spec forBytes hk hlen hh ht (fun _ => hbound)
    with ⟨hle, _⟩ | ⟨_, k', _, _, _, _, htl, hhd, hth, _, hLen', hcontent,
      hcontig, hpref⟩
  · exact absurd hle (by omega)
  · exact ⟨htl, by rw [hhd, if_pos hwrap], hth, hpref hwrap, hcontent,
      hLen', hcontig⟩

/-- Witness for C3 at a concrete wrapped state. -/
theorem C3_wrap_copy_normalizes_witness :
    ((2 : Nat) ≤ 62 ∧
        (Ring.mk 1 3 (List.replicate 4 0)).data.length = 2 ^ 2 ∧
        (Ring.mk 1 3 (List.replicate 4 0)).head < 2 ^ 2 ∧
        (Ring.mk 1 3 (List.replicate 4 0)).tail < 2 ^ 2 ∧
        (Ring.mk 1 3 (List.replicate 4 0)).head <
          (Ring.mk 1 3 (List.replicate 4 0)).tail ∧
        2 ^ 2 < 10 + (Ring.mk 1 3 (List.replicate 4 0)).Len + 1 ∧
        10 + (Ring.mk 1 3 (List.replicate 4 0)).Len + 1 ≤ 2 ^ 62) ∧
      ((Ring.mk 1 3 (List.replicate 4 0)).ensureCapacity 10).tail =
          (Ring.mk 1 3 (List.replicate 4 0)).tail ∧
        ((Ring.mk 1 3 (List.replicate 4 0)).ensureCapacity 10).head =
          (Ring.mk 1 3 (List.replicate 4 0)).head + 2 ^ 2 ∧
        ((Ring.mk 1 3 (List.replicate 4 0)).ensureCapacity 10).tail ≤
          ((Ring.mk 1 3 (List.replicate 4 0)).ensureCapacity 10).head ∧
        Ring.seg ((Ring.mk 1 3 (List.replicate 4 0)).ensureCapacity 10).data
            (2 ^ 2) (Ring.mk 1 3 (List.replicate 4 0)).head =
          Ring.seg (Ring.mk 1 3 (List.replicate 4 0)).data 0
            (Ring.mk 1 3 (List.replicate 4 0)).head ∧
        ((Ring.mk 1 3 (List.replicate 4 0)).ensureCapacity 10).content =
          (Ring.mk 1 3 (List.replicate 4 0)).content ∧
        ((Ring.mk 1 3 (List.replicate 4 0)).ensureCapacity 10).Len =
          (Ring.mk 1 3 (List.replicate 4 0)).Len ∧
        Ring.seg ((Ring.mk 1 3 (List.replicate 4 0)).ensureCapacity 10).data
            (Ring.mk 1 3 (List.replicate 4 0)).tail
            (Ring.mk 1 3 (List.replicate 4 0)).Len =
          (Ring.mk 1 3 (List.replicate 4 0)).content :=
  ⟨⟨by norm_num, by decide, by decide, by decide, by decide, by decide,
      by decide⟩,
    C3_wrap_copy_normalizes (Ring.mk 1 3 (List.replicate 4 0)) 2 10
      (by norm_num) (by decide) (by decide) (by decide) (by decide)
      (by decide) (by decide)⟩

/-- **C4** (amended): the capacity `ensureCapacity` requires before a
`DirectWrite` of `n` bytes is `(Len + n) + Len + 1`, not `Len + n + 1`:
`DirectWrite` passes `Len + n` as `forBytes` and `ensureCapacity` adds
`Len + 1` again, double-counting the unread bytes.  The buffer grows, by
doubling from a floor of 64, exactly when its size is below that
double-counted requirement. -/
theorem C4_capacity_requirement (r : Ring) (k n : Nat) (hk : k ≤ 62)
    (hlen : r.data.length = 2 ^ k) (hh : r.head < 2 ^ k)
    (ht : r.tail < 2 ^ k) (hbound : (r.Len + n) + r.Len + 1 ≤ 2 ^ 62) :
    ((r.Len + n) + r.Len + 1 ≤ 2 ^ k →
        (r.DirectWrite n).2.data.length = 2 ^ k) ∧
      (2 ^ k < (r.Len + n) + r.Len + 1 →
        2 ^ (k + 1) ≤ (r.DirectWrite n).2.data.length ∧
        (r.Len + n) + r.Len + 1 ≤ (r.DirectWrite n).2.data.length ∧
        (r.DirectWrite n).2.data.length =
          Ring.growCapLoop ((r.Len + n) + r.Len + 1)
            (max (2 ^ k) DefaultSize) ((r.Len + n) + r.Len + 1)) := by
  have hdw : (r.DirectWrite n).2.data =
      (r.ensureCapacity (r.Len + n)).data := by
    rw [Ring.DirectWrite_def]
  constructor
  · intro hle
    rw [hdw, Ring.ensureCapacity_of_le (by omega), hlen]
  · intro hgt
    obtain ⟨k', hkk', hk'62, hG, hneed, hdbl⟩ :=
      Ring.growCap_pow ((r.Len + n) + r.Len + 1) hk (by omega) (by omega)
    have hval : (r.ensureCapacity (r.Len + n)).data.length =
        Ring.growCapLoop ((r.Len + n) + r.Len + 1)
          (max r.data.length DefaultSize) ((r.Len + n) + r.Len + 1) :=
      Ring.ensureCapacity_length_grow (by omega)
        (by rw [hlen, hG]
            exact Nat.pow_le_pow_right (by norm_num) (by omega))
    rw [hdw, hval, hlen, hG]
    exact ⟨hdbl, hneed, rfl⟩

/-- Witness for C4's amended rule at a concrete non-growing and a
concrete growing bound. -/
theorem C4_capacity_requirement_witness :
    ((3 : Nat) ≤ 62 ∧
        (Ring.mk 3 0 (List.replicate 8 0)).data.length = 2 ^ 3 ∧
        (Ring.mk 3 0 (List.replicate 8 0)).head < 2 ^ 3 ∧
        (Ring.mk 3 0 (List.replicate 8 0)).tail < 2 ^ 3 ∧
        ((Ring.mk 3 0 (List.replicate 8 0)).Len + 1) +
          (Ring.mk 3 0 (List.replicate 8 0)).Len + 1 ≤ 2 ^ 62) ∧
      (((Ring.mk 3 0 (List.replicate 8 0)).Len + 1) +
          (Ring.mk 3 0 (List.replicate 8 0)).Len + 1 ≤ 2 ^ 3 →
        ((Ring.mk 3 0 (List.replicate 8 0)).DirectWrite 1).2.data.length =
          2 ^ 3) ∧
      (2 ^ 3 < ((Ring.mk 3 0 (List.replicate 8 0)).Len + 1) +
          (Ring.mk 3 0 (List.replicate 8 0)).Len + 1 →
        2 ^ (3 + 1) ≤
          ((Ring.mk 3 0 (List.replicate 8 0)).DirectWrite 1).2.data.length ∧
        ((Ring.mk 3 0 (List.replicate 8 0)).Len + 1) +
          (Ring.mk 3 0 (List.replicate 8 0)).Len + 1 ≤
          ((Ring.mk 3 0 (List.replicate 8 0)).DirectWrite 1).2.data.length ∧
        ((Ring.mk 3 0 (List.replicate 8 0)).DirectWrite 1).2.data.length =
          Ring.growCapLoop (((Ring.mk 3 0 (List.replicate 8 0)).Len + 1) +
            (Ring.mk 3 0 (List.replicate 8 0)).Len + 1)
            (max (2 ^ 3) DefaultSize)
            (((Ring.mk 3 0 (List.replicate 8 0)).Len + 1) +
              (Ring.mk 3 0 (List.replicate 8 0)).Len + 1)) := by
  have h := C4_capacity_requirement (Ring.mk 3 0 (List.replicate 8 0)) 3 1
    (by norm_num) (by decide) (by decide) (by decide) (by decide)
  exact ⟨⟨by norm_num, by decide, by decide, by decide, by decide⟩,
    h.1, h.2⟩

/-- Counterexample to C4 as claimed: here the claimed requirement
`Len + n + 1 = 51` is well within the 64-byte capacity, yet `DirectWrite`
grows the buffer to 128 bytes, because the code's requirement is
`(Len + n) + Len + 1 = 91`. -/
theorem C4_capacity_requirement_cex :
    (Ring.mk 40 0 (List.replicate 64 0)).Valid ∧
      (Ring.mk 40 0 (List.replicate 64 0)).Len + 10 + 1 ≤
        (Ring.mk 40 0 (List.replicate 64 0)).data.length ∧
      (Ring.mk 40 0 (List.replicate 64 0)).data.length = 64 ∧
      ((Ring.mk 40 0 (List.replicate 64 0)).DirectWrite 10).2.data.length =
        128 :=
  ⟨Or.inr ⟨6, by norm_num, by decide, by decide, by decide⟩, by decide,
    by decide, by decide⟩

/-- **C9**: `Read` returns the end-of-data signal (`io.EOF`) exactly when
the ring is empty (then `n = 0`); otherwise it returns the number of
bytes copied — `min (len buf) Len`, possibly fewer than requested — with
no error.  In particular a zero-length read with buffered data remaining
reports `(0, nil)`, not `io.EOF`. -/
theorem C9_read_empty_signal (r : Ring) (bufLen : Nat) (hV : r.Valid) :
    (r.Read bufLen).1.2.1 = min bufLen r.Len ∧
      (r.Read bufLen).1.1 = r.content.take (min bufLen r.Len) ∧
      ((r.Read bufLen).1.2.2 = some GoError.eof ↔ r.Len = 0) ∧
      ((r.Read bufLen).1.2.2 = none ↔ r.Len ≠ 0) := by
  rcases hV with ⟨hd, hh, ht⟩ | ⟨k, hk, hlen, hh, ht⟩
  · have hL0 : r.Len = 0 := Ring.Len_zero_ring hd hh ht
    rw [Ring.Read_nil hd hh ht, hL0]
    refine ⟨by simp, ?_, by simp, by simp⟩
    rw [Ring.content_eq_nil (by omega)]
    simp
  · obtain ⟨g1, g2, g3, _, _, _, _, _⟩ :=
      Ring.Read_spec bufLen hk hlen hh ht
    refine ⟨g2, g1, ?_, ?_⟩
    · rw [g3]
      by_cases hL : r.Len = 0
      · simp [hL]
      · simp [hL]
    · rw [g3]
      by_cases hL : r.Len = 0
      · simp [hL]
      · simp [hL]

/-- Witness for C9 at a concrete nonempty ring and short read. -/
theorem C9_read_empty_signal_witness :
    (Ring.mk 2 0 (List.replicate 4 9)).Valid ∧
      ((Ring.mk 2 0 (List.replicate 4 9)).Read 1).1.2.1 =
        min 1 (Ring.mk 2 0 (List.replicate 4 9)).Len ∧
      ((Ring.mk 2 0 (List.replicate 4 9)).Read 1).1.1 =
        (Ring.mk 2 0 (List.replicate 4 9)).content.take
          (min 1 (Ring.mk 2 0 (List.replicate 4 9)).Len) ∧
      (((Ring.mk 2 0 (List.replicate 4 9)).Read 1).1.2.2 =
          some GoError.eof ↔ (Ring.mk 2 0 (List.replicate 4 9)).Len = 0) ∧
      (((Ring.mk 2 0 (List.replicate 4 9)).Read 1).1.2.2 = none ↔
        (Ring.mk 2 0 (List.replicate 4 9)).Len ≠ 0) :=
  ⟨Or.inr ⟨2, by norm_num, by decide, by decide, by decide⟩,
    C9_read_empty_signal (Ring.mk 2 0 (List.replicate 4 9)) 1
      (Or.inr ⟨2, by norm_num, by decide, by decide, by decide⟩)⟩

/-- **C2** (amended): growth discipline per variant.  The reference ring
and the weighted ring double the backing array (the floors 2 and 4 only
matter for the first allocation), drain the live elements oldest-first
into the new array starting at index 0, set `tail = 0` and
`head = count`, and only then insert.  The byte ring does NOT follow this
discipline: it grows by extending the buffer in place, keeps `tail`
unchanged, and normalizes a wrapped region by copying the prefix upward —
witnessed by a concrete state that doubles 64 → 128 while `tail` stays
10. -/
theorem C2_growth_discipline (α : Type) :
    (∀ (r : RingT α) (k : Nat), r.InvP k → k ≤ 61 →
      (r.grow).items.length = 2 * r.items.length ∧
      (r.grow).tail = 0 ∧ (r.grow).head = r.Len ∧ (r.grow).Len = r.Len ∧
      ∀ i, i < r.Len →
        (r.grow).items.getD i none = r.content.getD i none) ∧
    (∀ (r : WeightedRingT α) (k : Nat), r.InvP k → k ≤ 61 →
      (r.grow).items.length = 2 * r.items.length ∧
      (r.grow).tail = 0 ∧ (r.grow).head = r.Len ∧ (r.grow).Len = r.Len ∧
      ∀ i, i < r.Len →
        (r.grow).items.getD i none = (r.content.getD i (none, 0)).1) ∧
    ((Ring.mk 40 10 (List.replicate 64 0)).Valid ∧
      (Ring.mk 40 10 (List.replicate 64 0)).data.length = 64 ∧
      ((Ring.mk 40 10 (List.replicate 64 0)).DirectWrite 10).2.data.length =
        128 ∧
      ((Ring.mk 40 10 (List.replicate 64 0)).DirectWrite 10).2.tail =
        10) := by
  refine ⟨?_, ?_, Or.inr ⟨6, by norm_num, by decide, by decide, by decide⟩,
    by decide, by decide, by decide⟩
  · intro r k hInv hk61
    obtain ⟨hInv', hilen, htl, hhd, _, hLen', hcont, _⟩ :=
      RingT.grow_simT hInv hk61
    have hLlt := RingT.Len_ltT hInv
    obtain ⟨_, _, hlen, _, _, _⟩ := hInv
    refine ⟨by rw [hilen, hlen, pow_succ]; ring, htl, hhd, hLen', ?_⟩
    intro i hi
    have hcg : (r.grow).content.getD i none = (r.grow).Peek (Int.ofNat i) :=
      RingT.content_getDT (by rw [hLen']; exact hi)
    rw [hcont] at hcg
    have hpk := RingT.Peek_inT hInv'
      (show i < (r.grow).Len by rw [hLen']; exact hi)
    rw [htl, Nat.zero_add, Nat.mod_eq_of_lt (show i < 2 ^ (k + 1) by
      have := Nat.pow_le_pow_right (show 1 ≤ 2 by norm_num)
        (Nat.le_succ k)
      omega)] at hpk
    rw [hpk] at hcg
    exact hcg.symm
  · intro r k hInv hk61
    obtain ⟨hInv', hilen, htl, hhd, _, _, hLen', hcont, _⟩ :=
      WeightedRingT.grow_simW hInv hk61
    have hLlt := WeightedRingT.Len_ltW hInv
    obtain ⟨_, _, hlen, _, _, _⟩ := hInv
    refine ⟨by rw [hilen, hlen, pow_succ]; ring, htl, hhd, hLen', ?_⟩
    intro i hi
    have hcg : (r.grow).content.getD i (none, 0) = (r.grow).peek i :=
      WeightedRingT.content_getDW (by rw [hLen']; exact hi)
    rw [hcont] at hcg
    have hpk := WeightedRingT.peek_eq hInv' i
    rw [htl, Nat.zero_add, Nat.mod_eq_of_lt (show i < 2 ^ (k + 1) by
      have := Nat.pow_le_pow_right (show 1 ≤ 2 by norm_num)
        (Nat.le_succ k)
      omega)] at hpk
    rw [hpk] at hcg
    rw [hcg]

/-- Counterexample to C2 as claimed for the byte ring: this wrapped state
grows 64 → 128 on a `DirectWrite`, yet `tail` stays 10 — the buffer is
not drained oldest-first to index 0 and `tail` is not reset to 0. -/
theorem C2_growth_discipline_cex :
    (Ring.mk 40 10 (List.replicate 64 0)).Valid ∧
      (Ring.mk 40 10 (List.replicate 64 0)).data.length = 64 ∧
      ((Ring.mk 40 10 (List.replicate 64 0)).DirectWrite 10).2.data.length =
        128 ∧
      ((Ring.mk 40 10 (List.replicate 64 0)).DirectWrite 10).2.tail = 10 :=
  ⟨Or.inr ⟨6, by norm_num, by decide, by decide, by decide⟩, by decide,
    by decide, by decide⟩

/-- Witness for C2: concrete growth steps of both reference variants. -/
theorem C2_growth_discipline_witness :
    (({ items := [some 5, none], mask := 1, tail := 0, head := 1, maxSize := 5 } : RingT Nat).grow).items.length = 2 * ({ items := [some 5, none], mask := 1, tail := 0, head := 1, maxSize := 5 } : RingT Nat).items.length ∧
      (({ items := [some 5, none], mask := 1, tail := 0, head := 1, maxSize := 5 } : RingT Nat).grow).tail = 0 ∧
      (({ items := [some 5, none], mask := 1, tail := 0, head := 1, maxSize := 5 } : RingT Nat).grow).head = ({ items := [some 5, none], mask := 1, tail := 0, head := 1, maxSize := 5 } : RingT Nat).Len ∧
      (({ items := [some 5, none], mask := 1, tail := 0, head := 1, maxSize := 5 } : RingT Nat).grow).items.getD 0 none = ({ items := [some 5, none], mask := 1, tail := 0, head := 1, maxSize := 5 } : RingT Nat).content.getD 0 none ∧
      (({ MaxWeight := 10, weight := 2, items := [some 3, none, none, none], weights := [2, 0, 0, 0], tail := 0, head := 1 } : WeightedRingT Nat).grow).items.length = 2 * ({ MaxWeight := 10, weight := 2, items := [some 3, none, none, none], weights := [2, 0, 0, 0], tail := 0, head := 1 } : WeightedRingT Nat).items.length ∧
      (({ MaxWeight := 10, weight := 2, items := [some 3, none, none, none], weights := [2, 0, 0, 0], tail := 0, head := 1 } : WeightedRingT Nat).grow).tail = 0 ∧
      (({ MaxWeight := 10, weight := 2, items := [some 3, none, none, none], weights := [2, 0, 0, 0], tail := 0, head := 1 } : WeightedRingT Nat).grow).head = ({ MaxWeight := 10, weight := 2, items := [some 3, none, none, none], weights := [2, 0, 0, 0], tail := 0, head := 1 } : WeightedRingT Nat).Len ∧
      (({ MaxWeight := 10, weight := 2, items := [some 3, none, none, none], weights := [2, 0, 0, 0], tail := 0, head := 1 } : WeightedRingT Nat).grow).items.getD 0 none = (({ MaxWeight := 10, weight := 2, items := [some 3, none, none, none], weights := [2, 0, 0, 0], tail := 0, head := 1 } : WeightedRingT Nat).content.getD 0 (none, 0)).1 := by
  have hT := (C2_growth_discipline Nat).1
    ({ items := [some 5, none], mask := 1, tail := 0, head := 1, maxSize := 5 } : RingT Nat) 1
    (by refine ⟨?_, ?_, ?_, ?_, ?_, ?_⟩ <;> decide) (by norm_num)
  have hW := (C2_growth_discipline Nat).2.1
    ({ MaxWeight := 10, weight := 2, items := [some 3, none, none, none], weights := [2, 0, 0, 0], tail := 0, head := 1 } : WeightedRingT Nat) 2
    (by refine ⟨?_, ?_, ?_, ?_, ?_, ?_⟩ <;> decide) (by norm_num)
  exact ⟨hT.1, hT.2.1, hT.2.2.1, hT.2.2.2.2 0 (by decide), hW.1, hW.2.1,
    hW.2.2.1, hW.2.2.2.2 0 (by decide)⟩

end Ringbuffer

